import Mathlib

/-!
# Verification of the TVM VM executable codec and structural-equality engine

This file embeds, as executable Lean definitions, the two runtime cores of
the repository:

* `src/runtime/vm/executable.cc` — the serialized VM executable: constant
  pool, function table, instruction stream; its binary save/load codec and
  the two disassembly dialects (`AsText`, `AsPython`);
* `src/node/structural_equal.cc` — the non-recursive, stack-based
  structural-equality engine with var remapping, path tracing and deferred
  failure reporting.

The byte stream is modelled as `List Nat` (each element one byte,
little-endian, as written by the dmlc stream used in the source).  Machine
integers are modelled as `Nat`/`Int` with explicit reduction modulo `2^w`
at the serialization boundary.  Fatal checks (`ICHECK` / `LOG(FATAL)`) are
modelled as the `Except.error` branch of the functions that can reach them.
-/

namespace VMExe

/-! ## Binary I/O primitives (dmlc stream over a byte list, little-endian)

`byteChunk k n` is the `k`-byte little-endian image of `n % 256^k`, which is
what `dmlc::Stream::Write` emits for a `k`-byte scalar holding `n`.
`readChunk k` is the checked read (fails when fewer than `k` bytes remain);
`readChunkPad k` is the semantics of an *unchecked* read into zero-initialized
storage: the available bytes are consumed and the missing high bytes stay 0.
(The source also performs unchecked reads into uninitialized scalars; the
blobs quantified over in the theorems below never reach those reads
partially, so the zero-fill convention is never relied upon there.) -/

def byteChunk : Nat → Nat → List Nat
  | 0, _ => []
  | k + 1, n => n % 256 :: byteChunk k (n / 256)

def chunkVal : List Nat → Nat
  | [] => 0
  | b :: s => b % 256 + 256 * chunkVal s

def readChunk (k : Nat) (s : List Nat) : Option (Nat × List Nat) :=
  if k ≤ s.length then some (chunkVal (s.take k), s.drop k) else none

def readChunkPad (k : Nat) (s : List Nat) : Nat × List Nat :=
  (chunkVal (s.take k), s.drop k)

/-- Two's-complement encoding of a signed `8*k`-bit integer, as the raw bytes
`dmlc::Stream::Write` emits for `int64_t`/`int32_t` values. -/
def intChunk (k : Nat) (i : Int) : List Nat :=
  byteChunk k (i % (2 ^ (8 * k))).toNat

/-- Reinterpret an unsigned `8*k`-bit value as a two's-complement integer. -/
def asSigned (k : Nat) (n : Nat) : Int :=
  if n < 2 ^ (8 * k - 1) then (n : Int) else (n : Int) - (2 ^ (8 * k) : Nat)

def readIntChunk (k : Nat) (s : List Nat) : Option (Int × List Nat) :=
  match readChunk k s with
  | none => none
  | some (n, r) => some (asSigned k n, r)

/-- `dmlc::Stream::Write(std::string)`: 64-bit length then raw bytes. -/
def writeLPBytes (b : List Nat) : List Nat :=
  byteChunk 8 b.length ++ b

/-- Checked read of a length-prefixed byte string. -/
def readLPBytes (s : List Nat) : Option (List Nat × List Nat) :=
  match readChunk 8 s with
  | none => none
  | some (n, r) => if n ≤ r.length then some (r.take n, r.drop n) else none

/-- Unchecked read of a length-prefixed byte string, as performed by
`LoadFromBinary` on the outer blob: `std::string::resize` zero-fills, a
partial raw read overwrites only the available prefix, and the success flag
is discarded.  If even the length read fails the string stays empty. -/
def readLPBytesPad (s : List Nat) : List Nat × List Nat :=
  match readChunk 8 s with
  | none => ([], s.drop 8)
  | some (n, r) => (r.take n ++ List.replicate (n - r.length) 0, r.drop n)

/-! ### Round-trip lemmas for the primitives -/

theorem byteChunk_length (k n : Nat) : (byteChunk k n).length = k := by
  induction k generalizing n with
  | zero => rfl
  | succ k ih => simp [byteChunk, ih]

theorem chunkVal_byteChunk (k n : Nat) : chunkVal (byteChunk k n) = n % 256 ^ k := by
  induction k generalizing n with
  | zero => simp [byteChunk, chunkVal, Nat.mod_one]
  | succ k ih =>
    simp only [byteChunk, chunkVal, ih, Nat.pow_succ]
    rw [Nat.mod_mod_of_dvd n (dvd_refl 256),
      (Nat.mod_mul_right_div_self n 256 (256 ^ k)).symm,
      show n % 256 = n % (256 * 256 ^ k) % 256 from
        (Nat.mod_mod_of_dvd n (dvd_mul_right 256 (256 ^ k))).symm,
      Nat.mul_comm (256 ^ k) 256]
    exact Nat.mod_add_div (n % (256 * 256 ^ k)) 256

theorem take_append_self (a b : List Nat) : (a ++ b).take a.length = a := by
  simp

theorem drop_append_self (a b : List Nat) : (a ++ b).drop a.length = b := by
  simp

theorem readChunk_prefix (a r : List Nat) :
    readChunk a.length (a ++ r) = some (chunkVal a, r) := by
  simp [readChunk, take_append_self, drop_append_self]

theorem readChunk_byteChunk (k n : Nat) (r : List Nat) :
    readChunk k (byteChunk k n ++ r) = some (n % 256 ^ k, r) := by
  have h := readChunk_prefix (byteChunk k n) r
  rw [byteChunk_length] at h
  rw [h, chunkVal_byteChunk]

theorem readLPBytes_writeLPBytes (b r : List Nat) (h : b.length < 2 ^ 64) :
    readLPBytes (writeLPBytes b ++ r) = some (b, r) := by
  have h256 : (256:Nat) ^ 8 = 2 ^ 64 := by norm_num
  simp only [writeLPBytes, List.append_assoc, readLPBytes, readChunk_byteChunk, h256,
    Nat.mod_eq_of_lt h]
  simp [take_append_self, drop_append_self]

theorem readChunkPad_byteChunk (k n : Nat) (r : List Nat) :
    readChunkPad k (byteChunk k n ++ r) = (n % 256 ^ k, r) := by
  have h1 := take_append_self (byteChunk k n) r
  have h2 := drop_append_self (byteChunk k n) r
  rw [byteChunk_length] at h1 h2
  simp [readChunkPad, h1, h2, chunkVal_byteChunk]

/-- Signed values in the two's-complement range of an `8*k`-bit integer. -/
def inRange (k : Nat) (i : Int) : Prop :=
  -(2 ^ (8 * k - 1)) ≤ i ∧ i < 2 ^ (8 * k - 1)

instance (k : Nat) (i : Int) : Decidable (inRange k i) := by
  unfold inRange; infer_instance

theorem intChunk_toNat (k : Nat) (hk : 0 < k) (i : Int) (h : inRange k i) :
    asSigned k ((i % (2 ^ (8 * k))).toNat % 256 ^ k) = i := by
  obtain ⟨h1, h2⟩ := h
  have hpow : (2:Int) ^ (8 * k) = 2 * 2 ^ (8 * k - 1) := by
    rw [← pow_succ']
    congr 1
    omega
  have h256 : (256:Nat) ^ k = 2 ^ (8 * k) := by
    rw [show (256:Nat) = 2 ^ 8 from rfl, ← pow_mul]
  have hMpos : (0:Int) < 2 ^ (8 * k) := by positivity
  have hmod_nonneg : 0 ≤ i % 2 ^ (8 * k) := Int.emod_nonneg i (by omega)
  have hmod_lt : i % 2 ^ (8 * k) < 2 ^ (8 * k) := Int.emod_lt_of_pos i hMpos
  have hcastpow : ((2 ^ (8 * k) : Nat) : Int) = 2 ^ (8 * k) := by push_cast; ring
  have hcastpow1 : ((2 ^ (8 * k - 1) : Nat) : Int) = 2 ^ (8 * k - 1) := by push_cast; ring
  have key : i % 2 ^ (8 * k) = if 0 ≤ i then i else i + 2 ^ (8 * k) := by
    split
    · exact Int.emod_eq_of_lt ‹_› (by omega)
    · have hsum : (i + 2 ^ (8 * k)) % 2 ^ (8 * k) = i % 2 ^ (8 * k) := by
        have := Int.add_mul_emod_self_left i (2 ^ (8 * k)) 1
        simp only [mul_one] at this
        exact this
      rw [← hsum]
      exact Int.emod_eq_of_lt (by omega) (by omega)
  have hlt : (i % 2 ^ (8 * k)).toNat < 2 ^ (8 * k) := by omega
  rw [Nat.mod_eq_of_lt (h256 ▸ hlt)]
  unfold asSigned
  split
  · rename_i hsm
    rw [key] at *
    split at key <;> omega
  · rename_i hsm
    rw [hcastpow]
    rw [key] at *
    split at key <;> omega

theorem readIntChunk_intChunk (k : Nat) (hk : 0 < k) (i : Int) (r : List Nat)
    (h : inRange k i) :
    readIntChunk k (intChunk k i ++ r) = some (i, r) := by
  simp only [readIntChunk, intChunk, readChunk_byteChunk]
  rw [intChunk_toNat k hk i h]

/-! ## Data model of the VM executable (`include/tvm/runtime/vm/executable.h`,
declarations only; layout mirrored from the field writes in
`VMFuncInfo::Save`/`Load`) -/

/-- `VMFuncInfo`: one entry of the function table.  `kind` is kept as the
integer the codec round-trips through `int32_t` (the enum `FuncKind`);
strings are byte lists (`std::string`). -/
structure VMFuncInfo where
  kind : Int
  name : List Nat
  start_instr : Int
  end_instr : Int
  num_args : Int
  register_file_size : Int
  param_names : List (List Nat)
deriving DecidableEq, Repr

/-- Modelled from the spec: the `FuncKind` enum values (`kVMFunc`,
`kVMTIRFunc`, `kPackedFunc`) are declared in the executable header, which is
not part of the sources; only their distinctness matters here. -/
def kVMFunc : Int := 0

def kVMTIRFunc : Int := 1

def kPackedFunc : Int := 2

/-- Modelled from the spec: payload produced by the external tensor
serializer (`runtime::SaveDLTensor` / `NDArray::Load`), a self-describing
blob of shape, dtype `{code,bits,lanes}` and contiguous data bytes. -/
structure TensorBlob where
  shape : List Int
  code : Nat
  bits : Nat
  lanes : Nat
  data : List Nat
deriving DecidableEq, Repr

/-- Modelled from the spec: `SaveDLTensor` emits shape, dtype and raw data.
Concrete framing chosen for the model; `loadDLTensor` is its exact inverse,
which is all `LoadConstantSection` relies on. -/
def saveDLTensor (t : TensorBlob) : List Nat :=
  byteChunk 8 t.shape.length ++ (t.shape.map (intChunk 8)).flatten ++
    byteChunk 1 t.code ++ byteChunk 1 t.bits ++ byteChunk 2 t.lanes ++
    byteChunk 8 t.data.length ++ t.data

/-- One constant-pool entry: the tagged union stored in `constants`
(`ffi::Any` restricted to the cases the codec accepts).  A `double` is kept
as its 8-byte pattern, which is exactly what the stream writes and reads. -/
inductive VMConst where
  | ndarray (t : TensorBlob)
  | shape (dims : List Int)
  | str (b : List Nat)
  | int (v : Int)
  | float (bits : Nat)
  | dtype (code : Nat) (bits : Nat) (lanes : Nat)
deriving DecidableEq, Repr

/-- Modelled from the spec: the `ffi::TypeIndex` tag registry lives in the
external ffi headers; the spec fixes the tags as small stable integers, so
the model uses the spec's illustrative values 0..5. -/
def kTVMFFINDArray : Int := 0

def kTVMFFIShape : Int := 1

def kTVMFFIStr : Int := 2

def kTVMFFIInt : Int := 3

def kTVMFFIFloat : Int := 4

def kTVMFFIDataType : Int := 5

/-- The in-memory executable: the fields of `VMExecutable` that the codec
serializes, plus the derived `func_map` (name → index). -/
structure VMExecutable where
  constants : List VMConst
  func_table : List VMFuncInfo
  func_map : List (List Nat × Nat)
  instr_offset : List Int
  instr_data : List Int
deriving DecidableEq, Repr

/-- `func_map[name] = i` for an `std::unordered_map`: overwrite or insert. -/
def mapInsert (m : List (List Nat × Nat)) (k : List Nat) (v : Nat) :
    List (List Nat × Nat) :=
  match m with
  | [] => [(k, v)]
  | (k', v') :: rest => if k' = k then (k, v) :: rest else (k', v') :: mapInsert rest k v

/-- The loop in `LoadGlobalSection` that rebuilds `func_map` from
`func_table`. -/
def buildFuncMap (ft : List VMFuncInfo) : List (List Nat × Nat) :=
  (List.range ft.length).foldl
    (fun m i => match ft[i]? with
      | some f => mapInsert m f.name i
      | none => m) []

/-! ## The serializer (`SaveToBinary` and its section helpers) -/

/-- The magic number `kTVMVMBytecodeMagic = 0xD225DE2F4214151D`. -/
def kTVMVMBytecodeMagic : Nat := 0xD225DE2F4214151D

/-- Modelled from the spec: the version string macro `VM_VERSION` is defined
in the VM headers, outside the sources; only its identity across save and
load matters. -/
def vmVersion : List Nat := [48, 46, 49, 46, 48]

/-- `SaveHeader`: magic as `uint64`, then the length-prefixed version. -/
def saveHeader : List Nat :=
  byteChunk 8 kTVMVMBytecodeMagic ++ writeLPBytes vmVersion

/-- `VMFuncInfo::Save`. -/
def VMFuncInfo.save (f : VMFuncInfo) : List Nat :=
  intChunk 4 f.kind ++ writeLPBytes f.name ++ intChunk 8 f.start_instr ++
    intChunk 8 f.end_instr ++ intChunk 8 f.num_args ++
    intChunk 8 f.register_file_size ++
    byteChunk 8 f.param_names.length ++ (f.param_names.map writeLPBytes).flatten

/-- `SaveGlobalSection`: `func_table` as a length-prefixed vector. -/
def saveGlobalSection (ft : List VMFuncInfo) : List Nat :=
  byteChunk 8 ft.length ++ (ft.map VMFuncInfo.save).flatten

/-- The per-constant body of `SaveConstantSection`: a 32-bit type tag
followed by the payload (branch order as in the source). -/
def saveConstant : VMConst → List Nat
  | .ndarray t => intChunk 4 kTVMFFINDArray ++ saveDLTensor t
  | .shape dims =>
      intChunk 4 kTVMFFIShape ++ byteChunk 8 dims.length ++
        (dims.map (intChunk 8)).flatten
  | .str b => intChunk 4 kTVMFFIStr ++ byteChunk 8 b.length ++ b
  | .int v => intChunk 4 kTVMFFIInt ++ intChunk 8 v
  | .float bits => intChunk 4 kTVMFFIFloat ++ byteChunk 8 bits
  | .dtype c b l =>
      intChunk 4 kTVMFFIDataType ++ byteChunk 1 c ++ byteChunk 1 b ++ byteChunk 2 l

/-- `SaveConstantSection`: `uint64` count then each tagged constant. -/
def saveConstantSection (cs : List VMConst) : List Nat :=
  byteChunk 8 cs.length ++ (cs.map saveConstant).flatten

/-- A `vector<int64>` as written by the dmlc stream: `uint64` count then the
raw elements. -/
def saveI64Vec (v : List Int) : List Nat :=
  byteChunk 8 v.length ++ (v.map (intChunk 8)).flatten

/-- `SaveCodeSection`: `instr_offset` then `instr_data`. -/
def saveCodeSection (E : VMExecutable) : List Nat :=
  saveI64Vec E.instr_offset ++ saveI64Vec E.instr_data

/-- `VMExecutable::SaveToBinary`: the four sections written into an inner
memory stream, which is then emitted as one length-prefixed string. -/
def saveToBinary (E : VMExecutable) : List Nat :=
  writeLPBytes (saveHeader ++ saveGlobalSection E.func_table ++
    saveConstantSection E.constants ++ saveCodeSection E)

/-! ## The loader (`LoadFromBinary` and its section helpers)

`ICHECK`/`LOG(FATAL)` terminate the process; they are modelled as
`Except.error` carrying the message text.  `STREAM_CHECK(ok, section)`
raises `"Invalid VM file format in the <section> section.\n"`. -/

def streamErr (sec : String) : String :=
  "Invalid VM file format in the " ++ sec ++ " section." ++ "\n"

/-- Modelled from the spec: `ffi::TypeIndexToTypeKey` renders a type index;
only the fixed message prefix around it is relied upon. -/
def typeIndexToTypeKey (tag : Int) : String := toString tag

def constPoolErr (tag : Int) : String :=
  "Constant pool can only contain NDArray and DLDataType, but got " ++
    typeIndexToTypeKey tag ++ " when loading the VM constant pool."

/-- `LoadHeader`: magic then version, each `STREAM_CHECK`ed. -/
def loadHeader (s : List Nat) : Except String (List Nat) :=
  match readChunk 8 s with
  | none => .error (streamErr "header")
  | some (m, r) =>
    if m ≠ kTVMVMBytecodeMagic then .error (streamErr "header")
    else match readLPBytes r with
      | none => .error (streamErr "version")
      | some (v, r') =>
        if v ≠ vmVersion then .error (streamErr "version") else .ok r'

/-- Generic checked vector-element loop (`dmlc` vector reads and the
function-table loop). -/
def readN {α : Type} (rd : List Nat → Option (α × List Nat)) :
    Nat → List Nat → Option (List α × List Nat)
  | 0, s => some ([], s)
  | n + 1, s =>
    match rd s with
    | none => none
    | some (a, r) =>
      match readN rd n r with
      | none => none
      | some (as, r') => some (a :: as, r')

/-- `VMFuncInfo::Load`: returns `none` on any failed read (the caller's
`STREAM_CHECK` turns that into the section error). -/
def VMFuncInfo.load (s : List Nat) : Option (VMFuncInfo × List Nat) :=
  match readIntChunk 4 s with
  | none => none
  | some (kind, s) =>
    match readLPBytes s with
    | none => none
    | some (name, s) =>
      match readIntChunk 8 s with
      | none => none
      | some (st, s) =>
        match readIntChunk 8 s with
        | none => none
        | some (en, s) =>
          match readIntChunk 8 s with
          | none => none
          | some (na, s) =>
            match readIntChunk 8 s with
            | none => none
            | some (rf, s) =>
              match readChunk 8 s with
              | none => none
              | some (np, s) =>
                match readN readLPBytes np s with
                | none => none
                | some (ps, s) => some (⟨kind, name, st, en, na, rf, ps⟩, s)

/-- `LoadGlobalSection` (including the `func_map` rebuild). -/
def loadGlobalSection (s : List Nat) :
    Except String ((List VMFuncInfo × List (List Nat × Nat)) × List Nat) :=
  match readChunk 8 s with
  | none => .error (streamErr "Global Section")
  | some (n, r) =>
    match readN VMFuncInfo.load n r with
    | none => .error (streamErr "Global Section")
    | some (ft, r') => .ok ((ft, buildFuncMap ft), r')

/-- Modelled from the spec: `NDArray::Load` (external) reads back exactly
what `SaveDLTensor` wrote, failing on a malformed blob. -/
def loadDLTensor (s : List Nat) : Option (TensorBlob × List Nat) :=
  match readChunk 8 s with
  | none => none
  | some (nd, s) =>
    match readN (readIntChunk 8) nd s with
    | none => none
    | some (shape, s) =>
      match readChunk 1 s with
      | none => none
      | some (code, s) =>
        match readChunk 1 s with
        | none => none
        | some (bits, s) =>
          match readChunk 2 s with
          | none => none
          | some (lanes, s) =>
            match readChunk 8 s with
            | none => none
            | some (nb, s) =>
              if nb ≤ s.length then
                some (⟨shape, code, bits, lanes, s.take nb⟩, s.drop nb)
              else none

/-- The unchecked dimension loop of the Shape branch: each `int64` is read
into a zero-initialized vector slot and the success flag is ignored. -/
def readDimsPad : Nat → List Nat → List Int × List Nat
  | 0, s => ([], s)
  | n + 1, s =>
    let (v, r) := readChunkPad 8 s
    let (vs, r') := readDimsPad n r
    (asSigned 8 v :: vs, r')

/-- The unchecked character loop of the String branch: `vector<char>` is
zero-initialized and each 1-byte read that fails leaves the slot 0. -/
def takePad (k : Nat) (s : List Nat) : List Nat :=
  s.take k ++ List.replicate (k - s.length) 0

/-- One iteration of `LoadConstantSection`'s loop: a `STREAM_CHECK`ed
32-bit tag dispatching on the constant kind.  The payload reads are
unchecked in the source (their success flags are discarded), modelled by
the `Pad` readers; an unknown tag is the `LOG(FATAL)` branch. -/
def loadOneConstant (s : List Nat) : Except String (VMConst × List Nat) :=
  match readIntChunk 4 s with
  | none => .error (streamErr "constant")
  | some (tag, r) =>
    if tag = kTVMFFINDArray then
      match loadDLTensor r with
      | none => .error "Invalid DLTensor file format"
      | some (t, r') => .ok (.ndarray t, r')
    else if tag = kTVMFFIShape then
      let (sz, r1) := readChunkPad 8 r
      let (vals, r2) := readDimsPad sz r1
      .ok (.shape vals, r2)
    else if tag = kTVMFFIDataType then
      let (c, r1) := readChunkPad 1 r
      let (b, r2) := readChunkPad 1 r1
      let (l, r3) := readChunkPad 2 r2
      .ok (.dtype c b l, r3)
    else if tag = kTVMFFIStr then
      let (sz, r1) := readChunkPad 8 r
      .ok (.str (takePad sz r1), r1.drop sz)
    else if tag = kTVMFFIInt then
      let (v, r1) := readChunkPad 8 r
      .ok (.int (asSigned 8 v), r1)
    else if tag = kTVMFFIFloat then
      let (v, r1) := readChunkPad 8 r
      .ok (.float v, r1)
    else .error (constPoolErr tag)

/-- The `size`-iteration loop of `LoadConstantSection`, each iteration one
tagged constant appended with `push_back`. -/
def loadConstantsLoop : Nat → List Nat → Except String (List VMConst × List Nat)
  | 0, s => .ok ([], s)
  | n + 1, s =>
    match loadOneConstant s with
    | .error e => .error e
    | .ok (c, r) =>
      match loadConstantsLoop n r with
      | .error e => .error e
      | .ok (cs, r') => .ok (c :: cs, r')

/-- `LoadConstantSection`. -/
def loadConstantSection (s : List Nat) :
    Except String (List VMConst × List Nat) :=
  match readChunk 8 s with
  | none => .error (streamErr "constant")
  | some (sz, r) => loadConstantsLoop sz r

/-- A checked `vector<int64>` read. -/
def readI64Vec (s : List Nat) : Option (List Int × List Nat) :=
  match readChunk 8 s with
  | none => none
  | some (n, r) => readN (readIntChunk 8) n r

/-- `LoadCodeSection`. -/
def loadCodeSection (s : List Nat) :
    Except String ((List Int × List Int) × List Nat) :=
  match readI64Vec s with
  | none => .error (streamErr "instr offset")
  | some (io, r) =>
    match readI64Vec r with
    | none => .error (streamErr "instr data")
    | some (idt, r') => .ok ((io, idt), r')

/-- The section pipeline of `LoadFromBinary` run on the inner code string. -/
def loadInner (code : List Nat) : Except String VMExecutable :=
  match loadHeader code with
  | .error e => .error e
  | .ok s =>
    match loadGlobalSection s with
    | .error e => .error e
    | .ok ((ft, fm), s) =>
      match loadConstantSection s with
      | .error e => .error e
      | .ok (cs, s) =>
        match loadCodeSection s with
        | .error e => .error e
        | .ok ((io, idt), _) =>
          .ok ⟨cs, ft, fm, io, idt⟩

/-- `VMExecutable::LoadFromBinary`: the outer length-prefixed string is read
without checking the success flag (`resize` zero-fills), then the sections
are parsed from it. -/
def loadFromBinary (blob : List Nat) : Except String VMExecutable :=
  loadInner (readLPBytesPad blob).1

/-! ## Well-formedness: every serialized scalar is within its wire type -/

def WfBytes (b : List Nat) : Prop := b.length < 2 ^ 64 ∧ ∀ c ∈ b, c < 256

def WfFuncInfo (f : VMFuncInfo) : Prop :=
  inRange 4 f.kind ∧ WfBytes f.name ∧ inRange 8 f.start_instr ∧
    inRange 8 f.end_instr ∧ inRange 8 f.num_args ∧
    inRange 8 f.register_file_size ∧ f.param_names.length < 2 ^ 64 ∧
    ∀ p ∈ f.param_names, WfBytes p

def WfTensor (t : TensorBlob) : Prop :=
  t.shape.length < 2 ^ 64 ∧ (∀ d ∈ t.shape, inRange 8 d) ∧ t.code < 2 ^ 8 ∧
    t.bits < 2 ^ 8 ∧ t.lanes < 2 ^ 16 ∧ WfBytes t.data

def WfConst : VMConst → Prop
  | .ndarray t => WfTensor t
  | .shape dims => dims.length < 2 ^ 64 ∧ ∀ d ∈ dims, inRange 8 d
  | .str b => WfBytes b
  | .int v => inRange 8 v
  | .float bits => bits < 2 ^ 64
  | .dtype c b l => c < 2 ^ 8 ∧ b < 2 ^ 8 ∧ l < 2 ^ 16

/-- The inner code string written by `SaveToBinary` before the outer length
prefix is applied. -/
def innerBytes (E : VMExecutable) : List Nat :=
  saveHeader ++ saveGlobalSection E.func_table ++
    saveConstantSection E.constants ++ saveCodeSection E

def WfExec (E : VMExecutable) : Prop :=
  (∀ f ∈ E.func_table, WfFuncInfo f) ∧ E.func_table.length < 2 ^ 64 ∧
    (∀ c ∈ E.constants, WfConst c) ∧ E.constants.length < 2 ^ 64 ∧
    E.instr_offset.length < 2 ^ 64 ∧ (∀ i ∈ E.instr_offset, inRange 8 i) ∧
    E.instr_data.length < 2 ^ 64 ∧ (∀ i ∈ E.instr_data, inRange 8 i) ∧
    (innerBytes E).length < 2 ^ 64

instance (b : List Nat) : Decidable (WfBytes b) := by unfold WfBytes; infer_instance

instance (f : VMFuncInfo) : Decidable (WfFuncInfo f) := by
  unfold WfFuncInfo; infer_instance

instance (t : TensorBlob) : Decidable (WfTensor t) := by
  unfold WfTensor; infer_instance

instance (c : VMConst) : Decidable (WfConst c) := by
  unfold WfConst
  cases c <;> infer_instance

instance (E : VMExecutable) : Decidable (WfExec E) := by
  unfold WfExec; infer_instance

/-! ## Round-trip of each section -/

theorem readN_flatten {α : Type} (rd : List Nat → Option (α × List Nat))
    (wr : α → List Nat) (as : List α) (r : List Nat)
    (h : ∀ a ∈ as, ∀ s, rd (wr a ++ s) = some (a, s)) :
    readN rd as.length ((as.map wr).flatten ++ r) = some (as, r) := by
  induction as with
  | nil => simp [readN]
  | cons a as ih =>
    rw [List.map_cons, List.flatten_cons, List.length_cons, List.append_assoc]
    show readN rd (as.length + 1) _ = _
    rw [show as.length + 1 = Nat.succ as.length from rfl]
    simp only [readN, h a (by simp)]
    rw [ih (fun a ha s => h a (by simp [ha]) s)]

theorem VMFuncInfo.load_save (f : VMFuncInfo) (r : List Nat) (h : WfFuncInfo f) :
    VMFuncInfo.load (f.save ++ r) = some (f, r) := by
  obtain ⟨h1, ⟨h2, _⟩, h3, h4, h5, h6, h7, h8⟩ := h
  have hps : ∀ s, readN readLPBytes f.param_names.length
      ((f.param_names.map writeLPBytes).flatten ++ s) = some (f.param_names, s) :=
    fun s => readN_flatten _ _ _ s
      (fun p hp s' => readLPBytes_writeLPBytes p s' (h8 p hp).1)
  simp only [VMFuncInfo.save, List.append_assoc, VMFuncInfo.load,
    readIntChunk_intChunk 4 (by norm_num) _ _ h1,
    readLPBytes_writeLPBytes _ _ h2,
    readIntChunk_intChunk 8 (by norm_num) _ _ h3,
    readIntChunk_intChunk 8 (by norm_num) _ _ h4,
    readIntChunk_intChunk 8 (by norm_num) _ _ h5,
    readIntChunk_intChunk 8 (by norm_num) _ _ h6,
    readChunk_byteChunk,
    Nat.mod_eq_of_lt (show f.param_names.length < 256 ^ 8 by norm_num; omega)]
  rw [hps r]

theorem loadGlobalSection_save (ft : List VMFuncInfo) (r : List Nat)
    (h : ∀ f ∈ ft, WfFuncInfo f) (hl : ft.length < 2 ^ 64) :
    loadGlobalSection (saveGlobalSection ft ++ r) = .ok ((ft, buildFuncMap ft), r) := by
  simp only [saveGlobalSection, List.append_assoc, loadGlobalSection,
    readChunk_byteChunk,
    Nat.mod_eq_of_lt (show ft.length < 256 ^ 8 by norm_num; omega)]
  rw [readN_flatten VMFuncInfo.load VMFuncInfo.save ft r
    (fun f hf s => VMFuncInfo.load_save f s (h f hf))]

theorem asSigned_intChunk8 (d : Int) (h : inRange 8 d) :
    asSigned 8 ((d % 2 ^ (8 * 8)).toNat % 256 ^ 8) = d :=
  intChunk_toNat 8 (by norm_num) d h

theorem readDimsPad_save (ds : List Int) (r : List Nat)
    (h : ∀ d ∈ ds, inRange 8 d) :
    readDimsPad ds.length ((ds.map (intChunk 8)).flatten ++ r) = (ds, r) := by
  induction ds with
  | nil => simp [readDimsPad]
  | cons d ds ih =>
    rw [List.map_cons, List.flatten_cons, List.length_cons, List.append_assoc]
    have hx := asSigned_intChunk8 d (h d (by simp))
    have ihr := ih (fun d hd => h d (by simp [hd]))
    simp only [readDimsPad, intChunk, readChunkPad_byteChunk, ihr, hx]

theorem pow256_8 : (256 : Nat) ^ 8 = 2 ^ 64 := by norm_num

theorem loadDLTensor_save (t : TensorBlob) (r : List Nat) (h : WfTensor t) :
    loadDLTensor (saveDLTensor t ++ r) = some (t, r) := by
  obtain ⟨h1, h2, h3, h4, h5, h6, _⟩ := h
  have hdims : ∀ s, readN (readIntChunk 8) t.shape.length
      ((t.shape.map (intChunk 8)).flatten ++ s) = some (t.shape, s) :=
    fun s => readN_flatten _ _ _ s
      (fun d hd s' => readIntChunk_intChunk 8 (by norm_num) d s' (h2 d hd))
  simp only [saveDLTensor, List.append_assoc, loadDLTensor,
    readChunk_byteChunk, hdims,
    Nat.mod_eq_of_lt (show t.shape.length < 256 ^ 8 by rw [pow256_8]; omega),
    Nat.mod_eq_of_lt (show t.code < 256 ^ 1 by norm_num; omega),
    Nat.mod_eq_of_lt (show t.bits < 256 ^ 1 by norm_num; omega),
    Nat.mod_eq_of_lt (show t.lanes < 256 ^ 2 by norm_num; omega),
    Nat.mod_eq_of_lt (show t.data.length < 256 ^ 8 by rw [pow256_8]; omega)]
  simp [take_append_self, drop_append_self]

theorem inRange_tag (t : Int) (h1 : 0 ≤ t) (h2 : t < 256) : inRange 4 t := by
  unfold inRange
  norm_num
  omega

theorem readIntChunk_tag (tag : Int) (h1 : 0 ≤ tag) (h2 : tag < 256) (u : List Nat) :
    readIntChunk 4 (intChunk 4 tag ++ u) = some (tag, u) :=
  readIntChunk_intChunk 4 (by norm_num) tag u (inRange_tag tag h1 h2)

theorem loadOne_ndarray (t : TensorBlob) (w s : List Nat)
    (h : loadDLTensor w = some (t, s)) :
    loadOneConstant (intChunk 4 kTVMFFINDArray ++ w) = .ok (.ndarray t, s) := by
  rw [loadOneConstant, readIntChunk_tag kTVMFFINDArray (by norm_num [kTVMFFINDArray])
    (by norm_num [kTVMFFINDArray])]
  simp only [h]
  norm_num [kTVMFFINDArray]

theorem loadOne_shape (dims : List Int) (n1 : Nat) (w w1 s : List Nat)
    (h1 : readChunkPad 8 w = (n1, w1)) (h2 : readDimsPad n1 w1 = (dims, s)) :
    loadOneConstant (intChunk 4 kTVMFFIShape ++ w) = .ok (.shape dims, s) := by
  rw [loadOneConstant, readIntChunk_tag kTVMFFIShape (by norm_num [kTVMFFIShape])
    (by norm_num [kTVMFFIShape])]
  simp only [h1, h2]
  norm_num [kTVMFFIShape, kTVMFFINDArray]

theorem loadOne_dtype (c1 b1 l1 : Nat) (w w1 w2 w3 : List Nat)
    (h1 : readChunkPad 1 w = (c1, w1)) (h2 : readChunkPad 1 w1 = (b1, w2))
    (h3 : readChunkPad 2 w2 = (l1, w3)) :
    loadOneConstant (intChunk 4 kTVMFFIDataType ++ w) = .ok (.dtype c1 b1 l1, w3) := by
  rw [loadOneConstant, readIntChunk_tag kTVMFFIDataType (by norm_num [kTVMFFIDataType])
    (by norm_num [kTVMFFIDataType])]
  simp only [h1, h2, h3]
  norm_num [kTVMFFIDataType, kTVMFFIShape, kTVMFFINDArray]

theorem loadOne_str (n1 : Nat) (w w1 : List Nat)
    (h1 : readChunkPad 8 w = (n1, w1)) :
    loadOneConstant (intChunk 4 kTVMFFIStr ++ w) =
      .ok (.str (takePad n1 w1), w1.drop n1) := by
  rw [loadOneConstant, readIntChunk_tag kTVMFFIStr (by norm_num [kTVMFFIStr])
    (by norm_num [kTVMFFIStr])]
  simp only [h1]
  norm_num [kTVMFFIStr, kTVMFFIShape, kTVMFFINDArray, kTVMFFIDataType]

theorem loadOne_int (n1 : Nat) (w w1 : List Nat)
    (h1 : readChunkPad 8 w = (n1, w1)) :
    loadOneConstant (intChunk 4 kTVMFFIInt ++ w) = .ok (.int (asSigned 8 n1), w1) := by
  rw [loadOneConstant, readIntChunk_tag kTVMFFIInt (by norm_num [kTVMFFIInt])
    (by norm_num [kTVMFFIInt])]
  simp only [h1]
  norm_num [kTVMFFIInt, kTVMFFIShape, kTVMFFINDArray, kTVMFFIDataType, kTVMFFIStr]

theorem loadOne_float (n1 : Nat) (w w1 : List Nat)
    (h1 : readChunkPad 8 w = (n1, w1)) :
    loadOneConstant (intChunk 4 kTVMFFIFloat ++ w) = .ok (.float n1, w1) := by
  rw [loadOneConstant, readIntChunk_tag kTVMFFIFloat (by norm_num [kTVMFFIFloat])
    (by norm_num [kTVMFFIFloat])]
  simp only [h1]
  norm_num [kTVMFFIFloat, kTVMFFIShape, kTVMFFINDArray, kTVMFFIDataType, kTVMFFIStr,
    kTVMFFIInt]

theorem loadOneConstant_save (c : VMConst) (hc : WfConst c) (s : List Nat) :
    loadOneConstant (saveConstant c ++ s) = .ok (c, s) := by
  cases c with
  | ndarray t =>
    rw [saveConstant, List.append_assoc]
    exact loadOne_ndarray t _ s (loadDLTensor_save t s hc)
  | shape dims =>
    obtain ⟨hd1, hd2⟩ := hc
    rw [saveConstant, List.append_assoc, List.append_assoc]
    refine loadOne_shape dims dims.length _ ((dims.map (intChunk 8)).flatten ++ s) s ?_ ?_
    · rw [readChunkPad_byteChunk]
      rw [Nat.mod_eq_of_lt (by rw [pow256_8]; omega)]
    · exact readDimsPad_save dims s hd2
  | str b =>
    obtain ⟨hb1, _⟩ := hc
    rw [saveConstant, List.append_assoc, List.append_assoc]
    have h1 : readChunkPad 8 (byteChunk 8 b.length ++ (b ++ s)) = (b.length, b ++ s) := by
      rw [readChunkPad_byteChunk]
      rw [Nat.mod_eq_of_lt (by rw [pow256_8]; omega)]
    rw [loadOne_str b.length _ (b ++ s) h1]
    have htp : takePad b.length (b ++ s) = b := by
      simp [takePad, take_append_self]
    rw [htp, drop_append_self]
  | int v =>
    rw [saveConstant, List.append_assoc]
    have h1 : readChunkPad 8 (intChunk 8 v ++ s) =
        ((v % 2 ^ (8 * 8)).toNat % 256 ^ 8, s) := by
      unfold intChunk
      exact readChunkPad_byteChunk _ _ _
    rw [loadOne_int _ _ s h1, asSigned_intChunk8 v hc]
  | float bits =>
    have hb : bits < 2 ^ 64 := hc
    rw [saveConstant, List.append_assoc]
    have h1 : readChunkPad 8 (byteChunk 8 bits ++ s) = (bits % 256 ^ 8, s) :=
      readChunkPad_byteChunk _ _ _
    rw [loadOne_float _ _ s h1, Nat.mod_eq_of_lt (by rw [pow256_8]; omega)]
  | dtype co bi la =>
    obtain ⟨hc1, hc2, hc3⟩ := hc
    rw [saveConstant, List.append_assoc, List.append_assoc, List.append_assoc]
    refine Eq.trans (loadOne_dtype (co % 256 ^ 1) (bi % 256 ^ 1) (la % 256 ^ 2) _
      (byteChunk 1 bi ++ (byteChunk 2 la ++ s)) (byteChunk 2 la ++ s) s
      (readChunkPad_byteChunk _ _ _) (readChunkPad_byteChunk _ _ _)
      (readChunkPad_byteChunk _ _ _)) ?_
    rw [Nat.mod_eq_of_lt (show co < 256 ^ 1 by norm_num; omega),
      Nat.mod_eq_of_lt (show bi < 256 ^ 1 by norm_num; omega),
      Nat.mod_eq_of_lt (show la < 256 ^ 2 by norm_num; omega)]

theorem loadConstantsLoop_save (cs : List VMConst) (r : List Nat)
    (h : ∀ c ∈ cs, WfConst c) :
    loadConstantsLoop cs.length ((cs.map saveConstant).flatten ++ r) = .ok (cs, r) := by
  induction cs with
  | nil => simp [loadConstantsLoop]
  | cons c cs ih =>
    have hone := loadOneConstant_save c (h c (by simp)) ((cs.map saveConstant).flatten ++ r)
    have ihr := ih (fun c hc => h c (by simp [hc]))
    rw [List.map_cons, List.flatten_cons, List.length_cons, List.append_assoc]
    simp only [loadConstantsLoop, hone, ihr]

theorem loadConstantSection_save (cs : List VMConst) (r : List Nat)
    (h : ∀ c ∈ cs, WfConst c) (hl : cs.length < 2 ^ 64) :
    loadConstantSection (saveConstantSection cs ++ r) = .ok (cs, r) := by
  simp only [saveConstantSection, List.append_assoc, loadConstantSection,
    readChunk_byteChunk,
    Nat.mod_eq_of_lt (show cs.length < 256 ^ 8 by norm_num; omega)]
  exact loadConstantsLoop_save cs r h

theorem readI64Vec_save (v : List Int) (r : List Nat)
    (h : ∀ i ∈ v, inRange 8 i) (hl : v.length < 2 ^ 64) :
    readI64Vec (saveI64Vec v ++ r) = some (v, r) := by
  simp only [saveI64Vec, List.append_assoc, readI64Vec, readChunk_byteChunk,
    Nat.mod_eq_of_lt (show v.length < 256 ^ 8 by norm_num; omega)]
  exact readN_flatten _ _ _ r
    (fun i hi s => readIntChunk_intChunk 8 (by norm_num) i s (h i hi))

theorem loadHeader_save (r : List Nat) : loadHeader (saveHeader ++ r) = .ok r := by
  simp only [saveHeader, List.append_assoc, loadHeader, readChunk_byteChunk,
    readLPBytes_writeLPBytes vmVersion r (by norm_num [vmVersion])]
  norm_num [kTVMVMBytecodeMagic]

/-! ## Round trip of the whole executable (claim C1) -/

theorem readI64Vec_save_nil (v : List Int) (h : ∀ i ∈ v, inRange 8 i)
    (hl : v.length < 2 ^ 64) : readI64Vec (saveI64Vec v) = some (v, []) := by
  have := readI64Vec_save v [] h hl
  rwa [List.append_nil] at this

theorem loadCodeSection_save (E : VMExecutable)
    (h1 : ∀ i ∈ E.instr_offset, inRange 8 i) (hl1 : E.instr_offset.length < 2 ^ 64)
    (h2 : ∀ i ∈ E.instr_data, inRange 8 i) (hl2 : E.instr_data.length < 2 ^ 64) :
    loadCodeSection (saveCodeSection E) = .ok ((E.instr_offset, E.instr_data), []) := by
  have ho := readI64Vec_save E.instr_offset (saveI64Vec E.instr_data) h1 hl1
  have hd := readI64Vec_save_nil E.instr_data h2 hl2
  rw [saveCodeSection]
  simp only [loadCodeSection, ho, hd]

theorem readLPBytesPad_writeLPBytes (b : List Nat) (h : b.length < 2 ^ 64) :
    readLPBytesPad (writeLPBytes b) = (b, []) := by
  have hmod : b.length % 256 ^ 8 = b.length := Nat.mod_eq_of_lt (by rw [pow256_8]; omega)
  simp only [writeLPBytes, readLPBytesPad, readChunk_byteChunk, hmod,
    List.take_length, List.drop_length, Nat.sub_self, List.replicate,
    List.append_nil]

theorem loadInner_save (E : VMExecutable) (h : WfExec E) :
    loadInner (innerBytes E) = .ok { E with func_map := buildFuncMap E.func_table } := by
  obtain ⟨hft, hftl, hcs, hcsl, hiol, hio, hidl, hid, _⟩ := h
  have hbytes : innerBytes E = saveHeader ++ (saveGlobalSection E.func_table ++
      (saveConstantSection E.constants ++ saveCodeSection E)) := by
    rw [innerBytes, List.append_assoc, List.append_assoc]
  have hH := loadHeader_save (saveGlobalSection E.func_table ++
    (saveConstantSection E.constants ++ saveCodeSection E))
  have hG := loadGlobalSection_save E.func_table
    (saveConstantSection E.constants ++ saveCodeSection E) hft hftl
  have hC := loadConstantSection_save E.constants (saveCodeSection E) hcs hcsl
  have hCode := loadCodeSection_save E hio hiol hid hidl
  rw [hbytes]
  rw [loadInner]
  rw [hH]
  simp only [hG, hC, hCode]

/-- Claim C1, main theorem: `LoadFromBinary` on the blob written by
`SaveToBinary` recovers the executable: the constants, function table,
instruction offsets and instruction data round-trip bit-exactly, and
`func_map` is rebuilt from the loaded function table. -/
theorem load_saveToBinary (E : VMExecutable) (h : WfExec E) :
    loadFromBinary (saveToBinary E) = .ok { E with func_map := buildFuncMap E.func_table } := by
  have hinlen : (innerBytes E).length < 2 ^ 64 := by
    obtain ⟨_, _, _, _, _, _, _, _, hl⟩ := h
    exact hl
  have houter : readLPBytesPad (writeLPBytes (innerBytes E)) = (innerBytes E, []) :=
    readLPBytesPad_writeLPBytes _ hinlen
  have hsave : saveToBinary E = writeLPBytes (innerBytes E) := by
    rw [saveToBinary, innerBytes]
  rw [loadFromBinary, hsave, houter]
  exact loadInner_save E h

/-! ## Instruction model and disassembly (`GetInstruction`, `AsText`, `AsPython`)

Opcode values, the `Instruction::Arg` packing and the two sentinel register
ids are declared in the executable/VM headers, which are not among the
sources; they are modelled from the spec: four opcodes, args packing
kind+value in one word (kind in the top byte), and two distinguished
register ids preserved verbatim by the codec. -/

def opCall : Int := 1

def opRet : Int := 2

def opGoto : Int := 3

def opIf : Int := 4

/-- Modelled from the spec: `ArgKind` tags. -/
def kRegister : Int := 0

def kImmediate : Int := 1

def kConstIdx : Int := 2

def kFuncIdx : Int := 3

/-- Modelled from the spec: the two sentinel register ids. -/
def kVoidRegister : Int := 2 ^ 56 - 1

def kVMRegister : Int := 2 ^ 56 - 2

/-- `Instruction::Arg::kind()`: the top byte of the word as a `u64`. -/
def argKind (w : Int) : Int := (((w % 2 ^ 64).toNat / 2 ^ 56 : Nat) : Int)

/-- `Instruction::Arg::value()`: the low 56 bits of the word. -/
def argValue (w : Int) : Int := (((w % 2 ^ 64).toNat % 2 ^ 56 : Nat) : Int)

/-- In-memory decoded instruction (`Instruction::Call/Ret/Goto/If`).  The
`call` arguments stay raw words, as in the flat buffer; their kind/value are
decoded at use sites via `argKind`/`argValue` (the source reinterpret-casts
the words). -/
inductive Instruction where
  | call (dst : Int) (func_idx : Int) (args : List Int)
  | ret (result : Int)
  | goto (pc_offset : Int)
  | ifcond (cond : Int) (false_offset : Int)
deriving DecidableEq, Repr

/-- `VMExecutable::GetInstruction`.  The source performs unchecked vector
indexing (out-of-range access is undefined); the model returns `none` there
as well as at the `LOG(FATAL)` default branch for an unknown opcode. -/
def getInstruction (E : VMExecutable) (i : Nat) : Option Instruction :=
  match E.instr_offset[i]? with
  | none => none
  | some off =>
    let o := (off % 2 ^ 64).toNat
    match E.instr_data[o]? with
    | none => none
    | some op =>
      if op = opCall then
        match E.instr_data[o + 1]?, E.instr_data[o + 2]?, E.instr_data[o + 3]? with
        | some dst, some fidx, some na =>
          match (List.range (na % 2 ^ 64).toNat).mapM
              (fun j => E.instr_data[o + 4 + j]?) with
          | some args => some (.call dst fidx args)
          | none => none
        | _, _, _ => none
      else if op = opRet then
        match E.instr_data[o + 1]? with
        | some res => some (.ret res)
        | none => none
      else if op = opGoto then
        match E.instr_data[o + 1]? with
        | some pc => some (.goto pc)
        | none => none
      else if op = opIf then
        match E.instr_data[o + 1]?, E.instr_data[o + 2]? with
        | some c, some fo => some (.ifcond c fo)
        | _, _ => none
      else none

/-- A Lean string literal as the byte list the C++ emits. -/
def bytes (s : String) : List Nat := s.data.map Char.toNat

/-- `std::to_string` on a signed integer. -/
def intDec (i : Int) : List Nat := bytes (toString i)

/-- `RegNameToStr`. -/
def regNameToStr (reg : Int) : List Nat :=
  if reg = kVoidRegister then bytes "%void"
  else if reg = kVMRegister then bytes "%vm"
  else bytes "%" ++ intDec reg

/-- The `get_func_name` lambda of `AsText`: `static_cast<size_t>(index)`
wraps modulo `2^64` and is bounds-checked against the table size. -/
def getFuncName (E : VMExecutable) (idx : Int) : List Nat :=
  match E.func_table[(idx % 2 ^ 64).toNat]? with
  | some f => f.name
  | none => bytes "unknown_func_index(" ++ intDec idx ++ bytes ")"

/-- `StrJoin` with `", "`. -/
def strJoin (delim : List Nat) : List (List Nat) → List Nat
  | [] => []
  | [x] => x
  | x :: xs => x ++ delim ++ strJoin delim xs

/-- `std::setw(w) << std::left`: pad on the right with spaces up to `w`. -/
def padTo (w : Nat) (s : List Nat) : List Nat :=
  s ++ List.replicate (w - s.length) 32

/-- Sequenced fallible rendering (the `<<` chains abort at the first
`LOG(FATAL)`). -/
def mapME {a b : Type} (f : a → Except String b) : List a → Except String (List b)
  | [] => .ok []
  | x :: xs =>
    match f x with
    | .error e => .error e
    | .ok y =>
      match mapME f xs with
      | .error e => .error e
      | .ok ys => .ok (y :: ys)

/-- The `instr_to_str` lambda of `AsText` (the default branch is the
`LOG(FATAL) << "Wrong instruction kind"`). -/
def instrToStr (E : VMExecutable) (w : Int) : Except String (List Nat) :=
  if argKind w = kRegister then .ok (regNameToStr (argValue w))
  else if argKind w = kImmediate then .ok (bytes "i" ++ intDec (argValue w))
  else if argKind w = kConstIdx then .ok (bytes "c[" ++ intDec (argValue w) ++ bytes "]")
  else if argKind w = kFuncIdx then
    .ok (bytes "f[" ++ getFuncName E (argValue w) ++ bytes "]")
  else .error "Wrong instruction kind"

/-- One disassembled line of the `AsText` instruction loop, including the
`std::setw`/`std::left` padding of the source. -/
def renderTextInstr (E : VMExecutable) (idx : Nat) : Except String (List Nat) :=
  match getInstruction E idx with
  | none => .error "should never hit this case"
  | some instr =>
    match instr with
    | .call dst fidx args =>
      match mapME (instrToStr E) args with
      | .error e => .error e
      | .ok strs =>
        .ok (bytes "  " ++ padTo 6 (bytes "call") ++ padTo 16 (getFuncName E fidx) ++
          bytes " in: " ++ padTo 12 (strJoin (bytes ", ") strs) ++ bytes " dst: " ++
          regNameToStr dst ++ bytes "\n")
    | .ret res =>
      .ok (bytes "  " ++ padTo 6 (bytes "ret ") ++ regNameToStr res ++ bytes "\n")
    | .goto pc =>
      .ok (bytes "  " ++ padTo 6 (bytes "goto") ++ intDec pc ++ bytes "\n")
    | .ifcond c fo =>
      .ok (bytes "  " ++ padTo 6 (bytes "If") ++ regNameToStr c ++ bytes ", " ++
        intDec fo ++ bytes "\n")

/-- The `[start_instr, end_instr)` index range of a `VMFunc`, with the
`size_t` casts of the source. -/
def funcRange (f : VMFuncInfo) : List Nat :=
  let s := (f.start_instr % 2 ^ 64).toNat
  let e := (f.end_instr % 2 ^ 64).toNat
  (List.range (e - s)).map (s + ·)

/-- One function of `AsText`: declaration lines for `PackedFunc` and
`VMTIRFunc`, the labelled instruction listing for `VMFunc`, and the
`ICHECK` failure for any other kind value. -/
def renderTextFunc (E : VMExecutable) (f : VMFuncInfo) : Except String (List Nat) :=
  if f.kind = kPackedFunc then
    .ok (bytes "@" ++ f.name ++ bytes " packed_func;\n\n")
  else if f.kind = kVMTIRFunc then
    .ok (bytes "@" ++ f.name ++ bytes " num_inputs=" ++ intDec f.num_args ++
      bytes " vm_tir_func;\n\n")
  else if f.kind = kVMFunc then
    match mapME (renderTextInstr E) (funcRange f) with
    | .error e => .error e
    | .ok lines => .ok (bytes "@" ++ f.name ++ bytes ":\n" ++ lines.flatten ++ bytes "\n")
  else .error "gfunc.kind == VMFuncInfo::FuncKind::kVMFunc"

/-- `VMExecutable::AsText`. -/
def asText (E : VMExecutable) : Except String (List Nat) :=
  match mapME (renderTextFunc E) E.func_table with
  | .error e => .error e
  | .ok parts => .ok parts.flatten

/-- The `get_func_name` lambda of `AsPython` (quotes the name). -/
def getFuncNamePy (E : VMExecutable) (idx : Int) : List Nat :=
  match E.func_table[(idx % 2 ^ 64).toNat]? with
  | some f => bytes "\"" ++ f.name ++ bytes "\""
  | none => bytes "ib.unknown_func_index(" ++ intDec idx ++ bytes ")"

/-- The `arg_to_py_str` lambda of `AsPython`. -/
def argToPyStr (E : VMExecutable) (w : Int) : Except String (List Nat) :=
  if argKind w = kRegister then
    if argValue w = kVMRegister then .ok (bytes "ib.r(vm)")
    else .ok (bytes "ib.r(" ++ intDec (argValue w) ++ bytes ")")
  else if argKind w = kImmediate then .ok (bytes "ib.imm(" ++ intDec (argValue w) ++ bytes ")")
  else if argKind w = kConstIdx then .ok (bytes "ib.c(" ++ intDec (argValue w) ++ bytes ")")
  else if argKind w = kFuncIdx then
    .ok (bytes "ib.f(" ++ getFuncNamePy E (argValue w) ++ bytes ")")
  else .error "Wrong instruction kind"

/-- One emitted line of the `AsPython` instruction loop. -/
def renderPyInstr (E : VMExecutable) (idx : Nat) : Except String (List Nat) :=
  match getInstruction E idx with
  | none => .error "should never hit this case"
  | some instr =>
    match instr with
    | .call dst fidx args =>
      match mapME (argToPyStr E) args with
      | .error e => .error e
      | .ok strs =>
        .ok (bytes "    ib.emit_call(" ++ getFuncNamePy E fidx ++ bytes ", args=[" ++
          strJoin (bytes ", ") strs ++ bytes "]" ++
          (if dst ≠ kVoidRegister then bytes ", dst=ib.r(" ++ intDec dst ++ bytes ")"
            else []) ++ bytes ")\n")
    | .ret res => .ok (bytes "    ib.emit_ret(ib.r(" ++ intDec res ++ bytes "))\n")
    | .goto pc => .ok (bytes "    ib.emit_goto(" ++ intDec pc ++ bytes ")\n")
    | .ifcond c fo =>
      .ok (bytes "    ib.emit_if(ib.r(" ++ intDec c ++ bytes "), " ++ intDec fo ++
        bytes ")\n")

/-- One function of `AsPython`: `PackedFunc` and `VMTIRFunc` entries are
skipped (`continue`), a `VMFunc` renders a `with ib.function(...)` block,
and any other kind hits the `ICHECK`. -/
def renderPyFunc (E : VMExecutable) (f : VMFuncInfo) : Except String (List Nat) :=
  if f.kind = kPackedFunc then .ok []
  else if f.kind = kVMTIRFunc then .ok []
  else if f.kind = kVMFunc then
    match mapME (renderPyInstr E) (funcRange f) with
    | .error e => .error e
    | .ok lines =>
      .ok (bytes "with ib.function(\"" ++ f.name ++ bytes "\", num_inputs=" ++
        intDec f.num_args ++ bytes "):\n" ++ lines.flatten)
  else .error "gfunc.kind == VMFuncInfo::FuncKind::kVMFunc"

/-- `VMExecutable::AsPython`. -/
def asPython (E : VMExecutable) : Except String (List Nat) :=
  match mapME (renderPyFunc E) E.func_table with
  | .error e => .error e
  | .ok parts => .ok (bytes "ib = rx.Builder()\n" ++ parts.flatten)

/-- Substring test on byte lists (used only to state the claims). -/
def startsWith : List Nat → List Nat → Bool
  | [], _ => true
  | _ :: _, [] => false
  | a :: as, b :: bs => a = b && startsWith as bs

def containsSeq (needle hay : List Nat) : Bool :=
  match hay with
  | [] => needle.isEmpty
  | _ :: t => startsWith needle hay || containsSeq needle t

/-! ## Concrete executables for the scenario claims -/

/-- The executable of scenario S1 / claim C3: a single `VMFunc` `main` whose
three instructions are `[call f0 in:%0,i3 dst:%1; goto 1; ret %1]`, with an
empty constant pool. -/
def exC3 : VMExecutable :=
  { constants := [],
    func_table := [⟨kVMFunc, bytes "main", 0, 3, 1, 2, []⟩],
    func_map := [(bytes "main", 0)],
    instr_offset := [0, 6, 8],
    instr_data := [opCall, 1, 0, 2, kRegister * 2 ^ 56 + 0, kImmediate * 2 ^ 56 + 3,
      opGoto, 1, opRet, 1] }

/-- An executable whose single function-table entry has the out-of-enum kind
value 7 (as a loaded blob can produce: `Load` casts a raw `int32` straight
into `FuncKind`). -/
def exC4 : VMExecutable :=
  { constants := [], func_table := [⟨7, bytes "oddfunc", 0, 0, 0, 0, []⟩],
    func_map := [], instr_offset := [], instr_data := [] }

/-- Declarations only: one `PackedFunc` and one `VMTIRFunc`, no `VMFunc`. -/
def exC4b : VMExecutable :=
  { constants := [], func_table := [⟨kPackedFunc, bytes "p1", 0, 0, 0, 0, []⟩,
      ⟨kVMTIRFunc, bytes "t1", 0, 0, 2, 0, []⟩],
    func_map := [], instr_offset := [], instr_data := [] }

/-- A small executable exercising every constant kind, used as the C1
round-trip witness input. -/
def exC1 : VMExecutable :=
  { constants := [.int 7, .str (bytes "abc"), .shape [2, 3], .dtype 2 32 1,
      .float 4638387860618067575, .int (-5),
      .ndarray ⟨[2, 2], 2, 32, 1, [1, 0, 0, 0, 2, 0, 0, 0, 3, 0, 0, 0, 4, 0, 0, 0]⟩],
    func_table := [⟨kVMFunc, bytes "main", 0, 3, 1, 2, [bytes "x"]⟩,
      ⟨kPackedFunc, bytes "ext", 0, 0, 0, 0, []⟩],
    func_map := [(bytes "main", 0), (bytes "ext", 1)],
    instr_offset := [0, 6, 8],
    instr_data := [opCall, 1, 0, 2, kRegister * 2 ^ 56 + 0, kImmediate * 2 ^ 56 + 3,
      opGoto, 1, opRet, 1] }

instance {e a : Type} [DecidableEq e] [DecidableEq a] : DecidableEq (Except e a) :=
  fun x y =>
    match x, y with
    | .error u, .error v =>
      if h : u = v then isTrue (by rw [h]) else isFalse (by intro hc; cases hc; exact h rfl)
    | .ok u, .ok v =>
      if h : u = v then isTrue (by rw [h]) else isFalse (by intro hc; cases hc; exact h rfl)
    | .error _, .ok _ => isFalse (by intro hc; cases hc)
    | .ok _, .error _ => isFalse (by intro hc; cases hc)

set_option maxRecDepth 100000 in
/-- Witness for C1: the round-trip theorem applied to `exC1`, whose
well-formedness is discharged by evaluation. -/
theorem load_saveToBinary_witness :
    loadFromBinary (saveToBinary exC1) =
      .ok { exC1 with func_map := buildFuncMap exC1.func_table } :=
  load_saveToBinary exC1 (by decide)

set_option maxRecDepth 100000 in
/-- Claim C3, counterexample: on the claimed executable the text produced by
`AsText` does **not** contain the substring `"ret %1"` — the source pads
`"ret "` with `std::setw(6)`/`std::left` to `"ret   "`, so three spaces
separate `ret` from `%1`. -/
theorem asText_exC3_no_claimed_ret :
    (asText exC3).map (fun t => containsSeq (bytes "ret %1") t) = .ok false := by
  decide

set_option maxRecDepth 100000 in
/-- Claim C3, amended: `AsText` of that executable contains `"@main:"`,
`"call"` and the padded `"ret   %1"` (and in particular both `"ret"` and
`"%1"`). -/
theorem asText_exC3_amended :
    (asText exC3).map (fun t => containsSeq (bytes "@main:") t &&
      containsSeq (bytes "call") t && containsSeq (bytes "ret   %1") t &&
      containsSeq (bytes "ret") t && containsSeq (bytes "%1") t) = .ok true := by
  decide

set_option maxRecDepth 100000 in
/-- Claim C4, counterexample: a function-table entry whose kind is not one
of the three enum values makes `AsPython` hit the `ICHECK` — a fatal error,
not a skip — even though the table contains no `VMFunc`. -/
theorem asPython_exC4_fatal :
    asPython exC4 = .error "gfunc.kind == VMFuncInfo::FuncKind::kVMFunc" := by
  decide

/-- Claim C4, amended: when every function-table entry is a `PackedFunc` or
`VMTIRFunc` declaration (the two kinds `AsPython` skips), the output is
exactly the `ib = rx.Builder()` preamble line. -/
theorem asPython_decl_only (E : VMExecutable)
    (h : ∀ f ∈ E.func_table, f.kind = kPackedFunc ∨ f.kind = kVMTIRFunc) :
    asPython E = .ok (bytes "ib = rx.Builder()\n") := by
  have hmap : ∀ fs : List VMFuncInfo,
      (∀ f ∈ fs, f.kind = kPackedFunc ∨ f.kind = kVMTIRFunc) →
      ∃ parts, mapME (renderPyFunc E) fs = .ok parts ∧ parts.flatten = [] := by
    intro fs
    induction fs with
    | nil => exact fun _ => ⟨[], rfl, rfl⟩
    | cons f fs ih =>
      intro hh
      obtain ⟨parts, hp, hf⟩ := ih (fun g hg => hh g (by simp [hg]))
      have hone : renderPyFunc E f = .ok [] := by
        rcases hh f (by simp) with hk | hk <;>
          simp [renderPyFunc, hk, kPackedFunc, kVMTIRFunc]
      refine ⟨[] :: parts, ?_, by simp [hf]⟩
      simp only [mapME, hone, hp]
  obtain ⟨parts, hp, hf⟩ := hmap E.func_table h
  rw [asPython, hp]
  simp [hf]

/-- Witness for the amended C4 theorem at `exC4b`. -/
theorem asPython_decl_only_witness :
    asPython exC4b = .ok (bytes "ib = rx.Builder()\n") :=
  asPython_decl_only exC4b (by decide)

/-! ## Format errors on load (claim C2) -/

theorem startsWith_append (a b : List Nat) : startsWith a (a ++ b) = true := by
  induction a with
  | nil => rfl
  | cons x xs ih => simp [startsWith, ih]

/-- The outer frame: on a well-formed outer string the unchecked outer read
recovers exactly the inner code. -/
theorem loadFromBinary_frame (code : List Nat) (h : code.length < 2 ^ 64) :
    loadFromBinary (writeLPBytes code) = loadInner code := by
  rw [loadFromBinary, readLPBytesPad_writeLPBytes code h]

/-- Magic mismatch or a truncated header fail naming the header section. -/
theorem loadInner_header_err (code : List Nat)
    (h : ∀ m r, readChunk 8 code = some (m, r) → m ≠ kTVMVMBytecodeMagic) :
    loadInner code = .error (streamErr "header") := by
  rw [loadInner]
  cases hrc : readChunk 8 code with
  | none => simp [loadHeader, hrc]
  | some mr =>
    have := h mr.1 mr.2 (by rw [hrc])
    simp [loadHeader, hrc, this]

/-- Version mismatch or a truncated version string fail naming the version
section. -/
theorem loadInner_version_err (rest : List Nat)
    (h : ∀ v r', readLPBytes rest = some (v, r') → v ≠ vmVersion) :
    loadInner (byteChunk 8 kTVMVMBytecodeMagic ++ rest) = .error (streamErr "version") := by
  have hm : readChunk 8 (byteChunk 8 kTVMVMBytecodeMagic ++ rest) =
      some (kTVMVMBytecodeMagic, rest) := by
    rw [readChunk_byteChunk]
    norm_num [kTVMVMBytecodeMagic]
  rw [loadInner]
  cases hlp : readLPBytes rest with
  | none => simp [loadHeader, hm, hlp]
  | some vr =>
    have := h vr.1 vr.2 (by rw [hlp])
    simp [loadHeader, hm, hlp, this]

/-- A truncated global section fails naming it. -/
theorem loadInner_global_err (rest : List Nat) (h : readChunk 8 rest = none) :
    loadInner (saveHeader ++ rest) = .error (streamErr "Global Section") := by
  have hH := loadHeader_save rest
  rw [loadInner, hH]
  simp [loadGlobalSection, h]

/-- A constant section truncated at the count read fails naming it. -/
theorem loadInner_constant_count_err (ft : List VMFuncInfo) (rest : List Nat)
    (hft : ∀ f ∈ ft, WfFuncInfo f) (hl : ft.length < 2 ^ 64)
    (h : readChunk 8 rest = none) :
    loadInner (saveHeader ++ (saveGlobalSection ft ++ rest)) =
      .error (streamErr "constant") := by
  have hH := loadHeader_save (saveGlobalSection ft ++ rest)
  have hG := loadGlobalSection_save ft rest hft hl
  rw [loadInner, hH]
  simp only [hG]
  simp [loadConstantSection, h]

/-- A constant section truncated right after a nonzero count (the tag read
fails) also fails naming it. -/
theorem loadInner_constant_tag_err (ft : List VMFuncInfo)
    (hft : ∀ f ∈ ft, WfFuncInfo f) (hl : ft.length < 2 ^ 64) :
    loadInner (saveHeader ++ (saveGlobalSection ft ++ byteChunk 8 1)) =
      .error (streamErr "constant") := by
  have hH := loadHeader_save (saveGlobalSection ft ++ byteChunk 8 1)
  have hG := loadGlobalSection_save ft (byteChunk 8 1) hft hl
  rw [loadInner, hH]
  simp only [hG]
  have hcnt : readChunk 8 (byteChunk 8 1) = some (1, []) := by
    have h := readChunk_byteChunk 8 1 []
    rw [List.append_nil] at h
    rw [h]
    norm_num
  have hloop : loadConstantsLoop 1 [] = .error (streamErr "constant") := by decide
  simp only [loadConstantSection, hcnt, hloop]

/-- A blob ending right after the constants fails naming the instr offset
section. -/
theorem loadInner_code_err (ft : List VMFuncInfo) (cs : List VMConst)
    (hft : ∀ f ∈ ft, WfFuncInfo f) (hlf : ft.length < 2 ^ 64)
    (hcs : ∀ c ∈ cs, WfConst c) (hlc : cs.length < 2 ^ 64) :
    loadInner (saveHeader ++ (saveGlobalSection ft ++ saveConstantSection cs)) =
      .error (streamErr "instr offset") := by
  have hH := loadHeader_save (saveGlobalSection ft ++ saveConstantSection cs)
  have hG := loadGlobalSection_save ft (saveConstantSection cs) hft hlf
  have hC : loadConstantSection (saveConstantSection cs ++ []) = .ok (cs, []) :=
    loadConstantSection_save cs [] hcs hlc
  rw [List.append_nil] at hC
  rw [loadInner, hH]
  simp only [hG, hC]
  simp [loadCodeSection, readI64Vec, readChunk]

/-- A blob truncated inside (or right after) the `instr_offset` vector
fails naming the instr offset section; a blob whose `instr_offset` vector
is intact but whose `instr_data` vector is truncated fails naming the
instr data section. -/
theorem loadInner_instr_data_err (ft : List VMFuncInfo) (cs : List VMConst)
    (io : List Int) (rest : List Nat)
    (hft : ∀ f ∈ ft, WfFuncInfo f) (hlf : ft.length < 2 ^ 64)
    (hcs : ∀ c ∈ cs, WfConst c) (hlc : cs.length < 2 ^ 64)
    (hio : ∀ i ∈ io, inRange 8 i) (hlio : io.length < 2 ^ 64)
    (hrest : readI64Vec rest = none) :
    loadInner (saveHeader ++ (saveGlobalSection ft ++ (saveConstantSection cs ++
        (saveI64Vec io ++ rest)))) = .error (streamErr "instr data") := by
  have hH := loadHeader_save (saveGlobalSection ft ++ (saveConstantSection cs ++
    (saveI64Vec io ++ rest)))
  have hG := loadGlobalSection_save ft (saveConstantSection cs ++ (saveI64Vec io ++ rest))
    hft hlf
  have hC := loadConstantSection_save cs (saveI64Vec io ++ rest) hcs hlc
  have hio2 := readI64Vec_save io rest hio hlio
  rw [loadInner, hH]
  simp only [hG, hC]
  simp only [loadCodeSection, hio2, hrest]

/-- An unknown constant tag fails with the constant-pool message. -/
theorem loadInner_unknown_tag (ft : List VMFuncInfo) (n : Nat) (tag : Int)
    (rest : List Nat) (hft : ∀ f ∈ ft, WfFuncInfo f) (hlf : ft.length < 2 ^ 64)
    (hn : n + 1 < 2 ^ 64) (h0 : 0 ≤ tag) (h256 : tag < 256)
    (hne : tag ≠ kTVMFFINDArray ∧ tag ≠ kTVMFFIShape ∧ tag ≠ kTVMFFIDataType ∧
      tag ≠ kTVMFFIStr ∧ tag ≠ kTVMFFIInt ∧ tag ≠ kTVMFFIFloat) :
    loadInner (saveHeader ++ (saveGlobalSection ft ++
        (byteChunk 8 (n + 1) ++ (intChunk 4 tag ++ rest)))) =
      .error (constPoolErr tag) := by
  obtain ⟨hne1, hne2, hne3, hne4, hne5, hne6⟩ := hne
  have hH := loadHeader_save (saveGlobalSection ft ++
    (byteChunk 8 (n + 1) ++ (intChunk 4 tag ++ rest)))
  have hG := loadGlobalSection_save ft (byteChunk 8 (n + 1) ++ (intChunk 4 tag ++ rest))
    hft hlf
  have hcnt : readChunk 8 (byteChunk 8 (n + 1) ++ (intChunk 4 tag ++ rest)) =
      some (n + 1, intChunk 4 tag ++ rest) := by
    rw [readChunk_byteChunk]
    rw [Nat.mod_eq_of_lt (by rw [pow256_8]; omega)]
  have htag := readIntChunk_tag tag h0 h256 rest
  rw [loadInner, hH]
  simp only [hG]
  simp only [loadConstantSection, hcnt, loadConstantsLoop, loadOneConstant, htag]
  simp [hne1, hne2, hne3, hne4, hne5, hne6]

/-- The fatal message of the unknown-tag branch begins with
`"Constant pool can only contain"`. -/
theorem constPoolErr_msg (tag : Int) :
    startsWith (bytes "Constant pool can only contain")
      (bytes (constPoolErr tag)) = true := by
  have hdata : ∀ p q : String, bytes (p ++ q) = bytes p ++ bytes q := by
    intro p q
    simp [bytes, String.data_append]
  have hlit : bytes "Constant pool can only contain NDArray and DLDataType, but got " =
      bytes "Constant pool can only contain" ++
        bytes " NDArray and DLDataType, but got " := by decide
  rw [constPoolErr, hdata, hdata, hlit, List.append_assoc, List.append_assoc]
  exact startsWith_append _ _

/-- The blob of the C2 counterexample: valid header, empty function table,
one string constant whose declared size is 5 but whose payload is cut to
three bytes — a truncated constant section. -/
def c2TruncBlob : List Nat :=
  writeLPBytes (saveHeader ++ (saveGlobalSection [] ++
    (byteChunk 8 1 ++ (intChunk 4 kTVMFFIStr ++ (byteChunk 8 5 ++ bytes "abc")))))

set_option maxRecDepth 100000 in
/-- Claim C2, counterexample: loading the blob whose **constant** section is
truncated produces the fatal diagnostic naming the **instr offset** section —
the string payload's failed reads are silently zero-filled, so the
truncation only surfaces at the next checked read, with the wrong section
name. -/
theorem loadFromBinary_trunc_misnamed :
    loadFromBinary c2TruncBlob = .error (streamErr "instr offset") ∧
      streamErr "instr offset" ≠ streamErr "constant" := by
  constructor
  · decide
  · decide

/-- Claim C2, amended: magic mismatch, version mismatch and an unknown
constant tag each fail fatally with the stated message, and truncation is
detected with the truncated section's name at every `STREAM_CHECK`ed read
(header, version, global section, constant count, constant tag, instr
offset, instr data); truncation *inside* a constant payload is not checked
there and surfaces only at the next checked read, which for the
counterexample blob is the code section's instr offset check. -/
theorem loadFromBinary_format_errors :
    (∀ code : List Nat, code.length < 2 ^ 64 →
        loadFromBinary (writeLPBytes code) = loadInner code) ∧
    (∀ code : List Nat, (∀ m r, readChunk 8 code = some (m, r) →
        m ≠ kTVMVMBytecodeMagic) → loadInner code = .error (streamErr "header")) ∧
    (∀ rest : List Nat, (∀ v r', readLPBytes rest = some (v, r') → v ≠ vmVersion) →
        loadInner (byteChunk 8 kTVMVMBytecodeMagic ++ rest) =
          .error (streamErr "version")) ∧
    (∀ rest : List Nat, readChunk 8 rest = none →
        loadInner (saveHeader ++ rest) = .error (streamErr "Global Section")) ∧
    (∀ (ft : List VMFuncInfo) (rest : List Nat), (∀ f ∈ ft, WfFuncInfo f) →
        ft.length < 2 ^ 64 → readChunk 8 rest = none →
        loadInner (saveHeader ++ (saveGlobalSection ft ++ rest)) =
          .error (streamErr "constant")) ∧
    (∀ ft : List VMFuncInfo, (∀ f ∈ ft, WfFuncInfo f) → ft.length < 2 ^ 64 →
        loadInner (saveHeader ++ (saveGlobalSection ft ++ byteChunk 8 1)) =
          .error (streamErr "constant")) ∧
    (∀ (ft : List VMFuncInfo) (cs : List VMConst), (∀ f ∈ ft, WfFuncInfo f) →
        ft.length < 2 ^ 64 → (∀ c ∈ cs, WfConst c) → cs.length < 2 ^ 64 →
        loadInner (saveHeader ++ (saveGlobalSection ft ++ saveConstantSection cs)) =
          .error (streamErr "instr offset")) ∧
    (∀ (ft : List VMFuncInfo) (cs : List VMConst) (io : List Int) (rest : List Nat),
        (∀ f ∈ ft, WfFuncInfo f) → ft.length < 2 ^ 64 →
        (∀ c ∈ cs, WfConst c) → cs.length < 2 ^ 64 →
        (∀ i ∈ io, inRange 8 i) → io.length < 2 ^ 64 → readI64Vec rest = none →
        loadInner (saveHeader ++ (saveGlobalSection ft ++ (saveConstantSection cs ++
            (saveI64Vec io ++ rest)))) = .error (streamErr "instr data")) ∧
    (∀ (ft : List VMFuncInfo) (n : Nat) (tag : Int) (rest : List Nat),
        (∀ f ∈ ft, WfFuncInfo f) → ft.length < 2 ^ 64 → n + 1 < 2 ^ 64 →
        0 ≤ tag → tag < 256 →
        (tag ≠ kTVMFFINDArray ∧ tag ≠ kTVMFFIShape ∧ tag ≠ kTVMFFIDataType ∧
          tag ≠ kTVMFFIStr ∧ tag ≠ kTVMFFIInt ∧ tag ≠ kTVMFFIFloat) →
        loadInner (saveHeader ++ (saveGlobalSection ft ++
            (byteChunk 8 (n + 1) ++ (intChunk 4 tag ++ rest)))) =
          .error (constPoolErr tag) ∧
          startsWith (bytes "Constant pool can only contain")
            (bytes (constPoolErr tag)) = true) :=
  ⟨loadFromBinary_frame, loadInner_header_err, loadInner_version_err,
    loadInner_global_err, loadInner_constant_count_err, loadInner_constant_tag_err,
    loadInner_code_err, loadInner_instr_data_err,
    fun ft n tag rest hft hlf hn h0 h256 hne =>
      ⟨loadInner_unknown_tag ft n tag rest hft hlf hn h0 h256 hne,
        constPoolErr_msg tag⟩⟩

set_option maxRecDepth 100000 in
/-- Witness for the amended C2 theorem: concrete instances of the magic
mismatch, the version mismatch, each truncated section (including the
instr offset and instr data vectors) and the unknown tag (tag 9). -/
theorem loadFromBinary_format_errors_witness :
    loadFromBinary (writeLPBytes [1, 2, 3]) = loadInner [1, 2, 3] ∧
    loadInner [1, 2, 3] = .error (streamErr "header") ∧
    loadInner (byteChunk 8 kTVMVMBytecodeMagic ++ writeLPBytes (bytes "9.9.9")) =
      .error (streamErr "version") ∧
    loadInner (saveHeader ++ [7]) = .error (streamErr "Global Section") ∧
    loadInner (saveHeader ++ (saveGlobalSection [] ++ [7])) =
      .error (streamErr "constant") ∧
    loadInner (saveHeader ++ (saveGlobalSection [] ++ byteChunk 8 1)) =
      .error (streamErr "constant") ∧
    loadInner (saveHeader ++ (saveGlobalSection [] ++ saveConstantSection [.int 7])) =
      .error (streamErr "instr offset") ∧
    loadInner (saveHeader ++ (saveGlobalSection [] ++ (saveConstantSection [.int 7] ++
        (saveI64Vec [4] ++ [7])))) = .error (streamErr "instr data") ∧
    loadInner (saveHeader ++ (saveGlobalSection [] ++
        (byteChunk 8 1 ++ (intChunk 4 9 ++ [])))) = .error (constPoolErr 9) :=
  ⟨loadFromBinary_format_errors.1 [1, 2, 3] (by decide),
    loadFromBinary_format_errors.2.1 [1, 2, 3] (by
      intro m r hmr
      rw [show readChunk 8 [1, 2, 3] = none from by decide] at hmr
      cases hmr),
    loadFromBinary_format_errors.2.2.1 (writeLPBytes (bytes "9.9.9")) (by
      intro v r' hv
      rw [show readLPBytes (writeLPBytes (bytes "9.9.9")) =
        some (bytes "9.9.9", []) from by decide] at hv
      cases hv
      decide),
    loadFromBinary_format_errors.2.2.2.1 [7] (by decide),
    loadFromBinary_format_errors.2.2.2.2.1 [] [7] (by decide) (by decide) (by decide),
    loadFromBinary_format_errors.2.2.2.2.2.1 [] (by decide) (by decide),
    loadFromBinary_format_errors.2.2.2.2.2.2.1 [] [.int 7] (by decide) (by decide)
      (by decide) (by decide),
    loadFromBinary_format_errors.2.2.2.2.2.2.2.1 [] [.int 7] [4] [7] (by decide)
      (by decide) (by decide) (by decide) (by decide) (by decide) (by decide),
    (loadFromBinary_format_errors.2.2.2.2.2.2.2.2 [] 0 9 [] (by decide) (by decide)
      (by decide) (by decide) (by decide) (by decide)).1⟩

/-! ## Tensor leaf equality (`NDArrayEqual`, claim C5) -/

/-- `kDLCPU` from the DLPack device enum. -/
def kDLCPU : Int := 1

/-- An `NDArray::Container` as seen by `NDArrayEqual`: object identity
(the pointer, as `addr`), device type, contiguity (the external
`runtime::IsContiguous` predicate on its strides, kept as an attribute),
shape (`ndim` is its length), the dtype triple and the raw data bytes. -/
structure NDContainer where
  addr : Nat
  device_type : Int
  contiguous : Bool
  shape : List Int
  code : Nat
  bits : Nat
  lanes : Nat
  data : List Nat
deriving DecidableEq, Repr

/-- Modelled from the spec: `runtime::GetDataSize` (external), the packed
byte size of a contiguous tensor. -/
def getDataSize (t : NDContainer) : Nat :=
  (t.shape.foldl (fun a d => a * d.toNat) 1) * t.bits * t.lanes / 8

/-- `NDArrayEqual`: identity fast path, then the four `ICHECK`
preconditions, then rank, per-dimension comparison through the reducer,
dtype triple, and (optionally) a byte compare over the packed region. -/
def NDArrayEqual (lhs rhs : NDContainer) (equal : Int → Int → Bool)
    (compare_data : Bool) : Except String Bool :=
  if lhs.addr = rhs.addr then .ok true
  else if lhs.device_type ≠ kDLCPU then .error "can only compare CPU tensor"
  else if rhs.device_type ≠ kDLCPU then .error "can only compare CPU tensor"
  else if ¬ lhs.contiguous then .error "Can only compare contiguous tensor"
  else if ¬ rhs.contiguous then .error "Can only compare contiguous tensor"
  else if lhs.shape.length ≠ rhs.shape.length then .ok false
  else if ¬ (List.zip lhs.shape rhs.shape).all (fun p => equal p.1 p.2) then .ok false
  else if lhs.code = rhs.code ∧ lhs.lanes = rhs.lanes ∧ lhs.bits = rhs.bits then
    if compare_data then
      .ok (decide (lhs.data.take (getDataSize lhs) = rhs.data.take (getDataSize lhs)))
    else .ok true
  else .ok false

/-- A non-CPU, non-contiguous tensor. -/
def ndGpu : NDContainer := ⟨1, 2, false, [2], 2, 32, 1, [1, 2, 3, 4, 5, 6, 7, 8]⟩

/-- A CPU tensor distinct from `ndCpu2` only in identity. -/
def ndCpu : NDContainer := ⟨2, 1, true, [2], 2, 32, 1, [1, 2, 3, 4, 5, 6, 7, 8]⟩

def ndCpu2 : NDContainer := ⟨3, 1, true, [2], 2, 32, 1, [1, 2, 3, 4, 5, 6, 7, 8]⟩

/-- Claim C5, counterexample: structural equality of a non-CPU,
non-contiguous tensor with itself returns `true` — no fatal precondition
fires — because `NDArrayEqual` begins with `if (lhs == rhs) return true;`
before any of the `ICHECK`s. -/
theorem NDArrayEqual_identity_skips_checks :
    NDArrayEqual ndGpu ndGpu (fun a b => decide (a = b)) true = .ok true ∧
      ndGpu.device_type ≠ kDLCPU ∧ ndGpu.contiguous = false := by
  constructor
  · decide
  · constructor
    · decide
    · decide

/-- Claim C5, amended: for tensors that are not pointer-identical, any
non-CPU or non-contiguous input is a fatal precondition violation (never a
`false` result), and on CPU-contiguous inputs the result is `true` exactly
when the ranks agree, every dimension pair satisfies the reducer, the dtype
triples `{code, bits, lanes}` coincide, and — when data comparison is
requested — the packed data regions are byte-for-byte equal.  (When `lhs`
and `rhs` are the identical container, `true` is returned with no checks.) -/
theorem NDArrayEqual_characterization (lhs rhs : NDContainer)
    (equal : Int → Int → Bool) (cd : Bool) (hne : lhs.addr ≠ rhs.addr) :
    ((lhs.device_type ≠ kDLCPU ∨ rhs.device_type ≠ kDLCPU ∨
        lhs.contiguous = false ∨ rhs.contiguous = false) →
      ∃ e, NDArrayEqual lhs rhs equal cd = .error e) ∧
    (lhs.device_type = kDLCPU → rhs.device_type = kDLCPU →
      lhs.contiguous = true → rhs.contiguous = true →
      ∃ b, NDArrayEqual lhs rhs equal cd = .ok b ∧
        (b = true ↔ (lhs.shape.length = rhs.shape.length ∧
          (∀ p ∈ List.zip lhs.shape rhs.shape, equal p.1 p.2 = true) ∧
          (lhs.code = rhs.code ∧ lhs.lanes = rhs.lanes ∧ lhs.bits = rhs.bits) ∧
          (cd = true →
            lhs.data.take (getDataSize lhs) = rhs.data.take (getDataSize lhs))))) := by
  constructor
  · intro hbad
    rw [NDArrayEqual, if_neg hne]
    by_cases h1 : lhs.device_type ≠ kDLCPU
    · exact ⟨_, by rw [if_pos h1]⟩
    · rw [if_neg h1]
      by_cases h2 : rhs.device_type ≠ kDLCPU
      · exact ⟨_, by rw [if_pos h2]⟩
      · rw [if_neg h2]
        by_cases h3 : ¬ lhs.contiguous
        · exact ⟨_, by rw [if_pos h3]⟩
        · rw [if_neg h3]
          by_cases h4 : ¬ rhs.contiguous
          · exact ⟨_, by rw [if_pos h4]⟩
          · exfalso
            push_neg at h1 h2
            rcases hbad with h | h | h | h
            · exact h h1
            · exact h h2
            · rw [Bool.not_eq_true] at h3
              simp [h] at h3
            · rw [Bool.not_eq_true] at h4
              simp [h] at h4
  · intro e1 e2 e3 e4
    have g1 : ¬ (lhs.device_type ≠ kDLCPU) := by rw [e1]; exact fun hc => hc rfl
    have g2 : ¬ (rhs.device_type ≠ kDLCPU) := by rw [e2]; exact fun hc => hc rfl
    have g3 : ¬ ¬ (lhs.contiguous = true) := by rw [e3]; exact fun hc => hc rfl
    have g4 : ¬ ¬ (rhs.contiguous = true) := by rw [e4]; exact fun hc => hc rfl
    rw [NDArrayEqual, if_neg hne, if_neg g1, if_neg g2, if_neg g3, if_neg g4]
    by_cases hrank : lhs.shape.length ≠ rhs.shape.length
    · rw [if_pos hrank]
      refine ⟨false, rfl, ?_⟩
      constructor
      · intro hcon
        exact absurd hcon (by decide)
      · intro hP
        exact absurd hP.1 hrank
    · rw [if_neg hrank]
      push_neg at hrank
      by_cases hall : ¬ (List.zip lhs.shape rhs.shape).all (fun p => equal p.1 p.2)
      · rw [if_pos hall]
        refine ⟨false, rfl, ?_⟩
        constructor
        · intro hcon
          exact absurd hcon (by decide)
        · intro hP
          refine absurd ?_ hall
          rw [List.all_eq_true]
          exact fun p hp => hP.2.1 p hp
      · rw [if_neg hall]
        push_neg at hall
        rw [List.all_eq_true] at hall
        by_cases hdt : lhs.code = rhs.code ∧ lhs.lanes = rhs.lanes ∧ lhs.bits = rhs.bits
        · rw [if_pos hdt]
          cases cd with
          | false =>
            refine ⟨true, rfl, ?_⟩
            constructor
            · intro _
              refine ⟨hrank, fun p hp => hall p hp, hdt, ?_⟩
              intro hcd
              exact absurd hcd (by decide)
            · intro _
              rfl
          | true =>
            refine ⟨decide (lhs.data.take (getDataSize lhs) =
              rhs.data.take (getDataSize lhs)), rfl, ?_⟩
            rw [decide_eq_true_eq]
            constructor
            · intro hdata
              exact ⟨hrank, fun p hp => hall p hp, hdt, fun _ => hdata⟩
            · intro hP
              exact hP.2.2.2 rfl
        · rw [if_neg hdt]
          refine ⟨false, rfl, ?_⟩
          constructor
          · intro hcon
            exact absurd hcon (by decide)
          · intro hP
            exact absurd hP.2.2.1 hdt

/-- Witness for the amended C5 theorem: the precondition branch at a
(distinct) non-CPU pair, and the characterization branch at two equal CPU
tensors distinguished only by identity. -/
theorem NDArrayEqual_characterization_witness :
    (∃ e, NDArrayEqual ndGpu ndCpu (fun a b => decide (a = b)) true = .error e) ∧
      (∃ b, NDArrayEqual ndCpu ndCpu2 (fun a b => decide (a = b)) true = .ok b ∧
        (b = true ↔ (ndCpu.shape.length = ndCpu2.shape.length ∧
          (∀ p ∈ List.zip ndCpu.shape ndCpu2.shape, decide (p.1 = p.2) = true) ∧
          (ndCpu.code = ndCpu2.code ∧ ndCpu.lanes = ndCpu2.lanes ∧
            ndCpu.bits = ndCpu2.bits) ∧
          (true = true →
            ndCpu.data.take (getDataSize ndCpu) =
              ndCpu2.data.take (getDataSize ndCpu))))) :=
  ⟨(NDArrayEqual_characterization ndGpu ndCpu _ true (by decide)).1 (by decide),
    (NDArrayEqual_characterization ndCpu ndCpu2 _ true (by decide)).2
      (by decide) (by decide) (by decide) (by decide)⟩

end VMExe

/-! # The structural-equality engine (`src/node/structural_equal.cc`)

A shallow embedding of `SEqualHandlerDefault::Impl`: the non-recursive
stack machine with the two remap maps, path tracing and fail deferral.

The object graphs it traverses are reflected heterogeneous nodes.  Their
per-type `SEqualReduce` callbacks live in the reflection registry outside
the sources; they are modelled from the spec as the standard generated
reducers: a node is either a *free variable* (remappable when
`map_free_vars`, compared by identity otherwise, always `MarkGraphNode`d)
or an *object* with an ordered attribute list, each attribute a primitive
leaf, an object reference compared with `operator()`, or an object
reference compared with `DefEqual`; object reducers first compare the
attribute count (as array nodes do), then reduce attributes left to right
with short-circuit `&&`, marking the node as a graph node when its type
participates in the remap maps.  Object identity (the pointer) is the `id`
field: two subterms with the same `id` denote the same object. -/

namespace SEq

mutual
inductive Node where
  | var (id : Nat) (tindex : Nat)
  | obj (id : Nat) (tindex : Nat) (graphMark : Bool) (attrs : List Attr)
inductive Attr where
  | leaf (v : Int)
  | child (c : Option Node)
  | defChild (c : Option Node)
end

def Node.nid : Node → Nat
  | .var i _ => i
  | .obj i _ _ _ => i

def Node.tindex : Node → Nat
  | .var _ t => t
  | .obj _ t _ _ => t

mutual
def Node.size : Node → Nat
  | .var _ _ => 1
  | .obj _ _ _ attrs => 1 + Attr.sizeList attrs

def Attr.sizeList : List Attr → Nat
  | [] => 0
  | a :: as => Attr.size a + Attr.sizeList as

def Attr.size : Attr → Nat
  | .leaf _ => 1
  | .child none => 1
  | .child (some n) => 1 + Node.size n
  | .defChild none => 1
  | .defChild (some n) => 1 + Node.size n
end

/-- The object children of a node (the targets of its reference attrs). -/
def childNodes (n : Node) : List Node :=
  match n with
  | .var _ _ => []
  | .obj _ _ _ attrs => attrs.filterMap (fun a =>
      match a with
      | .child (some c) => some c
      | .defChild (some c) => some c
      | _ => none)

theorem childNode_size_aux (attrs : List Attr) (a : Attr) (ha : a ∈ attrs) :
    Attr.size a ≤ Attr.sizeList attrs := by
  induction attrs with
  | nil => cases ha
  | cons x xs ih =>
    rcases List.mem_cons.mp ha with h | h
    · rw [h, Attr.sizeList]
      omega
    · have := ih h
      rw [Attr.sizeList]
      omega

theorem childNode_size_lt (n c : Node) (h : c ∈ childNodes n) : c.size < n.size := by
  cases n with
  | var i t => simp [childNodes] at h
  | obj i t g attrs =>
    simp only [childNodes, List.mem_filterMap] at h
    obtain ⟨a, ha, hc⟩ := h
    have hsz : c.size + 1 ≤ Attr.size a := by
      cases a with
      | leaf v => cases hc
      | child o =>
        cases o with
        | none => cases hc
        | some m =>
          cases hc
          simp [Attr.size]
          omega
      | defChild o =>
        cases o with
        | none => cases hc
        | some m =>
          cases hc
          simp [Attr.size]
          omega
    have hle := childNode_size_aux attrs a ha
    simp only [Node.size]
    omega

/-! All ids occurring in the subtree rooted at `n` / in an attribute
list. -/
mutual
def Node.idsOf : Node → List Nat
  | .var i _ => [i]
  | .obj i _ _ attrs => i :: Attr.idsList attrs

def Attr.idsList : List Attr → List Nat
  | [] => []
  | a :: as => Attr.ids a ++ Attr.idsList as

def Attr.ids : Attr → List Nat
  | .leaf _ => []
  | .child none => []
  | .child (some n) => Node.idsOf n
  | .defChild none => []
  | .defChild (some n) => Node.idsOf n
end

/-! Acyclicity of the object graph under `n`: no node's id recurs among its
strict descendants.  (A reference-counted object store cannot hold a true
cycle; sharing — the same id at several places, with identical content —
is permitted.) -/
mutual
def Node.acyclic : Node → Bool
  | .var _ _ => true
  | .obj i _ _ attrs => decide (i ∉ Attr.idsList attrs) && Attr.acyList attrs

def Attr.acyList : List Attr → Bool
  | [] => true
  | a :: as => Attr.acy a && Attr.acyList as

def Attr.acy : Attr → Bool
  | .leaf _ => true
  | .child none => true
  | .child (some n) => Node.acyclic n
  | .defChild none => true
  | .defChild (some n) => Node.acyclic n
end

def acyclic (n : Node) : Bool := Node.acyclic n

/-- Strict descendant. -/
inductive Desc : Node → Node → Prop where
  | base {c n : Node} : c ∈ childNodes n → Desc c n
  | step {c m n : Node} : Desc c m → m ∈ childNodes n → Desc c n

/-! ### Facts about descendants and acyclicity -/

theorem Desc.trans {a b c : Node} (h1 : Desc a b) (h2 : Desc b c) : Desc a c := by
  induction h2 with
  | base hm => exact Desc.step h1 hm
  | step _ hm ih => exact Desc.step ih hm

theorem desc_of_var {c : Node} {i t : Nat} (h : Desc c (.var i t)) : False := by
  generalize hv : Node.var i t = v at h
  induction h with
  | base hm => rw [← hv] at hm; simp [childNodes] at hm
  | step _ hm ih => rw [← hv] at hm; simp [childNodes] at hm

theorem acyList_mem {attrs : List Attr} {a : Attr} (h : Attr.acyList attrs = true)
    (ha : a ∈ attrs) : Attr.acy a = true := by
  induction attrs with
  | nil => cases ha
  | cons x xs ih =>
    rw [Attr.acyList, Bool.and_eq_true] at h
    rcases List.mem_cons.mp ha with hh | hh
    · rw [hh]
      exact h.1
    · exact ih h.2 hh

theorem acyclic_child {n c : Node} (h : Node.acyclic n = true) (hc : c ∈ childNodes n) :
    Node.acyclic c = true := by
  cases n with
  | var i t => simp [childNodes] at hc
  | obj i t g attrs =>
    rw [Node.acyclic, Bool.and_eq_true] at h
    simp only [childNodes, List.mem_filterMap] at hc
    obtain ⟨a, ha, hae⟩ := hc
    have hacy := acyList_mem h.2 ha
    cases a with
    | leaf v => cases hae
    | child o =>
      cases o with
      | none => cases hae
      | some m => cases hae; exact hacy
    | defChild o =>
      cases o with
      | none => cases hae
      | some m => cases hae; exact hacy

theorem idsList_of_child {attrs : List Attr} {c : Node} {x : Nat}
    (hc : c ∈ childNodes (.obj 0 0 false attrs)) (hx : x ∈ Node.idsOf c) :
    x ∈ Attr.idsList attrs := by
  simp only [childNodes, List.mem_filterMap] at hc
  obtain ⟨a, ha, hae⟩ := hc
  have hxa : x ∈ Attr.ids a := by
    cases a with
    | leaf v => cases hae
    | child o =>
      cases o with
      | none => cases hae
      | some m => cases hae; exact hx
    | defChild o =>
      cases o with
      | none => cases hae
      | some m => cases hae; exact hx
  clear hae
  induction attrs with
  | nil => cases ha
  | cons y ys ih =>
    rw [Attr.idsList, List.mem_append]
    rcases List.mem_cons.mp ha with hh | hh
    · rw [← hh]
      exact Or.inl hxa
    · exact Or.inr (ih hh)

theorem childNodes_obj_any {i t : Nat} {g : Bool} {attrs : List Attr} :
    childNodes (.obj i t g attrs) = childNodes (.obj 0 0 false attrs) := by
  simp [childNodes]

theorem nid_mem_idsOf (n : Node) : n.nid ∈ Node.idsOf n := by
  cases n with
  | var i t => simp [Node.idsOf, Node.nid]
  | obj i t g attrs => simp [Node.idsOf, Node.nid]

theorem desc_nid_mem_aux {c n : Node} (h : Desc c n) :
    ∀ i t g attrs, n = .obj i t g attrs → c.nid ∈ Attr.idsList attrs := by
  induction h with
  | base hm =>
    intro i t g attrs he
    subst he
    rw [childNodes_obj_any] at hm
    exact idsList_of_child hm (nid_mem_idsOf _)
  | step hd hm ih =>
    intro i t g attrs he
    subst he
    rename_i m
    rw [childNodes_obj_any] at hm
    refine idsList_of_child hm ?_
    cases m with
    | var j s => exact absurd hd desc_of_var
    | obj j s gg ats =>
      have := ih j s gg ats rfl
      rw [Node.idsOf]
      exact List.mem_cons_of_mem _ this

theorem desc_nid_mem {c : Node} {i t : Nat} {g : Bool} {attrs : List Attr}
    (h : Desc c (.obj i t g attrs)) : c.nid ∈ Attr.idsList attrs :=
  desc_nid_mem_aux h i t g attrs rfl

theorem acyclic_desc_ne {c n : Node} (hacy : Node.acyclic n = true) (h : Desc c n) :
    c.nid ≠ n.nid := by
  cases n with
  | var i t => exact absurd h desc_of_var
  | obj i t g attrs =>
    rw [Node.acyclic, Bool.and_eq_true, decide_eq_true_eq] at hacy
    have hmem := desc_nid_mem h
    intro he
    rw [Node.nid] at he
    rw [he] at hmem
    exact hacy.1 hmem

theorem acyclic_desc {c n : Node} (hacy : Node.acyclic n = true) (h : Desc c n) :
    Node.acyclic c = true := by
  induction h with
  | base hm => exact acyclic_child hacy hm
  | step hd hm ih => exact ih (acyclic_child hacy hm)

/-! ## Engine state -/

/-- Diagnostic paths: a list of attribute indices from the root
(`ObjectPath` as built by `GetPathsForAttrs`); a pair is
`ObjectPathPair`. -/
abbrev PathPair := List Nat × List Nat

/-- `SEqualHandlerDefault::Impl::Task`. -/
structure Task where
  lhs : Option Node
  rhs : Option Node
  currentPaths : Option PathPair
  mapFreeVars : Bool
  childrenExpanded : Bool
  graphEqual : Bool
  forceFail : Bool

def mkTask (l r : Option Node) (mfv : Bool) (cur : Option PathPair) : Task :=
  ⟨l, r, cur, mfv, false, false, false⟩

/-- The `Task(ForceFailTag, current_paths)` constructor. -/
def forceFailTask (p : PathPair) : Task :=
  ⟨none, none, some p, false, false, false, true⟩

/-- The mutable state of `Impl`: pending tasks, the task stack (head = top),
the two remap maps keyed by object identity, and the `first_mismatch` slot
(meaningful when tracing). -/
structure EState where
  pending : List Task
  stack : List Task
  mapL : List (Nat × Nat)
  mapR : List (Nat × Nat)
  fm : Option PathPair

/-- Engine configuration: `first_mismatch_ != nullptr` (path tracing) and
`defer_fails_`.  Assert mode is `false` in every registered callable under
study and is not modelled. -/
structure Cfg where
  tracing : Bool
  deferFails : Bool

def mlookup (m : List (Nat × Nat)) (k : Nat) : Option Nat :=
  match m with
  | [] => none
  | (k', v) :: rest => if k' = k then some v else mlookup rest k

def minsert (m : List (Nat × Nat)) (k v : Nat) : List (Nat × Nat) :=
  match m with
  | [] => [(k, v)]
  | (k', v') :: rest => if k' = k then (k, v) :: rest else (k', v') :: minsert rest k v

/-! ## The engine functions -/

/-- `CheckResult` (its path-recording part; the assert-mode diagnostic is
out of the modelled fragment since every callable studied passes
`assert_mode = false`). -/
def checkResult (cfg : Cfg) (st : EState) (result : Bool) (cur : Option PathPair) :
    Bool × EState :=
  if cfg.tracing ∧ result = false ∧ st.fm = none then (result, { st with fm := cur })
  else (result, st)

/-- The early-result rules of `SEqualReduce` (the inner lambda, lines
299–311): undefined handling, type index, the `equal_map_lhs_` hit compared
by identity (`same_as`), and the claimed-`rhs` rejection. -/
def earlyResult (st : EState) (lhs rhs : Option Node) : Option Bool :=
  match lhs, rhs with
  | none, none => some true
  | none, some _ => some false
  | some _, none => some false
  | some l, some r =>
    if l.tindex ≠ r.tindex then some false
    else match mlookup st.mapL l.nid with
      | some mapped => some (mapped = r.nid)
      | none => if (mlookup st.mapR r.nid).isSome then some false else none

/-- `Impl::SEqualReduce`: early rules; a false early result is deferred as a
force-fail task when tracing, deferral and defined paths all hold; otherwise
a new pending task is enqueued.  The whole result goes through
`CheckResult`. -/
def sEqualReduce (cfg : Cfg) (st : EState) (lhs rhs : Option Node) (mfv : Bool)
    (cur : Option PathPair) : Bool × EState :=
  match earlyResult st lhs rhs with
  | some true => checkResult cfg st true cur
  | some false =>
    match cur with
    | some p =>
      if cfg.tracing ∧ cfg.deferFails then
        (true, { st with pending := st.pending ++ [forceFailTask p] })
      else checkResult cfg st false cur
    | none => checkResult cfg st false cur
  | none =>
    (true, { st with pending := st.pending ++ [mkTask lhs rhs mfv cur] })

/-- `MarkGraphNode`: set `graph_equal` on the task currently at the top of
the stack (the one being expanded). -/
def markGraph (st : EState) : EState :=
  match st.stack with
  | [] => st
  | t :: rest => { st with stack := { t with graphEqual := true } :: rest }

/-- `SEqualReducer::CompareAttributeValues` on a primitive attribute:
equality of the values; on mismatch, when tracing and nothing is recorded
yet, the attribute paths are stored in `first_mismatch`. -/
def compareLeafValues (cfg : Cfg) (st : EState) (l r : Int)
    (paths : Option PathPair) : Bool × EState :=
  if l = r then (true, st)
  else (false, if cfg.tracing ∧ st.fm = none then { st with fm := paths } else st)

/-- Path extension for attribute `i` (`GetPathsForAttrs` /
`GetAttrKeyByAddress`). -/
def pathExt (cur : Option PathPair) (i : Nat) : Option PathPair :=
  match cur with
  | some (pl, pr) => some (pl ++ [i], pr ++ [i])
  | none => none

/-- `SEqualReducer::operator()` on an object-reference attribute
(`ObjectAttrsEqual`): the traced path extends to the attribute, and a false
handler result records that pair when nothing is recorded yet; without
tracing the handler is called on the fast path with no paths. -/
def reduceChild (cfg : Cfg) (st : EState) (c1 c2 : Option Node) (mfv : Bool)
    (cur : Option PathPair) (i : Nat) : Bool × EState :=
  if cfg.tracing then
    let newPaths := pathExt cur i
    let (b, st') := sEqualReduce cfg st c1 c2 mfv newPaths
    if b then (true, st')
    else (false, if st'.fm = none then { st' with fm := newPaths } else st')
  else sEqualReduce cfg st c1 c2 mfv none

/-- One attribute comparison of a generated reducer.  Mismatched attribute
kinds cannot arise between two nodes of one type; the reducer rejects
them. -/
def reduceAttr (cfg : Cfg) (st : EState) (a1 a2 : Attr) (mfv : Bool)
    (cur : Option PathPair) (i : Nat) : Bool × EState :=
  match a1, a2 with
  | .leaf v1, .leaf v2 => compareLeafValues cfg st v1 v2 (pathExt cur i)
  | .child c1, .child c2 => reduceChild cfg st c1 c2 mfv cur i
  | .defChild c1, .defChild c2 => reduceChild cfg st c1 c2 true cur i
  | _, _ => (false, st)

/-- Left-to-right short-circuit `&&` over the attribute lists. -/
def reduceAttrs (cfg : Cfg) : List Attr → List Attr → EState → Bool →
    Option PathPair → Nat → Bool × EState
  | [], [], st, _, _, _ => (true, st)
  | a1 :: as1, a2 :: as2, st, mfv, cur, i =>
    let (b, st') := reduceAttr cfg st a1 a2 mfv cur i
    if b then reduceAttrs cfg as1 as2 st' mfv cur (i + 1) else (false, st')
  | _, _, st, _, _, _ => (false, st)

/-- Modelled from the spec: the per-type `SEqualReduce` callback from the
reflection registry.  A free variable marks itself a graph node and is
equal when identical or when free-var mapping is on
(`FreeVarEqualImpl`); an object node optionally marks itself, compares the
attribute counts as a primitive (array reducers do), then its attributes in
order. -/
def reduceNodePair (cfg : Cfg) (st : EState) (l r : Node) (mfv : Bool)
    (cur : Option PathPair) : Bool × EState :=
  match l, r with
  | .var lid _, .var rid _ =>
    (decide (lid = rid) || mfv, markGraph st)
  | .obj _ _ gm attrs1, .obj _ _ _ attrs2 =>
    let st1 := if gm then markGraph st else st
    let (b0, st2) := compareLeafValues cfg st1 attrs1.length attrs2.length cur
    if b0 then reduceAttrs cfg attrs1 attrs2 st2 mfv cur 0 else (false, st2)
  | _, _ => (false, st)

/-- `Impl::DispatchSEqualReduce` (its `compute()` body after the defined/
type `ICHECK`, which the machine model checks before calling): re-check the
maps, then run the type-specific reducer; the result goes through
`CheckResult`. -/
def dispatch (cfg : Cfg) (st : EState) (l r : Node) (mfv : Bool)
    (cur : Option PathPair) : Bool × EState :=
  let (b, st') :=
    match mlookup st.mapL l.nid with
    | some mapped => (decide (mapped = r.nid), st)
    | none =>
      if (mlookup st.mapR r.nid).isSome then (false, st)
      else reduceNodePair cfg st l r mfv cur
  checkResult cfg st' b cur

inductive StepRes where
  | next (st : EState)
  | done (b : Bool) (st : EState)
  | fatal

/-- One iteration of the `RunTasks` loop.  The `ICHECK`s (defined operands,
the completion-consistency check `equal_map_lhs_[lhs].same_as(rhs)`, and
the empty-pending check before expansion) are `.fatal`. -/
def runStep (cfg : Cfg) (st : EState) : StepRes :=
  match st.stack with
  | [] => .done true st
  | t :: rest =>
    if t.forceFail then
      let (b, st') := checkResult cfg st false t.currentPaths
      .done b st'
    else if t.childrenExpanded then
      match t.lhs, t.rhs with
      | some l, some r =>
        match mlookup st.mapL l.nid with
        | some mapped =>
          if mapped ≠ r.nid then .fatal
          else if t.graphEqual then
            .next ⟨st.pending, rest, minsert st.mapL l.nid r.nid,
              minsert st.mapR r.nid l.nid, st.fm⟩
          else .next { st with stack := rest }
        | none =>
          if t.graphEqual then
            .next ⟨st.pending, rest, minsert st.mapL l.nid r.nid,
              minsert st.mapR r.nid l.nid, st.fm⟩
          else .next { st with stack := rest }
      | _, _ => .fatal
    else
      match st.pending with
      | _ :: _ => .fatal
      | [] =>
        match t.lhs, t.rhs with
        | some l, some r =>
          let st1 := { st with stack := { t with childrenExpanded := true } :: rest }
          let (b, st2) := dispatch cfg st1 l r t.mapFreeVars t.currentPaths
          if b then .next { st2 with stack := st2.pending ++ st2.stack, pending := [] }
          else .done false st2
        | _, _ => .fatal

inductive RunRes where
  | ok (b : Bool) (st : EState)
  | fatal
  | outOfFuel

/-- The `RunTasks` loop, fuel-indexed. -/
def runTasks (cfg : Cfg) : Nat → EState → RunRes
  | 0, _ => .outOfFuel
  | fuel + 1, st =>
    match runStep cfg st with
    | .next st' => runTasks cfg fuel st'
    | .done b st' => .ok b st'
    | .fatal => .fatal

/-- An `ffi::Any` root: a non-object POD value (type index below the static
object range, payload the raw `v_uint64` bits) or an object reference. -/
inductive AnyVal where
  | prim (tindex : Nat) (bits : Nat)
  | obj (n : Node)

/-- Modelled from the spec: `kTVMFFIStaticObjectBegin` separates POD type
indices from object type indices; object indices are offset past it. -/
def staticObjBegin : Nat := 1000

def AnyVal.tix : AnyVal → Nat
  | .prim ti _ => ti
  | .obj n => staticObjBegin + n.tindex

def AnyVal.bits : AnyVal → Nat
  | .prim _ b => b
  | .obj _ => 0

def emptyState : EState := ⟨[], [], [], [], none⟩

/-- `Impl::Equal`: clear the state, seed root paths when tracing, settle
type-index and POD roots directly, otherwise seed exactly one task from the
root `SEqualReduce` and run the stack. -/
def eEqual (cfg : Cfg) (fuel : Nat) (lhs rhs : AnyVal) (mfv : Bool) : RunRes :=
  let cur : Option PathPair := if cfg.tracing then some ([], []) else none
  if lhs.tix ≠ rhs.tix then
    let (b, st') := checkResult cfg emptyState false cur
    .ok b st'
  else if lhs.tix < staticObjBegin then
    if lhs.bits = rhs.bits then .ok true emptyState
    else
      let (b, st') := checkResult cfg emptyState false cur
      .ok b st'
  else
    match lhs, rhs with
    | .obj l, .obj r =>
      let (b1, st1) := sEqualReduce cfg emptyState (some l) (some r) mfv cur
      if ¬ b1 then .ok false st1
      else
        match st1.pending with
        | [t] => runTasks cfg fuel { st1 with pending := [], stack := [t] }
        | _ => .fatal
    | _, _ => .fatal

/-- Well-formed root: POD indices stay below the object range; object
graphs are finite and acyclic (reference-counted objects cannot form a
physical cycle without mutation). -/
def WfAny : AnyVal → Prop
  | .prim ti _ => ti < staticObjBegin
  | .obj n => acyclic n = true

instance (v : AnyVal) : Decidable (WfAny v) := by
  cases v <;> (unfold WfAny; infer_instance)

/-! ## The termination measure and the shape of one reducer call -/

/-- Task weight for the termination measure: a pending force-fail or an
expanded task is one unit of work; an unexpanded task over a graph of
size `s` needs `2 * s + 1` units — its own expansion and completion, plus
what the at-most-one task spawned per attribute can need, recursively.
The measure is linear in the input graph size. -/
def taskW (t : Task) : Nat :=
  if t.forceFail then 1
  else if t.childrenExpanded then 1
  else match t.lhs with
    | some l => 2 * l.size + 1
    | none => 2

def sumW (ts : List Task) : Nat := (ts.map taskW).sum

def stateM (st : EState) : Nat := sumW st.stack + sumW st.pending

theorem sumW_append (a b : List Task) : sumW (a ++ b) = sumW a + sumW b := by
  simp [sumW]

theorem sumW_cons (t : Task) (ts : List Task) : sumW (t :: ts) = taskW t + sumW ts := by
  simp [sumW]

/-- A call into the reducer may set `graph_equal` on the stack top
(`MarkGraphNode`) but otherwise leaves the stack alone. -/
def StackLike (s s' : List Task) : Prop :=
  s' = s ∨ ∃ hd rest, s = hd :: rest ∧ s' = { hd with graphEqual := true } :: rest

theorem stackLike_self (s : List Task) : StackLike s s := Or.inl rfl

theorem stackLike_trans {s s' s'' : List Task} (h1 : StackLike s s')
    (h2 : StackLike s' s'') : StackLike s s'' := by
  rcases h1 with h1 | ⟨hd, rest, he, he'⟩
  · rw [h1] at h2
    exact h2
  · rcases h2 with h2 | ⟨hd2, rest2, he2, he2'⟩
    · rw [h2]
      exact Or.inr ⟨hd, rest, he, he'⟩
    · rw [he'] at he2
      cases he2
      exact Or.inr ⟨hd, rest, he, he2'⟩

theorem markGraph_shape (st : EState) :
    (markGraph st).pending = st.pending ∧ (markGraph st).mapL = st.mapL ∧
      (markGraph st).mapR = st.mapR ∧ (markGraph st).fm = st.fm ∧
      StackLike st.stack (markGraph st).stack := by
  cases hs : st.stack with
  | nil =>
    refine ⟨?_, ?_, ?_, ?_, ?_⟩ <;> simp only [markGraph.eq_def, hs]
    exact Or.inl rfl
  | cons t rest =>
    refine ⟨?_, ?_, ?_, ?_, ?_⟩ <;> simp only [markGraph.eq_def, hs]
    exact Or.inr ⟨t, rest, rfl, rfl⟩

theorem checkResult_shape (cfg : Cfg) (st : EState) (b0 : Bool) (cur : Option PathPair)
    (b : Bool) (st' : EState) (h : checkResult cfg st b0 cur = (b, st')) :
    b = b0 ∧ st'.stack = st.stack ∧ st'.mapL = st.mapL ∧ st'.mapR = st.mapR ∧
      st'.pending = st.pending ∧ (b0 = true → st' = st) ∧
      (cfg.tracing = true → cur.isSome = true → b0 = false →
        st'.fm.isSome = true) := by
  rw [checkResult] at h
  split at h
  · rename_i hcond
    cases h
    refine ⟨rfl, rfl, rfl, rfl, rfl, ?_, ?_⟩
    · intro hb
      rw [hb] at hcond
      exact absurd hcond.2.1 (by decide)
    · intro _ hcur _
      simpa using hcur
  · rename_i hcond
    cases h
    refine ⟨rfl, rfl, rfl, rfl, rfl, fun _ => rfl, ?_⟩
    intro htr hcur hb0
    have hnn : st.fm ≠ none := fun hn => hcond ⟨htr, hb0, hn⟩
    simpa [Option.isSome_iff_ne_none] using hnn

theorem earlyResult_none (st : EState) (lhs rhs : Option Node)
    (h : earlyResult st lhs rhs = none) :
    ∃ l r, lhs = some l ∧ rhs = some r ∧ l.tindex = r.tindex ∧
      mlookup st.mapL l.nid = none ∧ mlookup st.mapR r.nid = none := by
  cases lhs with
  | none => cases rhs <;> simp [earlyResult] at h
  | some l =>
    cases rhs with
    | none => simp [earlyResult] at h
    | some r =>
      refine ⟨l, r, rfl, rfl, ?_⟩
      simp only [earlyResult] at h
      by_cases htix : l.tindex ≠ r.tindex
      · rw [if_pos htix] at h
        cases h
      · rw [if_neg htix] at h
        refine ⟨not_not.mp htix, ?_⟩
        cases hml : mlookup st.mapL l.nid with
        | some m => rw [hml] at h; simp at h
        | none =>
          rw [hml] at h
          cases hmr : mlookup st.mapR r.nid with
          | some m => rw [hmr] at h; simp at h
          | none => exact ⟨rfl, rfl⟩

theorem sEqualReduce_eq_true (cfg : Cfg) (st : EState) (lhs rhs : Option Node)
    (mfv : Bool) (cur : Option PathPair)
    (he : earlyResult st lhs rhs = some true) :
    sEqualReduce cfg st lhs rhs mfv cur = checkResult cfg st true cur := by
  rw [sEqualReduce.eq_def, he]

theorem sEqualReduce_eq_none (cfg : Cfg) (st : EState) (lhs rhs : Option Node)
    (mfv : Bool) (cur : Option PathPair)
    (he : earlyResult st lhs rhs = none) :
    sEqualReduce cfg st lhs rhs mfv cur =
      (true, { st with pending := st.pending ++ [mkTask lhs rhs mfv cur] }) := by
  rw [sEqualReduce.eq_def, he]

theorem sEqualReduce_eq_false_defer (cfg : Cfg) (st : EState) (lhs rhs : Option Node)
    (mfv : Bool) (cur : Option PathPair) (p : PathPair)
    (he : earlyResult st lhs rhs = some false) (hcur : cur = some p)
    (htr : cfg.tracing = true) (hdf : cfg.deferFails = true) :
    sEqualReduce cfg st lhs rhs mfv cur =
      (true, { st with pending := st.pending ++ [forceFailTask p] }) := by
  rw [sEqualReduce.eq_def, he, hcur]
  simp [htr, hdf]

theorem sEqualReduce_eq_false_checked (cfg : Cfg) (st : EState) (lhs rhs : Option Node)
    (mfv : Bool) (cur : Option PathPair)
    (he : earlyResult st lhs rhs = some false)
    (hnd : cur = none ∨ ¬(cfg.tracing = true ∧ cfg.deferFails = true)) :
    sEqualReduce cfg st lhs rhs mfv cur = checkResult cfg st false cur := by
  rw [sEqualReduce.eq_def, he]
  rcases hnd with hc | hc
  · rw [hc]
  · cases cur with
    | none => rfl
    | some p => simp [hc]

/-- What one `SEqualReduce` call does to the state: stack and maps
untouched, `first_mismatch` untouched when the result is `true`, pending
extended by nothing, a force-fail task carrying the current paths, or one
new unexpanded task for a defined pair. -/
theorem sEqualReduce_shape (cfg : Cfg) (st : EState) (lhs rhs : Option Node)
    (mfv : Bool) (cur : Option PathPair) (b : Bool) (st' : EState)
    (h : sEqualReduce cfg st lhs rhs mfv cur = (b, st')) :
    st'.stack = st.stack ∧ st'.mapL = st.mapL ∧ st'.mapR = st.mapR ∧
      (b = true → st'.fm = st.fm) ∧
      ∃ Δ, st'.pending = st.pending ++ Δ ∧
        (Δ = [] ∨ (∃ p, cur = some p ∧ b = true ∧ Δ = [forceFailTask p]) ∨
          (Δ = [mkTask lhs rhs mfv cur] ∧ b = true ∧
            ∃ l r, lhs = some l ∧ rhs = some r ∧ l.tindex = r.tindex ∧
              mlookup st.mapL l.nid = none ∧ mlookup st.mapR r.nid = none)) := by
  cases he : earlyResult st lhs rhs with
  | some eb =>
    cases eb with
    | true =>
      rw [sEqualReduce_eq_true _ _ _ _ _ _ he] at h
      obtain ⟨hb, h1, h2, h3, h4, h5, _⟩ := checkResult_shape _ _ _ _ _ _ h
      refine ⟨h1, h2, h3, ?_, [], by rw [h4, List.append_nil], Or.inl rfl⟩
      intro _
      rw [h5 rfl]
    | false =>
      by_cases hdef : cfg.tracing = true ∧ cfg.deferFails = true
      · cases hcur : cur with
        | none =>
          rw [hcur, sEqualReduce_eq_false_checked _ _ _ _ _ _ he (Or.inl rfl)] at h
          obtain ⟨hb, h1, h2, h3, h4, h5, _⟩ := checkResult_shape _ _ _ _ _ _ h
          refine ⟨h1, h2, h3, ?_, [], by rw [h4, List.append_nil], Or.inl rfl⟩
          intro hbt
          rw [hbt] at hb
          cases hb
        | some p =>
          rw [sEqualReduce_eq_false_defer _ _ _ _ _ _ _ he hcur hdef.1 hdef.2] at h
          obtain ⟨hb, hst⟩ := Prod.mk.inj h
          subst hb
          subst hst
          exact ⟨rfl, rfl, rfl, fun _ => rfl, [forceFailTask p],
            rfl, Or.inr (Or.inl ⟨p, rfl, rfl, rfl⟩)⟩
      · rw [sEqualReduce_eq_false_checked _ _ _ _ _ _ he (Or.inr hdef)] at h
        obtain ⟨hb, h1, h2, h3, h4, h5, _⟩ := checkResult_shape _ _ _ _ _ _ h
        refine ⟨h1, h2, h3, ?_, [], by rw [h4, List.append_nil], Or.inl rfl⟩
        intro hbt
        rw [hbt] at hb
        cases hb
  | none =>
    rw [sEqualReduce_eq_none _ _ _ _ _ _ he] at h
    obtain ⟨hb, hst⟩ := Prod.mk.inj h
    subst hb
    subst hst
    obtain ⟨l, r, hl, hr, htix, hml, hmr⟩ := earlyResult_none st lhs rhs he
    exact ⟨rfl, rfl, rfl, fun _ => rfl, [mkTask lhs rhs mfv cur], rfl,
      Or.inr (Or.inr ⟨rfl, rfl, l, r, hl, hr, htix, hml, hmr⟩)⟩

/-! ### Children lists and spawned-task bookkeeping -/

/-- The node list of an optional reference target. -/
def optChildren : Option Node → List Node
  | some n => [n]
  | none => []

/-- The object children contributed by an attribute list. -/
def attrChildren (as : List Attr) : List Node :=
  as.filterMap (fun a =>
    match a with
    | .child (some c) => some c
    | .defChild (some c) => some c
    | _ => none)

theorem childNodes_obj (i t : Nat) (g : Bool) (attrs : List Attr) :
    childNodes (.obj i t g attrs) = attrChildren attrs := rfl

theorem attrChildren_cons (a : Attr) (as : List Attr) :
    attrChildren (a :: as) = attrChildren [a] ++ attrChildren as := by
  cases a with
  | leaf v => simp [attrChildren]
  | child c => cases c <;> simp [attrChildren]
  | defChild c => cases c <;> simp [attrChildren]

theorem attrChildren_child (c : Option Node) : attrChildren [.child c] = optChildren c := by
  cases c <;> rfl

theorem attrChildren_defChild (c : Option Node) :
    attrChildren [.defChild c] = optChildren c := by
  cases c <;> rfl

theorem size_pos (n : Node) : 1 ≤ n.size := by
  cases n with
  | var i t => rw [Node.size]
  | obj i t g as => rw [Node.size]; omega

theorem pathExt_isSome (cur : Option PathPair) (i : Nat) (h : cur.isSome = true) :
    (pathExt cur i).isSome = true := by
  cases cur with
  | none => cases h
  | some p => cases p; rfl

theorem taskW_forceFail (p : PathPair) : taskW (forceFailTask p) = 1 := rfl

theorem taskW_mkTask_some (n1 : Node) (c2 : Option Node) (mfv : Bool)
    (cur : Option PathPair) :
    taskW (mkTask (some n1) c2 mfv cur) = 2 * n1.size + 1 := rfl

/-- What every task spawned into `pending` by a reducer call looks like:
unexpanded, unmarked, carrying defined paths whenever the caller traced
defined paths, and (unless it is a force-fail task) pairing an object child
of the lhs with an object child of the rhs. -/
def SpawnOK (cfg : Cfg) (cur : Option PathPair) (cs1 cs2 : List Node) (u : Task) : Prop :=
  u.childrenExpanded = false ∧ u.graphEqual = false ∧
    (cfg.tracing = true → cur.isSome = true → u.currentPaths.isSome = true) ∧
    (u.forceFail = false → ∃ n1 n2, u.lhs = some n1 ∧ u.rhs = some n2 ∧
      n1 ∈ cs1 ∧ n2 ∈ cs2)

theorem SpawnOK.mono {cfg : Cfg} {cur : Option PathPair} {cs1 cs2 cs1' cs2' : List Node}
    {u : Task} (h : SpawnOK cfg cur cs1 cs2 u)
    (h1 : ∀ x ∈ cs1, x ∈ cs1') (h2 : ∀ x ∈ cs2, x ∈ cs2') :
    SpawnOK cfg cur cs1' cs2' u := by
  obtain ⟨hc, hg, hp, hk⟩ := h
  refine ⟨hc, hg, hp, fun hff => ?_⟩
  obtain ⟨n1, n2, e1, e2, m1, m2⟩ := hk hff
  exact ⟨n1, n2, e1, e2, h1 n1 m1, h2 n2 m2⟩

theorem spawnOK_forceFail (cfg : Cfg) (cur : Option PathPair) (cs1 cs2 : List Node)
    (p : PathPair) : SpawnOK cfg cur cs1 cs2 (forceFailTask p) := by
  refine ⟨rfl, rfl, fun _ _ => rfl, fun hc => ?_⟩
  simp [forceFailTask] at hc

theorem compareLeafValues_shape (cfg : Cfg) (st : EState) (l r : Int)
    (paths : Option PathPair) (b : Bool) (st' : EState)
    (h : compareLeafValues cfg st l r paths = (b, st')) :
    st'.stack = st.stack ∧ st'.mapL = st.mapL ∧ st'.mapR = st.mapR ∧
      st'.pending = st.pending ∧ (b = true → st' = st) := by
  rw [compareLeafValues] at h
  split at h
  · obtain ⟨hb, hst⟩ := Prod.mk.inj h
    subst hb
    subst hst
    exact ⟨rfl, rfl, rfl, rfl, fun _ => rfl⟩
  · obtain ⟨hb, hst⟩ := Prod.mk.inj h
    subst hb
    subst hst
    refine ⟨?_, ?_, ?_, ?_, fun hbt => absurd hbt (by simp)⟩ <;> (split <;> rfl)

/-- Neither `CheckResult` nor the primitive compare reads `defer_fails_`. -/
theorem checkResult_defer (tr d1 d2 : Bool) (st : EState) (b : Bool)
    (cur : Option PathPair) :
    checkResult ⟨tr, d1⟩ st b cur = checkResult ⟨tr, d2⟩ st b cur := rfl

theorem compareLeafValues_defer (tr d1 d2 : Bool) (st : EState) (l r : Int)
    (paths : Option PathPair) :
    compareLeafValues ⟨tr, d1⟩ st l r paths = compareLeafValues ⟨tr, d2⟩ st l r paths := rfl

theorem reduceChild_eq_tracing (cfg : Cfg) (st : EState) (c1 c2 : Option Node)
    (mfv : Bool) (cur : Option PathPair) (i : Nat) (b0 : Bool) (st0 : EState)
    (htr : cfg.tracing = true)
    (hsr : sEqualReduce cfg st c1 c2 mfv (pathExt cur i) = (b0, st0)) :
    reduceChild cfg st c1 c2 mfv cur i =
      (if b0 then (true, st0)
       else (false, if st0.fm = none then { st0 with fm := pathExt cur i } else st0)) := by
  rw [reduceChild, if_pos htr]
  simp only [hsr]

theorem reduceChild_eq_plain (cfg : Cfg) (st : EState) (c1 c2 : Option Node)
    (mfv : Bool) (cur : Option PathPair) (i : Nat) (htr : cfg.tracing = false) :
    reduceChild cfg st c1 c2 mfv cur i = sEqualReduce cfg st c1 c2 mfv none := by
  rw [reduceChild, if_neg (by simp [htr])]

/-- Weight budget of the task a single child comparison can spawn. -/
def optW : Option Node → Nat
  | some n1 => 2 * n1.size + 1
  | none => 1

theorem optW_pos (c : Option Node) : 1 ≤ optW c := by
  cases c with
  | none => rw [optW]
  | some n => rw [optW]; omega

/-- The EState produced when `reduceChild` records a mismatch path differs
from its input only in `fm`. -/
theorem fmSet_shape (st0 : EState) (X : Option PathPair) :
    (if st0.fm = none then { st0 with fm := X } else st0).stack = st0.stack ∧
      (if st0.fm = none then { st0 with fm := X } else st0).mapL = st0.mapL ∧
      (if st0.fm = none then { st0 with fm := X } else st0).mapR = st0.mapR ∧
      (if st0.fm = none then { st0 with fm := X } else st0).pending = st0.pending := by
  split <;> exact ⟨rfl, rfl, rfl, rfl⟩

theorem reduceChild_shape (cfg : Cfg) (st : EState) (c1 c2 : Option Node) (mfv : Bool)
    (cur : Option PathPair) (i : Nat) (b : Bool) (st' : EState)
    (h : reduceChild cfg st c1 c2 mfv cur i = (b, st')) :
    st'.stack = st.stack ∧ st'.mapL = st.mapL ∧ st'.mapR = st.mapR ∧
      (b = true → st'.fm = st.fm) ∧
      ∃ Δ, st'.pending = st.pending ++ Δ ∧
        sumW Δ ≤ optW c1 ∧
        ∀ u ∈ Δ, SpawnOK cfg cur (optChildren c1) (optChildren c2) u := by
  by_cases htr : cfg.tracing = true
  · cases hsr : sEqualReduce cfg st c1 c2 mfv (pathExt cur i) with
    | mk b0 st0 =>
    obtain ⟨h1, h2, h3, hfm, Δ, hΔ, hkind⟩ := sEqualReduce_shape _ _ _ _ _ _ _ _ hsr
    cases b0 with
    | true =>
      rw [reduceChild_eq_tracing _ _ _ _ _ _ _ _ _ htr hsr, if_pos rfl] at h
      obtain ⟨hb, hst⟩ := Prod.mk.inj h
      subst hb
      subst hst
      refine ⟨h1, h2, h3, fun _ => hfm rfl, Δ, hΔ, ?_, ?_⟩
      · rcases hkind with hk | ⟨p, hp, _, hk⟩ | ⟨hk, _, n1, n2, e1, e2, _⟩
        · rw [hk, sumW]
          exact Nat.zero_le _
        · rw [hk, sumW_cons, taskW_forceFail, sumW]
          simpa using optW_pos c1
        · rw [hk, e1]
          simp [sumW, taskW_mkTask_some, optW]
      · intro u hu
        rcases hkind with hk | ⟨p, hp, _, hk⟩ | ⟨hk, _, n1, n2, e1, e2, _⟩
        · rw [hk] at hu
          cases hu
        · rw [hk, List.mem_singleton] at hu
          rw [hu]
          exact spawnOK_forceFail _ _ _ _ _
        · rw [hk, List.mem_singleton] at hu
          rw [hu]
          refine ⟨rfl, rfl, fun _ hc => pathExt_isSome _ _ hc, fun _ => ?_⟩
          exact ⟨n1, n2, by rw [mkTask, e1], by rw [mkTask, e2],
            by rw [e1, optChildren]; exact List.mem_singleton.mpr rfl,
            by rw [e2, optChildren]; exact List.mem_singleton.mpr rfl⟩
    | false =>
      rw [reduceChild_eq_tracing _ _ _ _ _ _ _ _ _ htr hsr, if_neg (by simp)] at h
      obtain ⟨hb, hst⟩ := Prod.mk.inj h
      subst hb
      subst hst
      have hΔnil : Δ = [] := by
        rcases hkind with hk | ⟨p, hp, hb0, hk⟩ | ⟨hk, hb0, rest⟩
        · exact hk
        · cases hb0
        · cases hb0
      subst hΔnil
      rw [List.append_nil] at hΔ
      obtain ⟨g1, g2, g3, g4⟩ := fmSet_shape st0 (pathExt cur i)
      exact ⟨g1.trans h1, g2.trans h2, g3.trans h3, fun hbt => absurd hbt (by simp), [],
        by rw [List.append_nil]; exact g4.trans hΔ, Nat.zero_le _,
        fun u hu => absurd hu (by simp)⟩
  · rw [reduceChild_eq_plain _ _ _ _ _ _ _ (Bool.eq_false_iff.mpr (fun hc => htr hc))] at h
    obtain ⟨h1, h2, h3, hfm, Δ, hΔ, hkind⟩ := sEqualReduce_shape _ _ _ _ _ _ _ _ h
    refine ⟨h1, h2, h3, hfm, Δ, hΔ, ?_, ?_⟩
    · rcases hkind with hk | ⟨p, hp, _, _⟩ | ⟨hk, _, n1, n2, e1, e2, _⟩
      · rw [hk, sumW]
        exact Nat.zero_le _
      · cases hp
      · rw [hk, e1]
        simp [sumW, taskW_mkTask_some, optW]
    · intro u hu
      rcases hkind with hk | ⟨p, hp, _, _⟩ | ⟨hk, _, n1, n2, e1, e2, _⟩
      · rw [hk] at hu
        cases hu
      · cases hp
      · rw [hk, List.mem_singleton] at hu
        rw [hu]
        refine ⟨rfl, rfl, fun hc _ => absurd hc htr, fun _ => ?_⟩
        exact ⟨n1, n2, by rw [mkTask, e1], by rw [mkTask, e2],
          by rw [e1, optChildren]; exact List.mem_singleton.mpr rfl,
          by rw [e2, optChildren]; exact List.mem_singleton.mpr rfl⟩

theorem attrSize_defChild_eq (c : Option Node) :
    Attr.size (.defChild c) = Attr.size (.child c) := by
  cases c <;> rfl

theorem optW_le_attrSize (c : Option Node) :
    optW c ≤ 2 * Attr.size (.child c) := by
  cases c with
  | none => rw [optW, Attr.size]; omega
  | some n =>
    rw [optW, Attr.size]
    omega

theorem reduceAttr_shape (cfg : Cfg) (st : EState) (a1 a2 : Attr) (mfv : Bool)
    (cur : Option PathPair) (i : Nat) (b : Bool) (st' : EState)
    (h : reduceAttr cfg st a1 a2 mfv cur i = (b, st')) :
    st'.stack = st.stack ∧ st'.mapL = st.mapL ∧ st'.mapR = st.mapR ∧
      (b = true → st'.fm = st.fm) ∧
      ∃ Δ, st'.pending = st.pending ++ Δ ∧
        sumW Δ ≤ 2 * Attr.size a1 ∧
        ∀ u ∈ Δ, SpawnOK cfg cur (attrChildren [a1]) (attrChildren [a2]) u := by
  cases a1 with
  | leaf v1 =>
    cases a2 with
    | leaf v2 =>
      simp only [reduceAttr] at h
      obtain ⟨s1, s2, s3, s4, s5⟩ := compareLeafValues_shape _ _ _ _ _ _ _ h
      exact ⟨s1, s2, s3, fun hb => by rw [s5 hb], [], by rw [List.append_nil]; exact s4,
        Nat.zero_le _, fun u hu => absurd hu (by simp)⟩
    | child c2 =>
      simp only [reduceAttr] at h
      obtain ⟨hb, hst⟩ := Prod.mk.inj h
      subst hb
      subst hst
      exact ⟨rfl, rfl, rfl, fun hbt => absurd hbt (by simp), [], by rw [List.append_nil],
        Nat.zero_le _, fun u hu => absurd hu (by simp)⟩
    | defChild c2 =>
      simp only [reduceAttr] at h
      obtain ⟨hb, hst⟩ := Prod.mk.inj h
      subst hb
      subst hst
      exact ⟨rfl, rfl, rfl, fun hbt => absurd hbt (by simp), [], by rw [List.append_nil],
        Nat.zero_le _, fun u hu => absurd hu (by simp)⟩
  | child c1 =>
    cases a2 with
    | leaf v2 =>
      simp only [reduceAttr] at h
      obtain ⟨hb, hst⟩ := Prod.mk.inj h
      subst hb
      subst hst
      exact ⟨rfl, rfl, rfl, fun hbt => absurd hbt (by simp), [], by rw [List.append_nil],
        Nat.zero_le _, fun u hu => absurd hu (by simp)⟩
    | child c2 =>
      simp only [reduceAttr] at h
      obtain ⟨r1, r2, r3, rfm, Δ, hΔ, hw, hsp⟩ := reduceChild_shape _ _ _ _ _ _ _ _ _ h
      refine ⟨r1, r2, r3, rfm, Δ, hΔ, le_trans hw (optW_le_attrSize c1), ?_⟩
      intro u hu
      rw [attrChildren_child, attrChildren_child]
      exact hsp u hu
    | defChild c2 =>
      simp only [reduceAttr] at h
      obtain ⟨hb, hst⟩ := Prod.mk.inj h
      subst hb
      subst hst
      exact ⟨rfl, rfl, rfl, fun hbt => absurd hbt (by simp), [], by rw [List.append_nil],
        Nat.zero_le _, fun u hu => absurd hu (by simp)⟩
  | defChild c1 =>
    cases a2 with
    | leaf v2 =>
      simp only [reduceAttr] at h
      obtain ⟨hb, hst⟩ := Prod.mk.inj h
      subst hb
      subst hst
      exact ⟨rfl, rfl, rfl, fun hbt => absurd hbt (by simp), [], by rw [List.append_nil],
        Nat.zero_le _, fun u hu => absurd hu (by simp)⟩
    | child c2 =>
      simp only [reduceAttr] at h
      obtain ⟨hb, hst⟩ := Prod.mk.inj h
      subst hb
      subst hst
      exact ⟨rfl, rfl, rfl, fun hbt => absurd hbt (by simp), [], by rw [List.append_nil],
        Nat.zero_le _, fun u hu => absurd hu (by simp)⟩
    | defChild c2 =>
      simp only [reduceAttr] at h
      obtain ⟨r1, r2, r3, rfm, Δ, hΔ, hw, hsp⟩ := reduceChild_shape _ _ _ _ _ _ _ _ _ h
      refine ⟨r1, r2, r3, rfm, Δ, hΔ,
        le_trans hw (by rw [attrSize_defChild_eq]; exact optW_le_attrSize c1), ?_⟩
      intro u hu
      rw [attrChildren_defChild, attrChildren_defChild]
      exact hsp u hu

theorem reduceAttrs_shape (cfg : Cfg) (as1 : List Attr) : ∀ (as2 : List Attr) (st : EState)
    (mfv : Bool) (cur : Option PathPair) (i : Nat) (b : Bool) (st' : EState),
    reduceAttrs cfg as1 as2 st mfv cur i = (b, st') →
    st'.stack = st.stack ∧ st'.mapL = st.mapL ∧ st'.mapR = st.mapR ∧
      (b = true → st'.fm = st.fm) ∧
      ∃ Δ, st'.pending = st.pending ++ Δ ∧
        sumW Δ ≤ 2 * Attr.sizeList as1 ∧
        ∀ u ∈ Δ, SpawnOK cfg cur (attrChildren as1) (attrChildren as2) u := by
  induction as1 with
  | nil =>
    intro as2 st mfv cur i b st' h
    cases as2 with
    | nil =>
      simp only [reduceAttrs] at h
      obtain ⟨hb, hst⟩ := Prod.mk.inj h
      subst hb
      subst hst
      exact ⟨rfl, rfl, rfl, fun _ => rfl, [], by rw [List.append_nil],
        Nat.zero_le _, fun u hu => absurd hu (by simp)⟩
    | cons a2 as2 =>
      simp only [reduceAttrs] at h
      obtain ⟨hb, hst⟩ := Prod.mk.inj h
      subst hb
      subst hst
      exact ⟨rfl, rfl, rfl, fun hbt => absurd hbt (by simp), [], by rw [List.append_nil],
        Nat.zero_le _, fun u hu => absurd hu (by simp)⟩
  | cons a1 as1 ih =>
    intro as2 st mfv cur i b st' h
    cases as2 with
    | nil =>
      simp only [reduceAttrs] at h
      obtain ⟨hb, hst⟩ := Prod.mk.inj h
      subst hb
      subst hst
      exact ⟨rfl, rfl, rfl, fun hbt => absurd hbt (by simp), [], by rw [List.append_nil],
        Nat.zero_le _, fun u hu => absurd hu (by simp)⟩
    | cons a2 as2 =>
      simp only [reduceAttrs] at h
      cases hra : reduceAttr cfg st a1 a2 mfv cur i with
      | mk b1 st1 =>
      rw [hra] at h
      obtain ⟨r1, r2, r3, rfm, Δ1, hΔ1, hw1, hsp1⟩ := reduceAttr_shape _ _ _ _ _ _ _ _ _ hra
      cases b1 with
      | true =>
        rw [if_pos rfl] at h
        obtain ⟨t1, t2, t3, tfm, Δ2, hΔ2, hw2, hsp2⟩ := ih as2 st1 mfv cur (i + 1) b st' h
        refine ⟨t1.trans r1, t2.trans r2, t3.trans r3,
          fun hb => (tfm hb).trans (rfm rfl), Δ1 ++ Δ2, ?_, ?_, ?_⟩
        · rw [hΔ2, hΔ1, List.append_assoc]
        · rw [sumW_append]
          simp only [Attr.sizeList]
          omega
        · intro u hu
          rcases List.mem_append.mp hu with hu | hu
          · exact (hsp1 u hu).mono
              (fun x hx => by rw [attrChildren_cons]; exact List.mem_append.mpr (Or.inl hx))
              (fun x hx => by rw [attrChildren_cons]; exact List.mem_append.mpr (Or.inl hx))
          · exact (hsp2 u hu).mono
              (fun x hx => by rw [attrChildren_cons]; exact List.mem_append.mpr (Or.inr hx))
              (fun x hx => by rw [attrChildren_cons]; exact List.mem_append.mpr (Or.inr hx))
      | false =>
        rw [if_neg (by simp)] at h
        obtain ⟨hb, hst⟩ := Prod.mk.inj h
        subst hb
        subst hst
        refine ⟨r1, r2, r3, fun hbt => absurd hbt (by simp), Δ1, hΔ1, ?_, ?_⟩
        · simp only [Attr.sizeList]
          omega
        · intro u hu
          exact (hsp1 u hu).mono
            (fun x hx => by rw [attrChildren_cons]; exact List.mem_append.mpr (Or.inl hx))
            (fun x hx => by rw [attrChildren_cons]; exact List.mem_append.mpr (Or.inl hx))

theorem one_le_two_size (l : Node) : 1 ≤ 2 * l.size := by
  have h := size_pos l
  omega

theorem reduceNodePair_shape (cfg : Cfg) (st : EState) (l r : Node) (mfv : Bool)
    (cur : Option PathPair) (b : Bool) (st' : EState)
    (h : reduceNodePair cfg st l r mfv cur = (b, st')) :
    StackLike st.stack st'.stack ∧ st'.mapL = st.mapL ∧ st'.mapR = st.mapR ∧
      (b = true → st'.fm = st.fm) ∧
      ∃ Δ, st'.pending = st.pending ++ Δ ∧ sumW Δ + 1 ≤ 2 * l.size ∧
        ∀ u ∈ Δ, SpawnOK cfg cur (childNodes l) (childNodes r) u := by
  cases l with
  | var lid lt =>
    cases r with
    | var rid rt =>
      simp only [reduceNodePair] at h
      obtain ⟨hb, hst⟩ := Prod.mk.inj h
      subst hb
      subst hst
      obtain ⟨m1, m2, m3, m4, m5⟩ := markGraph_shape st
      exact ⟨m5, m2, m3, fun _ => m4, [], by rw [List.append_nil]; exact m1,
        by simp [sumW, Node.size], fun u hu => absurd hu (by simp)⟩
    | obj ri rt rg rattrs =>
      simp only [reduceNodePair] at h
      obtain ⟨hb, hst⟩ := Prod.mk.inj h
      subst hb
      subst hst
      exact ⟨stackLike_self _, rfl, rfl, fun hbt => absurd hbt (by simp), [],
        by rw [List.append_nil], by simp only [sumW, List.map_nil, List.sum_nil, Nat.zero_add]; exact one_le_two_size (.var lid lt),
        fun u hu => absurd hu (by simp)⟩
  | obj li lt gm attrs1 =>
    cases r with
    | var rid rt =>
      simp only [reduceNodePair] at h
      obtain ⟨hb, hst⟩ := Prod.mk.inj h
      subst hb
      subst hst
      exact ⟨stackLike_self _, rfl, rfl, fun hbt => absurd hbt (by simp), [],
        by rw [List.append_nil], by simp only [sumW, List.map_nil, List.sum_nil, Nat.zero_add]; exact one_le_two_size (.obj li lt gm attrs1),
        fun u hu => absurd hu (by simp)⟩
    | obj ri rt rg attrs2 =>
      have hst1 : ∃ st1 : EState, (if gm then markGraph st else st) = st1 ∧
          st1.pending = st.pending ∧ st1.mapL = st.mapL ∧ st1.mapR = st.mapR ∧
          st1.fm = st.fm ∧ StackLike st.stack st1.stack := by
        cases gm with
        | false => exact ⟨st, by rw [if_neg (by simp)], rfl, rfl, rfl, rfl, stackLike_self _⟩
        | true =>
          obtain ⟨m1, m2, m3, m4, m5⟩ := markGraph_shape st
          exact ⟨markGraph st, by rw [if_pos rfl], m1, m2, m3, m4, m5⟩
      obtain ⟨st1, hif, p1, p2, p3, p4, p5⟩ := hst1
      simp only [reduceNodePair, hif] at h
      cases hclv : compareLeafValues cfg st1 (attrs1.length : Int) (attrs2.length : Int) cur with
      | mk b0 st2 =>
      rw [hclv] at h
      obtain ⟨c1, c2, c3, c4, c5⟩ := compareLeafValues_shape _ _ _ _ _ _ _ hclv
      cases b0 with
      | false =>
        rw [if_neg (by simp)] at h
        obtain ⟨hb, hst⟩ := Prod.mk.inj h
        subst hb
        subst hst
        refine ⟨?_, c2.trans p2, c3.trans p3, fun hbt => absurd hbt (by simp), [],
          by rw [List.append_nil, c4, p1], by simp only [sumW, List.map_nil, List.sum_nil, Nat.zero_add]; exact one_le_two_size (.obj li lt gm attrs1),
          fun u hu => absurd hu (by simp)⟩
        rw [c1]
        exact p5
      | true =>
        rw [if_pos rfl] at h
        have hst2 : st2 = st1 := c5 rfl
        subst hst2
        obtain ⟨t1, t2, t3, tfm, Δ, hΔ, hw, hsp⟩ := reduceAttrs_shape _ _ _ _ _ _ _ _ _ h
        refine ⟨by rw [t1]; exact p5, t2.trans p2, t3.trans p3,
          fun hb => (tfm hb).trans p4, Δ, by rw [hΔ, p1], ?_, ?_⟩
        · rw [Node.size]
          omega
        · intro u hu
          rw [childNodes_obj, childNodes_obj]
          exact hsp u hu

theorem dispatch_shape (cfg : Cfg) (st : EState) (l r : Node) (mfv : Bool)
    (cur : Option PathPair) (b : Bool) (st' : EState)
    (h : dispatch cfg st l r mfv cur = (b, st')) :
    StackLike st.stack st'.stack ∧ st'.mapL = st.mapL ∧ st'.mapR = st.mapR ∧
      (b = true → st'.fm = st.fm) ∧
      (cfg.tracing = true → cur.isSome = true → b = false → st'.fm.isSome = true) ∧
      (b = true → mlookup st.mapL l.nid = some r.nid ∨
        (mlookup st.mapL l.nid = none ∧ mlookup st.mapR r.nid = none)) ∧
      ∃ Δ, st'.pending = st.pending ++ Δ ∧ sumW Δ + 1 ≤ 2 * l.size ∧
        ∀ u ∈ Δ, SpawnOK cfg cur (childNodes l) (childNodes r) u := by
  rw [dispatch] at h
  cases hml : mlookup st.mapL l.nid with
  | some mapped =>
    rw [hml] at h
    obtain ⟨hb, k1, k2, k3, k4, k5, k6⟩ := checkResult_shape _ _ _ _ _ _ h
    have hdec : b = true → decide (mapped = r.nid) = true := fun hbt => hb.symm.trans hbt
    refine ⟨by rw [k1]; exact stackLike_self _, k2, k3,
      fun hbt => by rw [k5 (hdec hbt)],
      fun htr hcur hbf => k6 htr hcur (hb.symm.trans hbf), ?_, [],
      by rw [List.append_nil]; exact k4,
      by simp only [sumW, List.map_nil, List.sum_nil, Nat.zero_add]; exact one_le_two_size l,
      fun u hu => absurd hu (by simp)⟩
    intro hbt
    have hmp : mapped = r.nid := of_decide_eq_true (hdec hbt)
    exact Or.inl (by rw [hmp])
  | none =>
    rw [hml] at h
    by_cases hmr : (mlookup st.mapR r.nid).isSome = true
    · rw [if_pos hmr] at h
      obtain ⟨hb, k1, k2, k3, k4, k5, k6⟩ := checkResult_shape _ _ _ _ _ _ h
      have hbf : b = false := hb
      refine ⟨by rw [k1]; exact stackLike_self _, k2, k3, fun hbt => absurd (hbf ▸ hbt) (by simp),
        fun htr hcur _ => k6 htr hcur rfl,
        fun hbt => absurd (hbf ▸ hbt) (by simp), [], by rw [List.append_nil]; exact k4,
        by simp only [sumW, List.map_nil, List.sum_nil, Nat.zero_add]; exact one_le_two_size l, fun u hu => absurd hu (by simp)⟩
    · rw [if_neg hmr] at h
      cases hrn : reduceNodePair cfg st l r mfv cur with
      | mk b1 st1 =>
      rw [hrn] at h
      obtain ⟨r1, r2, r3, rfm, Δ, hΔ, hw, hsp⟩ := reduceNodePair_shape _ _ _ _ _ _ _ _ hrn
      obtain ⟨hb, k1, k2, k3, k4, k5, k6⟩ := checkResult_shape _ _ _ _ _ _ h
      subst hb
      refine ⟨by rw [k1]; exact r1, k2.trans r2, k3.trans r3,
        fun hbt => by rw [k5 hbt]; exact rfm hbt,
        fun htr hcur hbf => k6 htr hcur hbf,
        fun _ => Or.inr ⟨rfl, by simpa using hmr⟩,
        Δ, by rw [k4]; exact hΔ, hw, hsp⟩

/-! ### The machine invariant -/

/-- `equal_map_lhs_` and `equal_map_rhs_` are exact inverses. -/
def InverseMaps (mL mR : List (Nat × Nat)) : Prop :=
  ∀ x y, mlookup mL x = some y ↔ mlookup mR y = some x

/-- Both optionals are defined and the left strictly descends from the
right. -/
def OptDesc (a b : Option Node) : Prop :=
  ∃ n m, a = some n ∧ b = some m ∧ Desc n m

/-- A task's operands are defined and acyclic unless it is force-fail. -/
def TaskOK (t : Task) : Prop :=
  t.forceFail = true ∨ ∃ l r, t.lhs = some l ∧ t.rhs = some r ∧
    Node.acyclic l = true ∧ Node.acyclic r = true

/-- Stack discipline: every task lies strictly below (on both sides of the
descendant order) every expanded task deeper in the stack, because it was
spawned while expanding that task or one of its descendants. -/
def ScopeInv : List Task → Prop
  | [] => True
  | t :: rest => ScopeInv rest ∧
      (t.forceFail = false → ∀ u ∈ rest, u.forceFail = false →
        u.childrenExpanded = true → OptDesc t.lhs u.lhs ∧ OptDesc t.rhs u.rhs)

/-- Every expanded task in the stack is still consistent with the maps:
its pair is either already recorded, or both of its endpoints are
unclaimed.  Established by the map re-check in `DispatchSEqualReduce`. -/
def MapCompat (mL mR : List (Nat × Nat)) (ts : List Task) : Prop :=
  ∀ u ∈ ts, u.forceFail = false → u.childrenExpanded = true →
    ∀ l r, u.lhs = some l → u.rhs = some r →
      mlookup mL l.nid = some r.nid ∨
        (mlookup mL l.nid = none ∧ mlookup mR r.nid = none)

/-- Every live task carries defined paths (meaningful when tracing). -/
def PathsOK (st : EState) : Prop :=
  ∀ t ∈ st.stack ++ st.pending, t.currentPaths.isSome = true

/-- The loop-head invariant of `RunTasks`. -/
def Inv (st : EState) : Prop :=
  st.pending = [] ∧ (∀ t ∈ st.stack, TaskOK t) ∧ ScopeInv st.stack ∧
    MapCompat st.mapL st.mapR st.stack ∧ InverseMaps st.mapL st.mapR

theorem mlookup_minsert (m : List (Nat × Nat)) (k v x : Nat) :
    mlookup (minsert m k v) x = if k = x then some v else mlookup m x := by
  induction m with
  | nil => rfl
  | cons p rest ih =>
    obtain ⟨a, c⟩ := p
    by_cases hk : a = k
    · subst hk
      rw [minsert, if_pos rfl]
      simp only [mlookup]
      by_cases hx : a = x
      · simp [hx]
      · simp [hx]
    · rw [minsert, if_neg hk]
      simp only [mlookup, ih]
      by_cases hx1 : a = x
      · have hkx : ¬ k = x := fun hh => hk (by rw [hh, hx1])
        simp [hx1, hkx]
      · simp [hx1]

theorem inverseMaps_insert {mL mR : List (Nat × Nat)} (hInv : InverseMaps mL mR)
    {a b : Nat}
    (hc : mlookup mL a = some b ∨ (mlookup mL a = none ∧ mlookup mR b = none)) :
    InverseMaps (minsert mL a b) (minsert mR b a) := by
  intro x y
  rw [mlookup_minsert, mlookup_minsert]
  by_cases hxa : a = x
  · subst hxa
    rw [if_pos rfl]
    by_cases hyb : b = y
    · subst hyb
      rw [if_pos rfl]
      exact ⟨fun _ => rfl, fun _ => rfl⟩
    · rw [if_neg hyb]
      constructor
      · intro hsome
        exact absurd (Option.some.inj hsome) hyb
      · intro hsome
        have hmm := (hInv a y).mpr hsome
        rcases hc with hc | ⟨hc1, hc2⟩
        · rw [hc] at hmm
          exact absurd (Option.some.inj hmm) hyb
        · rw [hc1] at hmm
          cases hmm
  · rw [if_neg hxa]
    by_cases hyb : b = y
    · subst hyb
      rw [if_pos rfl]
      constructor
      · intro hsome
        have hmm := (hInv x b).mp hsome
        rcases hc with hc | ⟨hc1, hc2⟩
        · have h2 := (hInv a b).mp hc
          have h3 := hmm.symm.trans h2
          exact absurd (Option.some.inj h3).symm hxa
        · rw [hc2] at hmm
          cases hmm
      · intro hsome
        exact absurd (Option.some.inj hsome) hxa
    · rw [if_neg hyb]
      exact hInv x y

theorem mapCompat_insert {mL mR : List (Nat × Nat)} {ts : List Task}
    (hmc : MapCompat mL mR ts) {l r : Node}
    (hne : ∀ u ∈ ts, u.forceFail = false → u.childrenExpanded = true →
      ∀ lu ru, u.lhs = some lu → u.rhs = some ru → l.nid ≠ lu.nid ∧ r.nid ≠ ru.nid) :
    MapCompat (minsert mL l.nid r.nid) (minsert mR r.nid l.nid) ts := by
  intro u hu hff hce lu ru hl hr
  obtain ⟨hne1, hne2⟩ := hne u hu hff hce lu ru hl hr
  rw [mlookup_minsert, mlookup_minsert, if_neg hne1, if_neg hne2]
  exact hmc u hu hff hce lu ru hl hr

theorem taskW_expanded {t : Task} (hce : t.childrenExpanded = true) : taskW t = 1 := by
  rw [taskW]
  split
  · rfl
  · simp [hce]

theorem taskW_ff {t : Task} (hff : t.forceFail = true) : taskW t = 1 := by
  rw [taskW, if_pos hff]

theorem taskW_unexpanded {t : Task} {l : Node} (hff : t.forceFail = false)
    (hce : t.childrenExpanded = false) (hl : t.lhs = some l) :
    taskW t = 2 * l.size + 1 := by
  rw [taskW, if_neg (by simp [hff]), if_neg (by simp [hce]), hl]

theorem taskW_pos (t : Task) : 1 ≤ taskW t := by
  rw [taskW]
  split
  · exact le_refl 1
  · split
    · exact le_refl 1
    · split <;> omega

theorem stackLike_cons {t : Task} {rest s' : List Task} (h : StackLike (t :: rest) s') :
    ∃ t', s' = t' :: rest ∧ t'.lhs = t.lhs ∧ t'.rhs = t.rhs ∧
      t'.forceFail = t.forceFail ∧ t'.childrenExpanded = t.childrenExpanded ∧
      t'.currentPaths = t.currentPaths ∧ t'.mapFreeVars = t.mapFreeVars ∧
      taskW t' = taskW t := by
  rcases h with h | ⟨hd, rest2, he, he'⟩
  · exact ⟨t, h, rfl, rfl, rfl, rfl, rfl, rfl, rfl⟩
  · injection he with h1 h2
    subst h1
    subst h2
    refine ⟨{ t with graphEqual := true }, he', rfl, rfl, rfl, rfl, rfl, rfl, ?_⟩
    rw [taskW, taskW]

theorem scopeInv_append (Δ tl : List Task)
    (hΔ : ∀ u ∈ Δ, u.childrenExpanded = false)
    (hsc : ScopeInv tl)
    (hdesc : ∀ u ∈ Δ, u.forceFail = false → ∀ v ∈ tl, v.forceFail = false →
      v.childrenExpanded = true → OptDesc u.lhs v.lhs ∧ OptDesc u.rhs v.rhs) :
    ScopeInv (Δ ++ tl) := by
  induction Δ with
  | nil => exact hsc
  | cons a Δ ih =>
    refine ⟨ih (fun u hu => hΔ u (List.mem_cons_of_mem a hu))
      (fun u hu => hdesc u (List.mem_cons_of_mem a hu)), ?_⟩
    intro hff u hu huff hue
    rcases List.mem_append.mp hu with hu | hu
    · rw [hΔ u (List.mem_cons_of_mem a hu)] at hue
      cases hue
    · exact hdesc a (List.mem_cons_self a Δ) hff u hu huff hue

theorem runStep_eq_nil (cfg : Cfg) (st : EState) (h : st.stack = []) :
    runStep cfg st = .done true st := by
  rw [runStep.eq_def, h]

theorem runStep_eq_ff (cfg : Cfg) (st : EState) (t : Task) (rest : List Task)
    (b0 : Bool) (stc : EState) (h : st.stack = t :: rest) (hff : t.forceFail = true)
    (hcr : checkResult cfg st false t.currentPaths = (b0, stc)) :
    runStep cfg st = .done b0 stc := by
  rw [runStep.eq_def]
  simp only [h]
  rw [if_pos hff]
  simp only [hcr]

theorem runStep_eq_complete (cfg : Cfg) (st : EState) (t : Task) (rest : List Task)
    (l r : Node) (h : st.stack = t :: rest) (hff : t.forceFail = false)
    (hce : t.childrenExpanded = true) (hl : t.lhs = some l) (hr : t.rhs = some r)
    (hok : mlookup st.mapL l.nid = some r.nid ∨ mlookup st.mapL l.nid = none) :
    runStep cfg st =
      (if t.graphEqual then
        .next ⟨st.pending, rest, minsert st.mapL l.nid r.nid,
          minsert st.mapR r.nid l.nid, st.fm⟩
      else .next { st with stack := rest }) := by
  rw [runStep.eq_def]
  simp only [h]
  rw [if_neg (by simp [hff]), if_pos hce]
  simp only [hl, hr]
  rcases hok with hok | hok
  · simp only [hok]
    rw [if_neg (by simp)]
  · simp only [hok]

theorem runStep_eq_expand (cfg : Cfg) (st : EState) (t : Task) (rest : List Task)
    (l r : Node) (b2 : Bool) (st2 : EState)
    (h : st.stack = t :: rest) (hff : t.forceFail = false)
    (hce : t.childrenExpanded = false) (hp : st.pending = [])
    (hl : t.lhs = some l) (hr : t.rhs = some r)
    (hd : dispatch cfg { st with stack := { t with childrenExpanded := true } :: rest }
      l r t.mapFreeVars t.currentPaths = (b2, st2)) :
    runStep cfg st =
      (if b2 then .next { st2 with stack := st2.pending ++ st2.stack, pending := [] }
       else .done false st2) := by
  rw [runStep.eq_def]
  simp only [h]
  rw [if_neg (by simp [hff]), if_neg (by simp [hce])]
  simp only [hp, hl, hr] at hd ⊢
  simp only [hd]

/-- One loop iteration of `RunTasks` under the invariant: a run never goes
fatal; it finishes `true` only with an empty stack and untouched state,
finishes `false` with a recorded mismatch (when tracing with live paths),
or steps to a smaller invariant state without touching `first_mismatch`. -/
theorem runStep_cases (cfg : Cfg) (st : EState) (hInv : Inv st) :
    (runStep cfg st = .done true st ∧ st.stack = []) ∨
    (∃ st'', runStep cfg st = .done false st'' ∧
      (cfg.tracing = true → PathsOK st → st''.fm.isSome = true)) ∨
    (∃ st', runStep cfg st = .next st' ∧ st'.fm = st.fm ∧ Inv st' ∧
      stateM st' < stateM st ∧
      (cfg.tracing = true → PathsOK st → PathsOK st')) := by
  obtain ⟨hp, hok, hsc, hmc, him⟩ := hInv
  cases hstk : st.stack with
  | nil => exact Or.inl ⟨runStep_eq_nil cfg st hstk, rfl⟩
  | cons t rest =>
    rw [hstk] at hok hsc hmc
    have hmemt : t ∈ st.stack ++ st.pending := by
      rw [hstk]
      exact List.mem_append.mpr (Or.inl (List.mem_cons_self t rest))
    obtain ⟨hscR, hscH⟩ := hsc
    by_cases hff : t.forceFail = true
    · cases hcr : checkResult cfg st false t.currentPaths with
      | mk b0 stc =>
      obtain ⟨hb, k1, k2, k3, k4, k5, k6⟩ := checkResult_shape _ _ _ _ _ _ hcr
      subst hb
      refine Or.inr (Or.inl ⟨stc, runStep_eq_ff cfg st t rest false stc hstk hff hcr, ?_⟩)
      intro htr hpaths
      exact k6 htr (hpaths t hmemt) rfl
    · have hffF : t.forceFail = false := by simpa using hff
      rcases hok t (List.mem_cons_self t rest) with htf | ⟨l, r, hl, hr, hacl, hacr⟩
      · exact absurd htf hff
      by_cases hce : t.childrenExpanded = true
      · have hcomp := hmc t (List.mem_cons_self t rest) hffF hce l r hl hr
        have hok' : mlookup st.mapL l.nid = some r.nid ∨ mlookup st.mapL l.nid = none := by
          rcases hcomp with hc | ⟨hc, _⟩
          · exact Or.inl hc
          · exact Or.inr hc
        have hrs := runStep_eq_complete cfg st t rest l r hstk hffF hce hl hr hok'
        have hokR : ∀ u ∈ rest, TaskOK u := fun u hu => hok u (List.mem_cons_of_mem t hu)
        have hmcR : ∀ u ∈ rest, u.forceFail = false → u.childrenExpanded = true →
            ∀ lu ru, u.lhs = some lu → u.rhs = some ru →
            mlookup st.mapL lu.nid = some ru.nid ∨
              (mlookup st.mapL lu.nid = none ∧ mlookup st.mapR ru.nid = none) :=
          fun u hu => hmc u (List.mem_cons_of_mem t hu)
        have hne : ∀ u ∈ rest, u.forceFail = false → u.childrenExpanded = true →
            ∀ lu ru, u.lhs = some lu → u.rhs = some ru →
            l.nid ≠ lu.nid ∧ r.nid ≠ ru.nid := by
          intro u hu huff hue lu ru hlu hru
          obtain ⟨⟨n, m, he1, he2, hdl⟩, ⟨n', m', he1', he2', hdr⟩⟩ :=
            hscH hffF u hu huff hue
          rcases hokR u hu with huf | ⟨lu', ru', hlu', hru', haclu, hacru⟩
          · exact absurd huf (by simp [huff])
          have hnl : n = l := Option.some.inj (he1.symm.trans hl)
          have hml : m = lu := Option.some.inj (he2.symm.trans hlu)
          have hnr : n' = r := Option.some.inj (he1'.symm.trans hr)
          have hmr : m' = ru := Option.some.inj (he2'.symm.trans hru)
          have hlu2 : lu' = lu := Option.some.inj (hlu'.symm.trans hlu)
          have hru2 : ru' = ru := Option.some.inj (hru'.symm.trans hru)
          subst hnl
          subst hml
          subst hnr
          subst hmr
          subst hlu2
          subst hru2
          exact ⟨acyclic_desc_ne haclu hdl, acyclic_desc_ne hacru hdr⟩
        have hmeas : ∀ s' : EState, s'.stack = rest → s'.pending = st.pending →
            stateM s' < stateM st := by
          intro s' h1 h2
          rw [stateM, stateM, h1, h2, hstk, sumW_cons]
          have := taskW_pos t
          omega
        have hpathsR : cfg.tracing = true → PathsOK st → ∀ s' : EState,
            s'.stack = rest → s'.pending = st.pending → PathsOK s' := by
          intro _ hpa s' h1 h2 u hu
          rw [h1, h2] at hu
          have hmm : u ∈ st.stack ++ st.pending := by
            rw [hstk]
            rcases List.mem_append.mp hu with hu | hu
            · exact List.mem_append.mpr (Or.inl (List.mem_cons_of_mem t hu))
            · exact List.mem_append.mpr (Or.inr hu)
          exact hpa u hmm
        cases hgE : t.graphEqual with
        | false =>
          refine Or.inr (Or.inr ⟨{ st with stack := rest },
            by rw [hrs, if_neg (by simp [hgE])], rfl, ?_, hmeas _ rfl rfl,
            fun htr hpa => hpathsR htr hpa _ rfl rfl⟩)
          exact ⟨hp, hokR, hscR, fun u hu => hmc u (List.mem_cons_of_mem t hu), him⟩
        | true =>
          refine Or.inr (Or.inr ⟨⟨st.pending, rest, minsert st.mapL l.nid r.nid,
            minsert st.mapR r.nid l.nid, st.fm⟩,
            by rw [hrs, if_pos hgE], rfl, ?_, hmeas _ rfl rfl,
            fun htr hpa => hpathsR htr hpa _ rfl rfl⟩)
          exact ⟨hp, hokR, hscR, mapCompat_insert hmcR hne, inverseMaps_insert him hcomp⟩
      · have hceF : t.childrenExpanded = false := by simpa using hce
        cases hd : dispatch cfg
            { st with stack := { t with childrenExpanded := true } :: rest }
            l r t.mapFreeVars t.currentPaths with
        | mk b2 st2 =>
        have hrs := runStep_eq_expand cfg st t rest l r b2 st2 hstk hffF hceF hp hl hr hd
        obtain ⟨d1, d2, d3, dfm, dfmF, dmap, Δ, dΔ, dw, dsp⟩ :=
          dispatch_shape _ _ _ _ _ _ _ _ hd
        rw [show ({ st with stack := { t with childrenExpanded := true } :: rest }
          : EState).pending = st.pending from rfl, hp, List.nil_append] at dΔ
        cases b2 with
        | false =>
          refine Or.inr (Or.inl ⟨st2, by rw [hrs, if_neg (by simp)], ?_⟩)
          intro htr hpaths
          exact dfmF htr (hpaths t hmemt) rfl
        | true =>
          obtain ⟨tE, hsE, e1, e2, e3, e4, e5, e6, e7⟩ := stackLike_cons d1
          have hfmeq : st2.fm = st.fm := dfm rfl
          have hceE : tE.childrenExpanded = true := e4
          have hffE : tE.forceFail = false := by rw [e3]; exact hffF
          have hlE : tE.lhs = some l := by rw [e1]; exact hl
          have hrE : tE.rhs = some r := by rw [e2]; exact hr
          have hpE : tE.currentPaths = t.currentPaths := e5
          refine Or.inr (Or.inr ⟨{ st2 with stack := st2.pending ++ st2.stack, pending := [] }, by rw [hrs, if_pos rfl], hfmeq, ?_, ?_, ?_⟩)
          · refine ⟨rfl, ?_, ?_, ?_, ?_⟩
            · intro u hu
              rw [show ({ st2 with stack := st2.pending ++ st2.stack, pending := [] }
                : EState).stack = st2.pending ++ st2.stack from rfl, dΔ, hsE] at hu
              rcases List.mem_append.mp hu with hu | hu
              · obtain ⟨sc, sg, sp, sk⟩ := dsp u hu
                cases hfu : u.forceFail with
                | true => exact Or.inl hfu
                | false =>
                  obtain ⟨n1, n2, f1, f2, f3, f4⟩ := sk hfu
                  exact Or.inr ⟨n1, n2, f1, f2, acyclic_child hacl f3,
                    acyclic_child hacr f4⟩
              · rcases List.mem_cons.mp hu with hu | hu
                · subst hu
                  exact Or.inr ⟨l, r, hlE, hrE, hacl, hacr⟩
                · exact hok u (List.mem_cons_of_mem t hu)
            · rw [show ({ st2 with stack := st2.pending ++ st2.stack, pending := [] }
                : EState).stack = st2.pending ++ st2.stack from rfl, dΔ, hsE]
              refine scopeInv_append Δ (tE :: rest)
                (fun u hu => (dsp u hu).1) ⟨hscR, ?_⟩ ?_
              · intro _ u hu huff hue
                have hh := hscH hffF u hu huff hue
                rw [e1, e2]
                exact hh
              · intro u hu huff v hv hvff hve
                obtain ⟨sc, sg, sp, sk⟩ := dsp u hu
                obtain ⟨n1, n2, f1, f2, f3, f4⟩ := sk huff
                rcases List.mem_cons.mp hv with hv | hv
                · subst hv
                  exact ⟨⟨n1, l, f1, hlE, Desc.base f3⟩, ⟨n2, r, f2, hrE, Desc.base f4⟩⟩
                · obtain ⟨⟨n, m, he1, he2, hdl⟩, ⟨n', m', he1', he2', hdr⟩⟩ :=
                    hscH hffF v hv hvff hve
                  have hnl : n = l := Option.some.inj (he1.symm.trans hl)
                  have hnr : n' = r := Option.some.inj (he1'.symm.trans hr)
                  subst hnl
                  subst hnr
                  exact ⟨⟨n1, m, f1, he2, (Desc.base f3).trans hdl⟩,
                    ⟨n2, m', f2, he2', (Desc.base f4).trans hdr⟩⟩
            · intro u hu huff hue lu ru hlu hru
              rw [show ({ st2 with stack := st2.pending ++ st2.stack, pending := [] }
                : EState).stack = st2.pending ++ st2.stack from rfl, dΔ, hsE] at hu
              have hmL : ({ st2 with stack := st2.pending ++ st2.stack, pending := [] }
                : EState).mapL = st.mapL := d2
              have hmR : ({ st2 with stack := st2.pending ++ st2.stack, pending := [] }
                : EState).mapR = st.mapR := d3
              rw [hmL, hmR]
              rcases List.mem_append.mp hu with hu | hu
              · rw [(dsp u hu).1] at hue
                cases hue
              · rcases List.mem_cons.mp hu with hu | hu
                · subst hu
                  have hlu2 : lu = l := Option.some.inj (hlu.symm.trans hlE)
                  have hru2 : ru = r := Option.some.inj (hru.symm.trans hrE)
                  subst hlu2
                  subst hru2
                  exact dmap rfl
                · exact hmc u (List.mem_cons_of_mem t hu) huff hue lu ru hlu hru
            · rw [show ({ st2 with stack := st2.pending ++ st2.stack, pending := [] }
                : EState).mapL = st2.mapL from rfl,
                show ({ st2 with stack := st2.pending ++ st2.stack, pending := [] }
                : EState).mapR = st2.mapR from rfl, d2, d3]
              exact him
          · rw [stateM, stateM,
              show ({ st2 with stack := st2.pending ++ st2.stack, pending := [] }
                : EState).stack = st2.pending ++ st2.stack from rfl,
              show ({ st2 with stack := st2.pending ++ st2.stack, pending := [] }
                : EState).pending = [] from rfl, dΔ, hsE, hstk, hp,
              sumW_append, sumW_cons, sumW_cons]
            rw [e7, taskW_expanded (show ({ t with childrenExpanded := true }
              : Task).childrenExpanded = true from rfl),
              taskW_unexpanded hffF hceF hl]
            have hz : sumW ([] : List Task) = 0 := rfl
            rw [hz]
            omega
          · intro htr hpa u hu
            rw [show ({ st2 with stack := st2.pending ++ st2.stack, pending := [] }
              : EState).stack = st2.pending ++ st2.stack from rfl,
              show ({ st2 with stack := st2.pending ++ st2.stack, pending := [] }
              : EState).pending = [] from rfl, List.append_nil, dΔ, hsE] at hu
            rcases List.mem_append.mp hu with hu | hu
            · exact (dsp u hu).2.2.1 htr (hpa t hmemt)
            · rcases List.mem_cons.mp hu with hu | hu
              · subst hu
                rw [hpE]
                exact hpa t hmemt
              · have hmm : u ∈ st.stack ++ st.pending := by
                  rw [hstk]
                  exact List.mem_append.mpr (Or.inl (List.mem_cons_of_mem t hu))
                exact hpa u hmm

/-- With enough fuel, an invariant state runs to completion: no fatal
check fires and the loop terminates. -/
theorem runTasks_ok (cfg : Cfg) : ∀ (fuel : Nat) (st : EState), Inv st →
    stateM st < fuel → ∃ b st', runTasks cfg fuel st = .ok b st' := by
  intro fuel
  induction fuel with
  | zero =>
    intro st _ h
    omega
  | succ n ih =>
    intro st hInv hf
    rcases runStep_cases cfg st hInv with ⟨hrs, _⟩ | ⟨st'', hrs, _⟩ |
      ⟨st', hrs, _, hInv', hm, _⟩
    · exact ⟨true, st, by simp only [runTasks, hrs]⟩
    · exact ⟨false, st'', by simp only [runTasks, hrs]⟩
    · obtain ⟨b, st2, hrt⟩ := ih st' hInv' (by omega)
      exact ⟨b, st2, by simp only [runTasks, hrs]; exact hrt⟩

/-- `first_mismatch` bookkeeping along a traced run: a `true` verdict leaves
it untouched, a `false` verdict guarantees it is recorded. -/
theorem runTasks_fm (cfg : Cfg) (htr : cfg.tracing = true) :
    ∀ (fuel : Nat) (st : EState), Inv st → PathsOK st →
    ∀ b st', runTasks cfg fuel st = .ok b st' →
    (b = true → st'.fm = st.fm) ∧ (b = false → st'.fm.isSome = true) := by
  intro fuel
  induction fuel with
  | zero =>
    intro st _ _ b st' h
    rw [runTasks] at h
    cases h
  | succ n ih =>
    intro st hInv hpa b st' h
    rcases runStep_cases cfg st hInv with ⟨hrs, hstk⟩ | ⟨st'', hrs, hfmf⟩ |
      ⟨stn, hrs, hfm, hInv', _, hpp⟩
    · simp only [runTasks, hrs] at h
      injection h with h1 h2
      subst h1
      subst h2
      exact ⟨fun _ => rfl, fun hbf => absurd hbf (by simp)⟩
    · simp only [runTasks, hrs] at h
      injection h with h1 h2
      subst h1
      subst h2
      exact ⟨fun hbt => absurd hbt (by simp), fun _ => hfmf htr hpa⟩
    · simp only [runTasks, hrs] at h
      obtain ⟨ht, hf⟩ := ih stn hInv' (hpp htr hpa) b st' h
      exact ⟨fun hbt => (ht hbt).trans hfm, hf⟩

/-- The state `Equal` seeds `RunTasks` with on the object path: the single
root task produced by the root `SEqualReduce` call. -/
def initState (tracing : Bool) (l r : Node) (mfv : Bool) : EState :=
  ⟨[], [mkTask (some l) (some r) mfv (if tracing then some ([], []) else none)],
    [], [], none⟩

theorem inv_initState (tracing : Bool) (l r : Node) (mfv : Bool)
    (hacl : Node.acyclic l = true) (hacr : Node.acyclic r = true) :
    Inv (initState tracing l r mfv) := by
  refine ⟨rfl, ?_, ?_, ?_, ?_⟩
  · intro t ht
    rw [show (initState tracing l r mfv).stack =
      [mkTask (some l) (some r) mfv (if tracing then some ([], []) else none)] from rfl,
      List.mem_singleton] at ht
    subst ht
    exact Or.inr ⟨l, r, rfl, rfl, hacl, hacr⟩
  · exact ⟨trivial, fun _ u hu => absurd hu (by simp)⟩
  · intro u hu hff hce l' r' hl hr
    rw [show (initState tracing l r mfv).stack =
      [mkTask (some l) (some r) mfv (if tracing then some ([], []) else none)] from rfl,
      List.mem_singleton] at hu
    subst hu
    cases hce
  · intro x y
    constructor <;> intro hc <;> simp [mlookup] at hc

theorem pathsOK_initState (l r : Node) (mfv : Bool) :
    PathsOK (initState true l r mfv) := by
  intro t ht
  simp only [initState, PathsOK, List.append_nil, List.mem_singleton] at ht
  subst ht
  rfl

theorem stateM_initState (tracing : Bool) (l r : Node) (mfv : Bool) :
    stateM (initState tracing l r mfv) = 2 * l.size + 1 := by
  rw [stateM, show (initState tracing l r mfv).stack =
    [mkTask (some l) (some r) mfv (if tracing then some ([], []) else none)] from rfl,
    show (initState tracing l r mfv).pending = [] from rfl, sumW_cons,
    taskW_mkTask_some]
  simp [sumW]

theorem eEqual_obj (cfg : Cfg) (fuel : Nat) (l r : Node) (mfv : Bool)
    (htix : l.tindex = r.tindex) :
    eEqual cfg fuel (.obj l) (.obj r) mfv =
      runTasks cfg fuel (initState cfg.tracing l r mfv) := by
  have hearly : earlyResult emptyState (some l) (some r) = none := by
    rw [earlyResult]
    rw [if_neg (by simp [htix])]
    rfl
  have hsr := sEqualReduce_eq_none cfg emptyState (some l) (some r) mfv
    (if cfg.tracing = true then some ([], []) else none) hearly
  rw [eEqual]
  rw [if_neg (by rw [AnyVal.tix, AnyVal.tix, htix]; simp)]
  rw [if_neg (by rw [AnyVal.tix, staticObjBegin]; omega)]
  simp only [hsr]
  rw [initState]
  simp [emptyState, mkTask]

/-! ## Claim C6: the early-result rules of `SEqualReduce` -/

theorem checkResult_fst (cfg : Cfg) (st : EState) (b : Bool) (cur : Option PathPair) :
    (checkResult cfg st b cur).1 = b := by
  rw [checkResult]
  split <;> rfl

/-- Claim C6: (a) when `lhs` already has an entry `m` in `equal_map_lhs`
(and the earlier rules passed, i.e. the type indices agree), the early
result is the identity comparison of `m` against `rhs`; (b) whenever any
early-result rule yields `false` while path tracing is enabled, fail
deferral is enabled and `current_paths` is defined, the engine enqueues a
force-fail task carrying `current_paths` and returns `true` to the caller;
(c) with deferral disabled that `false` is returned to the caller. -/
theorem sEqualReduce_early_rules (cfg : Cfg) (st : EState) (l r : Node)
    (lhs rhs : Option Node) (m : Nat) (mfv : Bool) (cur : Option PathPair)
    (p : PathPair) :
    (l.tindex = r.tindex → mlookup st.mapL l.nid = some m →
      earlyResult st (some l) (some r) = some (decide (m = r.nid))) ∧
    (earlyResult st lhs rhs = some false → cfg.tracing = true →
      cfg.deferFails = true → cur = some p →
      sEqualReduce cfg st lhs rhs mfv cur =
        (true, { st with pending := st.pending ++ [forceFailTask p] })) ∧
    (earlyResult st lhs rhs = some false → cfg.deferFails = false →
      (sEqualReduce cfg st lhs rhs mfv cur).1 = false) := by
  refine ⟨?_, ?_, ?_⟩
  · intro htix hmap
    rw [earlyResult]
    rw [if_neg (by rw [htix]; exact fun hc => hc rfl), hmap]
  · intro hearly htr hdf hcur
    rw [sEqualReduce.eq_def, hearly, hcur]
    simp [htr, hdf]
  · intro hearly hdf
    rw [sEqualReduce.eq_def, hearly]
    cases cur with
    | none => simp [checkResult_fst]
    | some q => simp [hdf, checkResult_fst]

/-- Witness for C6 at a concrete state: the map holds `1 ↦ 5`, the rhs node
has id 6, so the early result is the identity comparison `5 = 6` (false),
and with tracing and deferral on the reduction returns `true` while
enqueuing the force-fail task with the current paths. -/
theorem sEqualReduce_early_rules_witness :
    (earlyResult ⟨[], [], [(1, 5)], [], none⟩ (some (.var 1 3)) (some (.var 6 3)) =
      some (decide ((5 : Nat) = 6))) ∧
    (sEqualReduce ⟨true, true⟩ ⟨[], [], [(1, 5)], [], none⟩ (some (.var 1 3))
        (some (.var 6 3)) false (some ([0], [0])) =
      (true, { (⟨[], [], [(1, 5)], [], none⟩ : EState) with
        pending := [] ++ [forceFailTask ([0], [0])] })) ∧
    ((sEqualReduce ⟨true, false⟩ ⟨[], [], [(1, 5)], [], none⟩ (some (.var 1 3))
        (some (.var 6 3)) false (some ([0], [0]))).1 = false) :=
  ⟨(sEqualReduce_early_rules ⟨true, true⟩ ⟨[], [], [(1, 5)], [], none⟩ (.var 1 3)
      (.var 6 3) (some (.var 1 3)) (some (.var 6 3)) 5 false (some ([0], [0]))
      ([0], [0])).1 rfl rfl,
    (sEqualReduce_early_rules ⟨true, true⟩ ⟨[], [], [(1, 5)], [], none⟩ (.var 1 3)
      (.var 6 3) (some (.var 1 3)) (some (.var 6 3)) 5 false (some ([0], [0]))
      ([0], [0])).2.1 (by decide) rfl rfl rfl,
    (sEqualReduce_early_rules ⟨true, false⟩ ⟨[], [], [(1, 5)], [], none⟩ (.var 1 3)
      (.var 6 3) (some (.var 1 3)) (some (.var 6 3)) 5 false (some ([0], [0]))
      ([0], [0])).2.2 (by decide) rfl⟩

/-! ## Claim C10: `node.GetFirstStructuralMismatch` -/

/-- `eEqual` on roots of different type indices, under the mismatch
callable's configuration. -/
theorem eEqual_tix_ne (fuel : Nat) (lhs rhs : AnyVal) (mfv : Bool)
    (htix : ¬ lhs.tix = rhs.tix) :
    eEqual ⟨true, true⟩ fuel lhs rhs mfv =
      .ok false ⟨[], [], [], [], some ([], [])⟩ := by
  rw [eEqual.eq_def, if_pos (by simp [htix])]
  simp [checkResult, emptyState]

theorem eEqual_prim_eq (fuel : Nat) (lhs rhs : AnyVal) (mfv : Bool)
    (htix : lhs.tix = rhs.tix) (hsmall : lhs.tix < staticObjBegin)
    (hbits : lhs.bits = rhs.bits) :
    eEqual ⟨true, true⟩ fuel lhs rhs mfv = .ok true emptyState := by
  rw [eEqual.eq_def, if_neg (by simp [htix]), if_pos hsmall, if_pos hbits]

theorem eEqual_prim_ne (fuel : Nat) (lhs rhs : AnyVal) (mfv : Bool)
    (htix : lhs.tix = rhs.tix) (hsmall : lhs.tix < staticObjBegin)
    (hbits : ¬ lhs.bits = rhs.bits) :
    eEqual ⟨true, true⟩ fuel lhs rhs mfv =
      .ok false ⟨[], [], [], [], some ([], [])⟩ := by
  rw [eEqual.eq_def, if_neg (by simp [htix]), if_pos hsmall, if_neg hbits]
  simp [checkResult, emptyState]

/-- Claim C10: the registered callable `node.GetFirstStructuralMismatch`
runs `Equal` with path tracing and fail deferral enabled
(`SEqualHandlerDefault(false, &first_mismatch, true)`); for every pair of
well-formed inputs and every `map_free_vars`, the run completes, and it
leaves `first_mismatch` undefined exactly when the equality verdict is
`true` — so the returned `ObjectPathPair` is defined iff the structural
equality check returns `false` (and the `ICHECK(equal ==
!first_mismatch.defined())` cannot fire). -/
theorem getFirstStructuralMismatch_defined_iff (lhs rhs : AnyVal) (mfv : Bool)
    (hl : WfAny lhs) (hr : WfAny rhs) :
    (∃ fuel b st', eEqual ⟨true, true⟩ fuel lhs rhs mfv = .ok b st') ∧
    (∀ fuel b st', eEqual ⟨true, true⟩ fuel lhs rhs mfv = .ok b st' →
      (b = true ↔ st'.fm = none)) := by
  by_cases htix : lhs.tix = rhs.tix
  · by_cases hsmall : lhs.tix < staticObjBegin
    · by_cases hbits : lhs.bits = rhs.bits
      · refine ⟨⟨1, true, emptyState, eEqual_prim_eq 1 lhs rhs mfv htix hsmall hbits⟩, ?_⟩
        intro fuel b st' h
        rw [eEqual_prim_eq fuel lhs rhs mfv htix hsmall hbits] at h
        injection h with h1 h2
        subst h1
        subst h2
        simp [emptyState]
      · refine ⟨⟨1, false, ⟨[], [], [], [], some ([], [])⟩,
          eEqual_prim_ne 1 lhs rhs mfv htix hsmall hbits⟩, ?_⟩
        intro fuel b st' h
        rw [eEqual_prim_ne fuel lhs rhs mfv htix hsmall hbits] at h
        injection h with h1 h2
        subst h1
        subst h2
        simp
    · cases lhs with
      | prim ti bits =>
        have hti : ti < staticObjBegin := hl
        exact absurd (show (AnyVal.prim ti bits).tix < staticObjBegin from hti) hsmall
      | obj l =>
        cases rhs with
        | prim ti bits =>
          have hti : ti < staticObjBegin := hr
          rw [htix] at hsmall
          exact absurd (show (AnyVal.prim ti bits).tix < staticObjBegin from hti) hsmall
        | obj r =>
          have htix' : l.tindex = r.tindex := by
            rw [AnyVal.tix, AnyVal.tix] at htix
            omega
          have hInv := inv_initState true l r mfv hl hr
          have heq := fun fuel => eEqual_obj ⟨true, true⟩ fuel l r mfv htix'
          constructor
          · obtain ⟨b, st', hrt⟩ := runTasks_ok ⟨true, true⟩
              (stateM (initState true l r mfv) + 1) (initState true l r mfv) hInv
              (by omega)
            exact ⟨stateM (initState true l r mfv) + 1, b, st', by rw [heq _]; exact hrt⟩
          · intro fuel b st' h
            rw [heq fuel] at h
            obtain ⟨hT, hF⟩ := runTasks_fm ⟨true, true⟩ rfl fuel
              (initState true l r mfv) hInv (pathsOK_initState l r mfv) b st' h
            constructor
            · intro hbt
              rw [hT hbt]
              rfl
            · intro hfm
              cases b with
              | true => rfl
              | false =>
                have hsome := hF rfl
                rw [hfm] at hsome
                cases hsome
  · refine ⟨⟨1, false, ⟨[], [], [], [], some ([], [])⟩,
      eEqual_tix_ne 1 lhs rhs mfv htix⟩, ?_⟩
    intro fuel b st' h
    rw [eEqual_tix_ne fuel lhs rhs mfv htix] at h
    injection h with h1 h2
    subst h1
    subst h2
    simp

/-- Witness for C10 on concrete inputs: two one-attribute objects whose
leaves differ. -/
theorem getFirstStructuralMismatch_defined_iff_witness :
    WfAny (.obj (.obj 1 0 true [.leaf 3])) ∧ WfAny (.obj (.obj 2 0 true [.leaf 4])) ∧
    ((∃ fuel b st', eEqual ⟨true, true⟩ fuel (.obj (.obj 1 0 true [.leaf 3]))
        (.obj (.obj 2 0 true [.leaf 4])) false = .ok b st') ∧
      (∀ fuel b st', eEqual ⟨true, true⟩ fuel (.obj (.obj 1 0 true [.leaf 3]))
          (.obj (.obj 2 0 true [.leaf 4])) false = .ok b st' →
        (b = true ↔ st'.fm = none))) :=
  ⟨by decide, by decide,
    getFirstStructuralMismatch_defined_iff (.obj (.obj 1 0 true [.leaf 3]))
      (.obj (.obj 2 0 true [.leaf 4])) false (by decide) (by decide)⟩

/-! ## Claim C9: the two remap maps stay exact inverses -/

/-- Loop-head states of one `Equal` call: iterate `runStep` from a seeded
state; `none` once the loop has exited (or would trip a fatal check). -/
def stepN (cfg : Cfg) : Nat → EState → Option EState
  | 0, st => some st
  | n + 1, st =>
    match runStep cfg st with
    | .next st' => stepN cfg n st'
    | _ => none

theorem stepN_inv (cfg : Cfg) : ∀ (n : Nat) (st : EState), Inv st →
    ∀ st', stepN cfg n st = some st' → Inv st' := by
  intro n
  induction n with
  | zero =>
    intro st hInv st' h
    rw [stepN] at h
    injection h with h1
    subst h1
    exact hInv
  | succ m ih =>
    intro st hInv st' h
    rcases runStep_cases cfg st hInv with ⟨hrs, _⟩ | ⟨st'', hrs, _⟩ |
      ⟨stn, hrs, _, hInv', _, _⟩
    · simp only [stepN, hrs] at h
      cases h
    · simp only [stepN, hrs] at h
      cases h
    · simp only [stepN, hrs] at h
      exact ih stn hInv' st' h

/-- Claim C9: throughout every top-level `Equal` call on well-formed
(acyclic) roots, `equal_map_lhs_` and `equal_map_rhs_` describe a bijection
between visited lhs and rhs objects: at every loop head reachable from the
seeded root state, `equal_map_lhs[x] = y` holds iff `equal_map_rhs[y] = x`.
The two entries are inserted together only when a `graph_equal` task
completes, and the map re-check refuses to pair an `lhs` with an `rhs`
already claimed by a different `lhs`, which preserves the bijection. -/
theorem equal_maps_inverse_throughout (cfg : Cfg) (l r : Node) (mfv : Bool)
    (hacl : Node.acyclic l = true) (hacr : Node.acyclic r = true)
    (n : Nat) (st' : EState)
    (h : stepN cfg n (initState cfg.tracing l r mfv) = some st') :
    ∀ x y, mlookup st'.mapL x = some y ↔ mlookup st'.mapR y = some x :=
  (stepN_inv cfg n (initState cfg.tracing l r mfv)
    (inv_initState cfg.tracing l r mfv hacl hacr) st' h).2.2.2.2

/-- Witness for C9: after the two loop iterations that expand and complete
the root pair `(1, 2)`, both maps hold exactly that pair, inversely. -/
theorem equal_maps_inverse_throughout_witness :
    Node.acyclic (.obj 1 0 true [.leaf 5]) = true ∧
    ∀ x y, mlookup (⟨[], [], [(1, 2)], [(2, 1)], none⟩ : EState).mapL x = some y ↔
      mlookup (⟨[], [], [(1, 2)], [(2, 1)], none⟩ : EState).mapR y = some x :=
  ⟨by decide, equal_maps_inverse_throughout ⟨false, false⟩ (.obj 1 0 true [.leaf 5])
    (.obj 2 0 true [.leaf 5]) false (by decide) (by decide) 2 _ (by rfl)⟩

/-! ## Claim C7: fail deferral does not change the verdict -/

/-- Some task in the list is a force-fail task. -/
def HasFF (ts : List Task) : Prop := ∃ u ∈ ts, u.forceFail = true

theorem sEqualReduce_compare (tr : Bool) (st : EState) (lhs rhs : Option Node)
    (mfv : Bool) (cur : Option PathPair) (bD bN : Bool) (sD sN : EState)
    (hD : sEqualReduce ⟨tr, true⟩ st lhs rhs mfv cur = (bD, sD))
    (hN : sEqualReduce ⟨tr, false⟩ st lhs rhs mfv cur = (bN, sN)) :
    (bD = bN ∧ sD = sN) ∨ (bN = false ∧ (bD = true → HasFF sD.pending)) := by
  cases he : earlyResult st lhs rhs with
  | none =>
    rw [sEqualReduce_eq_none _ _ _ _ _ _ he] at hD hN
    exact Or.inl (Prod.mk.inj (hD.symm.trans hN))
  | some eb =>
    cases eb with
    | true =>
      rw [sEqualReduce_eq_true _ _ _ _ _ _ he] at hD hN
      rw [checkResult_defer tr true false] at hD
      exact Or.inl (Prod.mk.inj (hD.symm.trans hN))
    | false =>
      cases hcur : cur with
      | none =>
        rw [hcur] at hD hN
        rw [sEqualReduce_eq_false_checked _ _ _ _ _ _ he (Or.inl rfl)] at hD hN
        rw [checkResult_defer tr true false] at hD
        exact Or.inl (Prod.mk.inj (hD.symm.trans hN))
      | some p =>
        rw [hcur] at hD hN
        cases tr with
        | false =>
          rw [sEqualReduce_eq_false_checked _ _ _ _ _ _ he (Or.inr (by simp))] at hD hN
          rw [checkResult_defer false true false] at hD
          exact Or.inl (Prod.mk.inj (hD.symm.trans hN))
        | true =>
          rw [sEqualReduce_eq_false_defer _ _ _ _ _ _ _ he rfl rfl rfl] at hD
          rw [sEqualReduce_eq_false_checked _ _ _ _ _ _ he (Or.inr (by simp))] at hN
          obtain ⟨hb1, hs1⟩ := Prod.mk.inj hD
          obtain ⟨hbN, k1, k2, k3, k4, k5, k6⟩ := checkResult_shape _ _ _ _ _ _ hN
          refine Or.inr ⟨hbN, fun _ => ?_⟩
          rw [← hs1]
          exact ⟨forceFailTask p, List.mem_append.mpr (Or.inr (List.mem_singleton.mpr rfl)),
            rfl⟩

theorem reduceChild_compare (tr : Bool) (st : EState) (c1 c2 : Option Node) (mfv : Bool)
    (cur : Option PathPair) (i : Nat) (bD bN : Bool) (sD sN : EState)
    (hD : reduceChild ⟨tr, true⟩ st c1 c2 mfv cur i = (bD, sD))
    (hN : reduceChild ⟨tr, false⟩ st c1 c2 mfv cur i = (bN, sN)) :
    (bD = bN ∧ sD = sN) ∨ (bN = false ∧ (bD = true → HasFF sD.pending)) := by
  cases tr with
  | false =>
    rw [reduceChild_eq_plain _ _ _ _ _ _ _ rfl] at hD hN
    exact sEqualReduce_compare false st c1 c2 mfv none bD bN sD sN hD hN
  | true =>
    cases hsD : sEqualReduce ⟨true, true⟩ st c1 c2 mfv (pathExt cur i) with
    | mk bD0 sD0 =>
    cases hsN : sEqualReduce ⟨true, false⟩ st c1 c2 mfv (pathExt cur i) with
    | mk bN0 sN0 =>
    rw [reduceChild_eq_tracing _ _ _ _ _ _ _ _ _ rfl hsD] at hD
    rw [reduceChild_eq_tracing _ _ _ _ _ _ _ _ _ rfl hsN] at hN
    rcases sEqualReduce_compare true st c1 c2 mfv (pathExt cur i) bD0 bN0 sD0 sN0 hsD hsN
      with ⟨hbe, hse⟩ | ⟨hbN0, hDD⟩
    · subst hbe
      subst hse
      exact Or.inl (Prod.mk.inj (hD.symm.trans hN))
    · subst hbN0
      rw [if_neg (by simp)] at hN
      obtain ⟨hb2, hs2⟩ := Prod.mk.inj hN
      cases bD0 with
      | true =>
        rw [if_pos rfl] at hD
        obtain ⟨hb1, hs1⟩ := Prod.mk.inj hD
        refine Or.inr ⟨hb2.symm, fun _ => ?_⟩
        rw [← hs1]
        exact hDD rfl
      | false =>
        rw [if_neg (by simp)] at hD
        obtain ⟨hb1, hs1⟩ := Prod.mk.inj hD
        exact Or.inr ⟨hb2.symm, fun hbt => absurd (hb1.trans hbt) (by simp)⟩

theorem reduceAttr_compare (tr : Bool) (st : EState) (a1 a2 : Attr) (mfv : Bool)
    (cur : Option PathPair) (i : Nat) (bD bN : Bool) (sD sN : EState)
    (hD : reduceAttr ⟨tr, true⟩ st a1 a2 mfv cur i = (bD, sD))
    (hN : reduceAttr ⟨tr, false⟩ st a1 a2 mfv cur i = (bN, sN)) :
    (bD = bN ∧ sD = sN) ∨ (bN = false ∧ (bD = true → HasFF sD.pending)) := by
  cases a1 with
  | leaf v1 =>
    cases a2 with
    | leaf v2 =>
      simp only [reduceAttr] at hD hN
      rw [compareLeafValues_defer tr true false] at hD
      exact Or.inl (Prod.mk.inj (hD.symm.trans hN))
    | child c2 =>
      simp only [reduceAttr] at hD hN
      exact Or.inl (Prod.mk.inj (hD.symm.trans hN))
    | defChild c2 =>
      simp only [reduceAttr] at hD hN
      exact Or.inl (Prod.mk.inj (hD.symm.trans hN))
  | child c1 =>
    cases a2 with
    | leaf v2 =>
      simp only [reduceAttr] at hD hN
      exact Or.inl (Prod.mk.inj (hD.symm.trans hN))
    | child c2 =>
      simp only [reduceAttr] at hD hN
      exact reduceChild_compare tr st c1 c2 mfv cur i bD bN sD sN hD hN
    | defChild c2 =>
      simp only [reduceAttr] at hD hN
      exact Or.inl (Prod.mk.inj (hD.symm.trans hN))
  | defChild c1 =>
    cases a2 with
    | leaf v2 =>
      simp only [reduceAttr] at hD hN
      exact Or.inl (Prod.mk.inj (hD.symm.trans hN))
    | child c2 =>
      simp only [reduceAttr] at hD hN
      exact Or.inl (Prod.mk.inj (hD.symm.trans hN))
    | defChild c2 =>
      simp only [reduceAttr] at hD hN
      exact reduceChild_compare tr st c1 c2 true cur i bD bN sD sN hD hN

theorem reduceAttrs_compare (tr : Bool) (as1 : List Attr) : ∀ (as2 : List Attr)
    (st : EState) (mfv : Bool) (cur : Option PathPair) (i : Nat) (bD bN : Bool)
    (sD sN : EState),
    reduceAttrs ⟨tr, true⟩ as1 as2 st mfv cur i = (bD, sD) →
    reduceAttrs ⟨tr, false⟩ as1 as2 st mfv cur i = (bN, sN) →
    (bD = bN ∧ sD = sN) ∨ (bN = false ∧ (bD = true → HasFF sD.pending)) := by
  induction as1 with
  | nil =>
    intro as2 st mfv cur i bD bN sD sN hD hN
    cases as2 with
    | nil =>
      simp only [reduceAttrs] at hD hN
      exact Or.inl (Prod.mk.inj (hD.symm.trans hN))
    | cons a2 as2 =>
      simp only [reduceAttrs] at hD hN
      exact Or.inl (Prod.mk.inj (hD.symm.trans hN))
  | cons a1 as1 ih =>
    intro as2 st mfv cur i bD bN sD sN hD hN
    cases as2 with
    | nil =>
      simp only [reduceAttrs] at hD hN
      exact Or.inl (Prod.mk.inj (hD.symm.trans hN))
    | cons a2 as2 =>
      simp only [reduceAttrs] at hD hN
      cases hraD : reduceAttr ⟨tr, true⟩ st a1 a2 mfv cur i with
      | mk bD1 sD1 =>
      cases hraN : reduceAttr ⟨tr, false⟩ st a1 a2 mfv cur i with
      | mk bN1 sN1 =>
      rw [hraD] at hD
      rw [hraN] at hN
      rcases reduceAttr_compare tr st a1 a2 mfv cur i bD1 bN1 sD1 sN1 hraD hraN with
        ⟨hbe, hse⟩ | ⟨hbN1, hDD⟩
      · subst hbe
        subst hse
        cases bD1 with
        | true =>
          rw [if_pos rfl] at hD hN
          exact ih as2 sD1 mfv cur (i + 1) bD bN sD sN hD hN
        | false =>
          rw [if_neg (by simp)] at hD hN
          exact Or.inl (Prod.mk.inj (hD.symm.trans hN))
      · subst hbN1
        rw [if_neg (by simp)] at hN
        obtain ⟨hb2, hs2⟩ := Prod.mk.inj hN
        cases bD1 with
        | false =>
          rw [if_neg (by simp)] at hD
          obtain ⟨hb1, hs1⟩ := Prod.mk.inj hD
          exact Or.inr ⟨hb2.symm, fun hbt => absurd (hb1.trans hbt) (by simp)⟩
        | true =>
          rw [if_pos rfl] at hD
          obtain ⟨u, hu, huf⟩ := hDD rfl
          obtain ⟨t1, t2, t3, tfm, Δ2, hΔ2, hw2, hsp2⟩ :=
            reduceAttrs_shape _ _ _ _ _ _ _ _ _ hD
          exact Or.inr ⟨hb2.symm, fun _ =>
            ⟨u, by rw [hΔ2]; exact List.mem_append.mpr (Or.inl hu), huf⟩⟩

theorem reduceNodePair_compare (tr : Bool) (st : EState) (l r : Node) (mfv : Bool)
    (cur : Option PathPair) (bD bN : Bool) (sD sN : EState)
    (hD : reduceNodePair ⟨tr, true⟩ st l r mfv cur = (bD, sD))
    (hN : reduceNodePair ⟨tr, false⟩ st l r mfv cur = (bN, sN)) :
    (bD = bN ∧ sD = sN) ∨ (bN = false ∧ (bD = true → HasFF sD.pending)) := by
  cases l with
  | var lid lt =>
    cases r with
    | var rid rt =>
      simp only [reduceNodePair] at hD hN
      exact Or.inl (Prod.mk.inj (hD.symm.trans hN))
    | obj ri rt rg attrs2 =>
      simp only [reduceNodePair] at hD hN
      exact Or.inl (Prod.mk.inj (hD.symm.trans hN))
  | obj li lt gm attrs1 =>
    cases r with
    | var rid rt =>
      simp only [reduceNodePair] at hD hN
      exact Or.inl (Prod.mk.inj (hD.symm.trans hN))
    | obj ri rt rg attrs2 =>
      simp only [reduceNodePair] at hD hN
      cases hclv : compareLeafValues ⟨tr, true⟩ (if gm then markGraph st else st)
          (attrs1.length : Int) (attrs2.length : Int) cur with
      | mk b0 st2 =>
      have hclvN : compareLeafValues ⟨tr, false⟩ (if gm then markGraph st else st)
          (attrs1.length : Int) (attrs2.length : Int) cur = (b0, st2) := by
        rw [compareLeafValues_defer tr false true]
        exact hclv
      rw [hclv] at hD
      rw [hclvN] at hN
      cases b0 with
      | false =>
        rw [if_neg (by simp)] at hD hN
        exact Or.inl (Prod.mk.inj (hD.symm.trans hN))
      | true =>
        rw [if_pos rfl] at hD hN
        exact reduceAttrs_compare tr attrs1 attrs2 st2 mfv cur 0 bD bN sD sN hD hN

theorem dispatch_compare (tr : Bool) (st : EState) (l r : Node) (mfv : Bool)
    (cur : Option PathPair) (bD bN : Bool) (sD sN : EState)
    (hD : dispatch ⟨tr, true⟩ st l r mfv cur = (bD, sD))
    (hN : dispatch ⟨tr, false⟩ st l r mfv cur = (bN, sN)) :
    (bD = bN ∧ sD = sN) ∨ (bN = false ∧ (bD = true → HasFF sD.pending)) := by
  rw [dispatch] at hD hN
  cases hml : mlookup st.mapL l.nid with
  | some mapped =>
    rw [hml] at hD hN
    replace hD : checkResult ⟨tr, true⟩ st (decide (mapped = r.nid)) cur = (bD, sD) := hD
    replace hN : checkResult ⟨tr, false⟩ st (decide (mapped = r.nid)) cur = (bN, sN) := hN
    rw [checkResult_defer tr true false] at hD
    exact Or.inl (Prod.mk.inj (hD.symm.trans hN))
  | none =>
    rw [hml] at hD hN
    by_cases hmr : (mlookup st.mapR r.nid).isSome = true
    · rw [if_pos hmr] at hD hN
      replace hD : checkResult ⟨tr, true⟩ st false cur = (bD, sD) := hD
      replace hN : checkResult ⟨tr, false⟩ st false cur = (bN, sN) := hN
      rw [checkResult_defer tr true false] at hD
      exact Or.inl (Prod.mk.inj (hD.symm.trans hN))
    · rw [if_neg hmr] at hD hN
      cases hrnD : reduceNodePair ⟨tr, true⟩ st l r mfv cur with
      | mk bD1 sD1 =>
      cases hrnN : reduceNodePair ⟨tr, false⟩ st l r mfv cur with
      | mk bN1 sN1 =>
      rw [hrnD] at hD
      rw [hrnN] at hN
      replace hD : checkResult ⟨tr, true⟩ sD1 bD1 cur = (bD, sD) := hD
      replace hN : checkResult ⟨tr, false⟩ sN1 bN1 cur = (bN, sN) := hN
      rcases reduceNodePair_compare tr st l r mfv cur bD1 bN1 sD1 sN1 hrnD hrnN with
        ⟨hbe, hse⟩ | ⟨hbN1, hDD⟩
      · subst hbe
        subst hse
        rw [checkResult_defer tr true false] at hD
        exact Or.inl (Prod.mk.inj (hD.symm.trans hN))
      · subst hbN1
        obtain ⟨hbN, n1, n2, n3, n4, n5, n6⟩ := checkResult_shape _ _ _ _ _ _ hN
        obtain ⟨hbD, k1, k2, k3, k4, k5, k6⟩ := checkResult_shape _ _ _ _ _ _ hD
        refine Or.inr ⟨hbN, fun hbt => ?_⟩
        obtain ⟨u, hu, huf⟩ := hDD (hbD.symm.trans hbt)
        exact ⟨u, by rw [k4]; exact hu, huf⟩
/-- The completion branch of the loop reads no engine configuration. -/
theorem runStep_complete_indep (cfg1 cfg2 : Cfg) (st : EState) (t : Task)
    (rest : List Task) (h : st.stack = t :: rest) (hff : t.forceFail = false)
    (hce : t.childrenExpanded = true) :
    runStep cfg1 st = runStep cfg2 st := by
  rw [runStep.eq_def, runStep.eq_def]
  simp only [h]
  rw [if_neg (by simp [hff]), if_pos hce, if_neg (by simp [hff]), if_pos hce]

theorem runStep_eq_pending_fatal (cfg : Cfg) (st : EState) (t : Task) (rest : List Task)
    (h : st.stack = t :: rest) (hff : t.forceFail = false)
    (hce : t.childrenExpanded = false) (hpend : st.pending ≠ []) :
    runStep cfg st = .fatal := by
  rw [runStep.eq_def]
  simp only [h]
  rw [if_neg (by simp [hff]), if_neg (by simp [hce])]
  cases hpq : st.pending with
  | nil => exact absurd hpq hpend
  | cons q qs => simp only [hpq]

theorem runStep_eq_undef_fatal (cfg : Cfg) (st : EState) (t : Task) (rest : List Task)
    (h : st.stack = t :: rest) (hff : t.forceFail = false)
    (hce : t.childrenExpanded = false) (hp : st.pending = [])
    (hund : t.lhs = none ∨ t.rhs = none) :
    runStep cfg st = .fatal := by
  rw [runStep.eq_def]
  simp only [h]
  rw [if_neg (by simp [hff]), if_neg (by simp [hce])]
  simp only [hp]
  rcases hund with hu | hu
  · cases hr2 : t.rhs <;> simp only [hu, hr2]
  · cases hl2 : t.lhs <;> simp only [hu, hl2]

theorem runStep_eq_complete_undef (cfg : Cfg) (st : EState) (t : Task) (rest : List Task)
    (h : st.stack = t :: rest) (hff : t.forceFail = false)
    (hce : t.childrenExpanded = true) (hund : t.lhs = none ∨ t.rhs = none) :
    runStep cfg st = .fatal := by
  rw [runStep.eq_def]
  simp only [h]
  rw [if_neg (by simp [hff]), if_pos hce]
  rcases hund with hu | hu
  · cases hr2 : t.rhs <;> simp only [hu, hr2]
  · cases hl2 : t.lhs <;> simp only [hu, hl2]

theorem runStep_eq_complete_ne (cfg : Cfg) (st : EState) (t : Task) (rest : List Task)
    (l r : Node) (mapped : Nat) (h : st.stack = t :: rest) (hff : t.forceFail = false)
    (hce : t.childrenExpanded = true) (hl : t.lhs = some l) (hr : t.rhs = some r)
    (hml : mlookup st.mapL l.nid = some mapped) (hne : ¬ mapped = r.nid) :
    runStep cfg st = .fatal := by
  rw [runStep.eq_def]
  simp only [h]
  rw [if_neg (by simp [hff]), if_pos hce]
  simp only [hl, hr, hml]
  rw [if_pos hne]

/-- Forward classification of one loop iteration on a nonempty stack:
it ends with verdict `false`, trips a fatal check, or steps with the
finished top task popped (and possibly fresh tasks pushed). -/
theorem runStep_cons_cases (cfg : Cfg) (st : EState) (t : Task) (rest : List Task)
    (hstk : st.stack = t :: rest) :
    (∃ st'', runStep cfg st = .done false st'') ∨
    runStep cfg st = .fatal ∨
    (∃ st', runStep cfg st = .next st' ∧ t.forceFail = false ∧
      (st'.stack = rest ∨ ∃ Δ tE, tE.forceFail = false ∧ st'.stack = Δ ++ tE :: rest)) := by
  by_cases hff : t.forceFail = true
  · cases hcr : checkResult cfg st false t.currentPaths with
    | mk b0 stc =>
    obtain ⟨hb0, _, _, _, _, _, _⟩ := checkResult_shape _ _ _ _ _ _ hcr
    subst hb0
    exact Or.inl ⟨stc, runStep_eq_ff cfg st t rest false stc hstk hff hcr⟩
  · have hffF : t.forceFail = false := by simpa using hff
    by_cases hce : t.childrenExpanded = true
    · cases hl : t.lhs with
      | none =>
        exact Or.inr (Or.inl (runStep_eq_complete_undef cfg st t rest hstk hffF hce
          (Or.inl hl)))
      | some l =>
        cases hr : t.rhs with
        | none =>
          exact Or.inr (Or.inl (runStep_eq_complete_undef cfg st t rest hstk hffF hce
            (Or.inr hr)))
        | some r =>
          cases hml : mlookup st.mapL l.nid with
          | some mapped =>
            by_cases hne : mapped = r.nid
            · subst hne
              have hrs := runStep_eq_complete cfg st t rest l r hstk hffF hce hl hr
                (Or.inl hml)
              cases hgE : t.graphEqual with
              | true =>
                rw [hrs, if_pos hgE]
                exact Or.inr (Or.inr ⟨_, rfl, hffF, Or.inl rfl⟩)
              | false =>
                rw [hrs, if_neg (by simp [hgE])]
                exact Or.inr (Or.inr ⟨_, rfl, hffF, Or.inl rfl⟩)
            · exact Or.inr (Or.inl (runStep_eq_complete_ne cfg st t rest l r mapped
                hstk hffF hce hl hr hml hne))
          | none =>
            have hrs := runStep_eq_complete cfg st t rest l r hstk hffF hce hl hr
              (Or.inr hml)
            cases hgE : t.graphEqual with
            | true =>
              rw [hrs, if_pos hgE]
              exact Or.inr (Or.inr ⟨_, rfl, hffF, Or.inl rfl⟩)
            | false =>
              rw [hrs, if_neg (by simp [hgE])]
              exact Or.inr (Or.inr ⟨_, rfl, hffF, Or.inl rfl⟩)
    · have hceF : t.childrenExpanded = false := by simpa using hce
      cases hpq : st.pending with
      | cons q qs =>
        exact Or.inr (Or.inl (runStep_eq_pending_fatal cfg st t rest hstk hffF hceF
          (by rw [hpq]; simp)))
      | nil =>
        cases hl : t.lhs with
        | none =>
          exact Or.inr (Or.inl (runStep_eq_undef_fatal cfg st t rest hstk hffF hceF hpq
            (Or.inl hl)))
        | some l =>
          cases hr : t.rhs with
          | none =>
            exact Or.inr (Or.inl (runStep_eq_undef_fatal cfg st t rest hstk hffF hceF hpq
              (Or.inr hr)))
          | some r =>
            cases hd : dispatch cfg
                { st with stack := { t with childrenExpanded := true } :: rest }
                l r t.mapFreeVars t.currentPaths with
            | mk b2 st2 =>
            have hrs := runStep_eq_expand cfg st t rest l r b2 st2 hstk hffF hceF hpq
              hl hr hd
            cases b2 with
            | false =>
              rw [if_neg (by simp)] at hrs
              exact Or.inl ⟨st2, hrs⟩
            | true =>
              rw [if_pos rfl] at hrs
              obtain ⟨d1, _, _, _, _, _, _, _, _, _⟩ := dispatch_shape _ _ _ _ _ _ _ _ hd
              obtain ⟨tE, hsE, e1, e2, e3, e4, e5, e6, e7⟩ := stackLike_cons d1
              refine Or.inr (Or.inr ⟨_, hrs, hffF, Or.inr ⟨st2.pending, tE, ?_, ?_⟩⟩)
              · rw [e3]
                exact hffF
              · rw [show ({ st2 with stack := st2.pending ++ st2.stack, pending := [] }
                  : EState).stack = st2.pending ++ st2.stack from rfl, hsE]

theorem runTasks_ff (cfg : Cfg) : ∀ (fuel : Nat) (st : EState), HasFF st.stack →
    ∀ b st', runTasks cfg fuel st = .ok b st' → b = false := by
  intro fuel
  induction fuel with
  | zero =>
    intro st _ b st' h
    rw [runTasks] at h
    cases h
  | succ n ih =>
    intro st hFF b st' h
    obtain ⟨u, hu, huf⟩ := hFF
    cases hstk : st.stack with
    | nil =>
      rw [hstk] at hu
      cases hu
    | cons t rest =>
      rcases runStep_cons_cases cfg st t rest hstk with ⟨st'', hrs⟩ | hrs |
        ⟨stn, hrs, htf, hsh⟩
      · simp only [runTasks, hrs] at h
        injection h with h1 h2
        exact h1.symm
      · simp only [runTasks, hrs] at h
        cases h
      · simp only [runTasks, hrs] at h
        refine ih stn ?_ b st' h
        have hur : u ∈ rest := by
          rw [hstk] at hu
          rcases List.mem_cons.mp hu with he | he
          · rw [he, htf] at huf
            cases huf
          · exact he
        rcases hsh with hsh | ⟨Δ, tE, _, hsh⟩
        · exact ⟨u, by rw [hsh]; exact hur, huf⟩
        · refine ⟨u, ?_, huf⟩
          rw [hsh]
          exact List.mem_append.mpr (Or.inr (List.mem_cons_of_mem tE hur))

theorem runStep_compare (tr : Bool) (st : EState) :
    runStep ⟨tr, true⟩ st = runStep ⟨tr, false⟩ st ∨
    (∃ sN', runStep ⟨tr, false⟩ st = .done false sN' ∧
      ((∃ sD', runStep ⟨tr, true⟩ st = .done false sD') ∨
       (∃ sD', runStep ⟨tr, true⟩ st = .next sD' ∧ HasFF sD'.stack))) := by
  cases hstk : st.stack with
  | nil =>
    exact Or.inl ((runStep_eq_nil _ st hstk).trans (runStep_eq_nil _ st hstk).symm)
  | cons t rest =>
    by_cases hff : t.forceFail = true
    · cases hcr : checkResult ⟨tr, false⟩ st false t.currentPaths with
      | mk b0 stc =>
      have hcrD : checkResult ⟨tr, true⟩ st false t.currentPaths = (b0, stc) := by
        rw [checkResult_defer tr true false]
        exact hcr
      exact Or.inl ((runStep_eq_ff _ st t rest b0 stc hstk hff hcrD).trans
        (runStep_eq_ff _ st t rest b0 stc hstk hff hcr).symm)
    · have hffF : t.forceFail = false := by simpa using hff
      by_cases hce : t.childrenExpanded = true
      · exact Or.inl (runStep_complete_indep ⟨tr, true⟩ ⟨tr, false⟩ st t rest hstk hffF hce)
      · have hceF : t.childrenExpanded = false := by simpa using hce
        cases hpq : st.pending with
        | cons q qs =>
          exact Or.inl ((runStep_eq_pending_fatal _ st t rest hstk hffF hceF
              (by rw [hpq]; simp)).trans
            (runStep_eq_pending_fatal _ st t rest hstk hffF hceF (by rw [hpq]; simp)).symm)
        | nil =>
          cases hl : t.lhs with
          | none =>
            exact Or.inl ((runStep_eq_undef_fatal _ st t rest hstk hffF hceF hpq
                (Or.inl hl)).trans
              (runStep_eq_undef_fatal _ st t rest hstk hffF hceF hpq (Or.inl hl)).symm)
          | some l =>
            cases hr : t.rhs with
            | none =>
              exact Or.inl ((runStep_eq_undef_fatal _ st t rest hstk hffF hceF hpq
                  (Or.inr hr)).trans
                (runStep_eq_undef_fatal _ st t rest hstk hffF hceF hpq (Or.inr hr)).symm)
            | some r =>
              cases hdD : dispatch ⟨tr, true⟩
                  { st with stack := { t with childrenExpanded := true } :: rest }
                  l r t.mapFreeVars t.currentPaths with
              | mk bD2 sD2 =>
              cases hdN : dispatch ⟨tr, false⟩
                  { st with stack := { t with childrenExpanded := true } :: rest }
                  l r t.mapFreeVars t.currentPaths with
              | mk bN2 sN2 =>
              have hrsD := runStep_eq_expand _ st t rest l r bD2 sD2 hstk hffF hceF hpq
                hl hr hdD
              have hrsN := runStep_eq_expand _ st t rest l r bN2 sN2 hstk hffF hceF hpq
                hl hr hdN
              rcases dispatch_compare tr _ l r t.mapFreeVars t.currentPaths bD2 bN2 sD2 sN2
                hdD hdN with ⟨hbe, hse⟩ | ⟨hbN2, hDD⟩
              · subst hbe
                subst hse
                exact Or.inl (hrsD.trans hrsN.symm)
              · subst hbN2
                rw [if_neg (by simp)] at hrsN
                refine Or.inr ⟨sN2, hrsN, ?_⟩
                cases bD2 with
                | false =>
                  rw [if_neg (by simp)] at hrsD
                  exact Or.inl ⟨sD2, hrsD⟩
                | true =>
                  rw [if_pos rfl] at hrsD
                  obtain ⟨u, hu, huf⟩ := hDD rfl
                  exact Or.inr ⟨{ sD2 with stack := sD2.pending ++ sD2.stack, pending := [] }, hrsD, u, List.mem_append.mpr (Or.inl hu), huf⟩

/-- Both engines, run from the same state, return the same boolean. -/
theorem runTasks_lockstep (tr : Bool) : ∀ (fD : Nat) (st : EState) (fN : Nat)
    (bD bN : Bool) (sD sN : EState),
    runTasks ⟨tr, true⟩ fD st = .ok bD sD →
    runTasks ⟨tr, false⟩ fN st = .ok bN sN → bD = bN := by
  intro fD
  induction fD with
  | zero =>
    intro st fN bD bN sD sN hD hN
    rw [runTasks] at hD
    cases hD
  | succ n ih =>
    intro st fN bD bN sD sN hD hN
    cases fN with
    | zero =>
      rw [runTasks] at hN
      cases hN
    | succ m =>
      rcases runStep_compare tr st with heq | ⟨sN', hrsN, hDD⟩
      · cases hrs : runStep ⟨tr, true⟩ st with
        | next stn =>
          have hrsN2 : runStep ⟨tr, false⟩ st = .next stn := heq.symm.trans hrs
          simp only [runTasks, hrs] at hD
          simp only [runTasks, hrsN2] at hN
          exact ih stn m bD bN sD sN hD hN
        | done b2 st2 =>
          have hrsN2 : runStep ⟨tr, false⟩ st = .done b2 st2 := heq.symm.trans hrs
          simp only [runTasks, hrs] at hD
          simp only [runTasks, hrsN2] at hN
          injection hD with hD1 hD2
          injection hN with hN1 hN2
          rw [← hD1, ← hN1]
        | fatal =>
          simp only [runTasks, hrs] at hD
          cases hD
      · simp only [runTasks, hrsN] at hN
        injection hN with hN1 hN2
        rcases hDD with ⟨sD', hrsD⟩ | ⟨sD', hrsD, hffD⟩
        · simp only [runTasks, hrsD] at hD
          injection hD with hD1 hD2
          rw [← hD1, ← hN1]
        · simp only [runTasks, hrsD] at hD
          have hbD := runTasks_ff ⟨tr, true⟩ n sD' hffD bD sD hD
          rw [hbD, ← hN1]

theorem eEqual_tix_ne_any (cfg : Cfg) (fuel : Nat) (lhs rhs : AnyVal) (mfv : Bool)
    (htix : ¬ lhs.tix = rhs.tix) :
    eEqual cfg fuel lhs rhs mfv =
      .ok (checkResult cfg emptyState false
            (if cfg.tracing then some ([], []) else none)).1
          (checkResult cfg emptyState false
            (if cfg.tracing then some ([], []) else none)).2 := by
  rw [eEqual.eq_def, if_pos (by simp [htix])]

theorem eEqual_prim_eq_any (cfg : Cfg) (fuel : Nat) (lhs rhs : AnyVal) (mfv : Bool)
    (htix : lhs.tix = rhs.tix) (hsmall : lhs.tix < staticObjBegin)
    (hbits : lhs.bits = rhs.bits) :
    eEqual cfg fuel lhs rhs mfv = .ok true emptyState := by
  rw [eEqual.eq_def, if_neg (by simp [htix]), if_pos hsmall, if_pos hbits]

theorem eEqual_prim_ne_any (cfg : Cfg) (fuel : Nat) (lhs rhs : AnyVal) (mfv : Bool)
    (htix : lhs.tix = rhs.tix) (hsmall : lhs.tix < staticObjBegin)
    (hbits : ¬ lhs.bits = rhs.bits) :
    eEqual cfg fuel lhs rhs mfv =
      .ok (checkResult cfg emptyState false
            (if cfg.tracing then some ([], []) else none)).1
          (checkResult cfg emptyState false
            (if cfg.tracing then some ([], []) else none)).2 := by
  rw [eEqual.eq_def, if_neg (by simp [htix]), if_pos hsmall, if_neg hbits]

theorem eEqual_mixed_fatal (cfg : Cfg) (fuel : Nat) (lhs rhs : AnyVal) (mfv : Bool)
    (htix : lhs.tix = rhs.tix) (hsmall : ¬ lhs.tix < staticObjBegin)
    (hmix : (∀ n : Node, lhs ≠ .obj n) ∨ (∀ n : Node, rhs ≠ .obj n)) :
    eEqual cfg fuel lhs rhs mfv = .fatal := by
  rw [eEqual.eq_def, if_neg (by simp [htix]), if_neg hsmall]
  rcases hmix with hx | hx
  · cases lhs with
    | obj n => exact absurd rfl (hx n)
    | prim ti bits => cases rhs <;> rfl
  · cases rhs with
    | obj n => exact absurd rfl (hx n)
    | prim ti bits => cases lhs <;> rfl

/-- Claim C7: fail deferral is a diagnostic-quality knob, not a semantic
one.  For all roots, every `map_free_vars`, and either tracing mode, the
boolean verdict of the top-level `Equal` is identical whether the engine is
built with `defer_fails` enabled or disabled; deferral only shifts which
`first_mismatch` pair gets recorded. -/
theorem deferFails_boolean_invariant (tr : Bool) (lhs rhs : AnyVal) (mfv : Bool)
    (fD fN : Nat) (bD bN : Bool) (sD sN : EState)
    (hD : eEqual ⟨tr, true⟩ fD lhs rhs mfv = .ok bD sD)
    (hN : eEqual ⟨tr, false⟩ fN lhs rhs mfv = .ok bN sN) :
    bD = bN := by
  by_cases htix : lhs.tix = rhs.tix
  · by_cases hsmall : lhs.tix < staticObjBegin
    · by_cases hbits : lhs.bits = rhs.bits
      · rw [eEqual_prim_eq_any ⟨tr, true⟩ fD lhs rhs mfv htix hsmall hbits] at hD
        rw [eEqual_prim_eq_any ⟨tr, false⟩ fN lhs rhs mfv htix hsmall hbits] at hN
        injection hD with hD1 hD2
        injection hN with hN1 hN2
        rw [← hD1, ← hN1]
      · rw [eEqual_prim_ne_any ⟨tr, true⟩ fD lhs rhs mfv htix hsmall hbits] at hD
        rw [eEqual_prim_ne_any ⟨tr, false⟩ fN lhs rhs mfv htix hsmall hbits] at hN
        injection hD with hD1 hD2
        injection hN with hN1 hN2
        rw [← hD1, ← hN1, checkResult_fst, checkResult_fst]
    · cases lhs with
      | prim ti bits =>
        rw [eEqual_mixed_fatal ⟨tr, true⟩ fD _ rhs mfv htix hsmall
          (Or.inl (fun n => by simp))] at hD
        cases hD
      | obj l =>
        cases rhs with
        | prim ti bits =>
          rw [eEqual_mixed_fatal ⟨tr, true⟩ fD _ _ mfv htix hsmall
            (Or.inr (fun n => by simp))] at hD
          cases hD
        | obj r =>
          have htix' : l.tindex = r.tindex := by
            rw [AnyVal.tix, AnyVal.tix] at htix
            omega
          rw [eEqual_obj ⟨tr, true⟩ fD l r mfv htix'] at hD
          rw [eEqual_obj ⟨tr, false⟩ fN l r mfv htix'] at hN
          exact runTasks_lockstep tr fD (initState tr l r mfv) fN bD bN sD sN hD hN
  · rw [eEqual_tix_ne_any ⟨tr, true⟩ fD lhs rhs mfv htix] at hD
    rw [eEqual_tix_ne_any ⟨tr, false⟩ fN lhs rhs mfv htix] at hN
    injection hD with hD1 hD2
    injection hN with hN1 hN2
    rw [← hD1, ← hN1, checkResult_fst, checkResult_fst]

/-- Witness for C7 on a run that actually defers: the child type indices
differ, so the deferring engine enqueues a force-fail task and still ends
up answering `false`, like the non-deferring engine. -/
theorem deferFails_boolean_invariant_witness :
    ∃ sD sN : EState,
      eEqual ⟨true, true⟩ 9 (.obj (.obj 1 0 false [.child (some (.var 10 1))]))
        (.obj (.obj 2 0 false [.child (some (.var 11 2))])) false = .ok false sD ∧
      eEqual ⟨true, false⟩ 9 (.obj (.obj 1 0 false [.child (some (.var 10 1))]))
        (.obj (.obj 2 0 false [.child (some (.var 11 2))])) false = .ok false sN ∧
      (false : Bool) = false :=
  ⟨_, _, rfl, rfl,
    deferFails_boolean_invariant true (.obj (.obj 1 0 false [.child (some (.var 10 1))]))
      (.obj (.obj 2 0 false [.child (some (.var 11 2))])) false 9 9 false false _ _
      rfl rfl⟩

/-! ## Claim C8: termination of `RunTasks`

The tree representation of object graphs above cannot express a physical
reference cycle, which is exactly what the cycle half of the claim is
about.  The machine below is the same `RunTasks` stack machine (in the
plain `SEqualHandlerDefault(false, nullptr, false)` configuration: no path
tracing, no fail deferral, hence no force-fail tasks), but with the object
graph held as a heap of id-addressed nodes, so a node's reference
attribute may point back at the node itself. -/

inductive HAttr where
  | leaf (v : Int)
  | child (c : Option Nat)
  | defChild (c : Option Nat)

/-- A heap node: type index, whether its reducer calls `MarkGraphNode`,
and its ordered attributes (references are heap ids). -/
structure HNode where
  tindex : Nat
  graphMark : Bool
  attrs : List HAttr

structure HTask where
  lhs : Option Nat
  rhs : Option Nat
  mapFreeVars : Bool
  childrenExpanded : Bool
  graphEqual : Bool

structure HState where
  pending : List HTask
  stack : List HTask
  mapL : List (Nat × Nat)
  mapR : List (Nat × Nat)

def hlookup (m : List (Nat × HNode)) (k : Nat) : Option HNode :=
  match m with
  | [] => none
  | (k', v) :: rest => if k' = k then some v else hlookup rest k

/-- The early-result rules of `SEqualReduce`, on heap ids (object identity
is id equality). -/
def hEarly (heap : List (Nat × HNode)) (st : HState) (lhs rhs : Option Nat) :
    Option Bool :=
  match lhs, rhs with
  | none, none => some true
  | none, some _ => some false
  | some _, none => some false
  | some l, some r =>
    match hlookup heap l, hlookup heap r with
    | some ln, some rn =>
      if ln.tindex ≠ rn.tindex then some false
      else match mlookup st.mapL l with
        | some mapped => some (mapped = r)
        | none => if (mlookup st.mapR r).isSome then some false else none
    | _, _ => some false

/-- `SEqualReduce` without tracing or deferral: an early `false` is
returned directly; an undecided pair becomes one pending task. -/
def hSEqualReduce (heap : List (Nat × HNode)) (st : HState) (lhs rhs : Option Nat)
    (mfv : Bool) : Bool × HState :=
  match hEarly heap st lhs rhs with
  | some b => (b, st)
  | none => (true, { st with pending := st.pending ++ [⟨lhs, rhs, mfv, false, false⟩] })

def hMarkGraph (st : HState) : HState :=
  match st.stack with
  | [] => st
  | t :: rest => { st with stack := { t with graphEqual := true } :: rest }

def hReduceAttr (heap : List (Nat × HNode)) (st : HState) (a1 a2 : HAttr)
    (mfv : Bool) : Bool × HState :=
  match a1, a2 with
  | .leaf v1, .leaf v2 => (decide (v1 = v2), st)
  | .child c1, .child c2 => hSEqualReduce heap st c1 c2 mfv
  | .defChild c1, .defChild c2 => hSEqualReduce heap st c1 c2 true
  | _, _ => (false, st)

def hReduceAttrs (heap : List (Nat × HNode)) :
    List HAttr → List HAttr → HState → Bool → Bool × HState
  | [], [], st, _ => (true, st)
  | a1 :: as1, a2 :: as2, st, mfv =>
    let (b, st') := hReduceAttr heap st a1 a2 mfv
    if b then hReduceAttrs heap as1 as2 st' mfv else (false, st')
  | _, _, st, _ => (false, st)

/-- Modelled from the spec: the generated per-type reducer, as in the tree
model — optional `MarkGraphNode`, attribute count as a primitive compare,
then the attributes in order. -/
def hReduceNodePair (heap : List (Nat × HNode)) (st : HState) (ln rn : HNode)
    (mfv : Bool) : Bool × HState :=
  let st1 := if ln.graphMark then hMarkGraph st else st
  if ln.attrs.length = rn.attrs.length then hReduceAttrs heap ln.attrs rn.attrs st1 mfv
  else (false, st1)

def hDispatch (heap : List (Nat × HNode)) (st : HState) (l r : Nat) (mfv : Bool) :
    Bool × HState :=
  match mlookup st.mapL l with
  | some mapped => (decide (mapped = r), st)
  | none =>
    if (mlookup st.mapR r).isSome then (false, st)
    else match hlookup heap l, hlookup heap r with
      | some ln, some rn => hReduceNodePair heap st ln rn mfv
      | _, _ => (false, st)

inductive HStepRes where
  | next (st : HState)
  | done (b : Bool)
  | fatal

/-- One iteration of the `RunTasks` loop over the heap. -/
def hRunStep (heap : List (Nat × HNode)) (st : HState) : HStepRes :=
  match st.stack with
  | [] => .done true
  | t :: rest =>
    if t.childrenExpanded then
      match t.lhs, t.rhs with
      | some l, some r =>
        match mlookup st.mapL l with
        | some mapped =>
          if mapped ≠ r then .fatal
          else if t.graphEqual then
            .next ⟨st.pending, rest, minsert st.mapL l r, minsert st.mapR r l⟩
          else .next { st with stack := rest }
        | none =>
          if t.graphEqual then
            .next ⟨st.pending, rest, minsert st.mapL l r, minsert st.mapR r l⟩
          else .next { st with stack := rest }
      | _, _ => .fatal
    else
      match st.pending with
      | _ :: _ => .fatal
      | [] =>
        match t.lhs, t.rhs with
        | some l, some r =>
          let st1 := { st with stack := { t with childrenExpanded := true } :: rest }
          let (b, st2) := hDispatch heap st1 l r t.mapFreeVars
          if b then .next { st2 with stack := st2.pending ++ st2.stack, pending := [] }
          else .done false
        | _, _ => .fatal

inductive HRunRes where
  | ok (b : Bool)
  | fatal
  | outOfFuel

def hRunTasks (heap : List (Nat × HNode)) : Nat → HState → HRunRes
  | 0, _ => .outOfFuel
  | fuel + 1, st =>
    match hRunStep heap st with
    | .next st' => hRunTasks heap fuel st'
    | .done b => .ok b
    | .fatal => .fatal

/-- A one-node heap whose node's only attribute points back at the node:
the smallest physically cyclic object graph. -/
def cycHeap : List (Nat × HNode) := [(0, ⟨7, true, [.child (some 0)]⟩)]

def cycTask : HTask := ⟨some 0, some 0, false, false, false⟩

/-- Expanding the root pair `(0, 0)` of the cyclic heap spawns the very
same pair again: the stack only ever grows. -/
theorem hRunStep_cyc (rest : List HTask) :
    hRunStep cycHeap ⟨[], cycTask :: rest, [], []⟩ =
      .next ⟨[], cycTask :: ⟨some 0, some 0, false, true, true⟩ :: rest, [], []⟩ := rfl

theorem hRunTasks_cyc (fuel : Nat) : ∀ rest : List HTask,
    hRunTasks cycHeap fuel ⟨[], cycTask :: rest, [], []⟩ = .outOfFuel := by
  induction fuel with
  | zero =>
    intro rest
    rfl
  | succ n ih =>
    intro rest
    simp only [hRunTasks, hRunStep_cyc rest]
    exact ih (⟨some 0, some 0, false, true, true⟩ :: rest)

/-- Claim C8, counterexample: on a finite object graph with a cycle the
engine does **not** terminate within any bound in the graph size — after a
thousand loop iterations on the one-node self-referential graph it is
still running (`hRunTasks_cyc` proves the same for every fuel).  The remap
maps are only filled in when a task completes (post-order), so a
self-referential node re-spawns its own comparison before any map entry
exists.  (Reference-counted TVM objects cannot form such a cycle without
mutation, which is why the loop is unreachable in practice.) -/
theorem runTasks_cyclic_diverges :
    hRunTasks cycHeap 1000 ⟨[], [cycTask], [], []⟩ = .outOfFuel :=
  hRunTasks_cyc 1000 []

/-- Fuel which provably suffices for an acyclic run: linear in the size of
the left input graph. -/
def eFuelBound : AnyVal → Nat
  | .obj n => 2 * n.size + 2
  | .prim _ _ => 1

/-- Claim C8, amended: for **acyclic** finite object graphs the top-level
`Equal` terminates — the stack engine run completes within a fuel budget
**linear** in the input graph size (at most `2 * size + 2` loop
iterations, and each iteration dispatches at most one per-type reducer
call, so the reducers run O(|nodes|) times), trips no fatal check, and
never touches the host stack depth (the machine recursion is the
fuel-indexed loop, not the graph). -/
theorem equal_terminates_acyclic (cfg : Cfg) (lhs rhs : AnyVal) (mfv : Bool)
    (hl : WfAny lhs) (hr : WfAny rhs) :
    ∃ b st', eEqual cfg (eFuelBound lhs) lhs rhs mfv = .ok b st' := by
  by_cases htix : lhs.tix = rhs.tix
  · by_cases hsmall : lhs.tix < staticObjBegin
    · by_cases hbits : lhs.bits = rhs.bits
      · exact ⟨true, emptyState, eEqual_prim_eq_any cfg _ lhs rhs mfv htix hsmall hbits⟩
      · exact ⟨_, _, eEqual_prim_ne_any cfg _ lhs rhs mfv htix hsmall hbits⟩
    · cases lhs with
      | prim ti bits =>
        have hti : ti < staticObjBegin := hl
        exact absurd (show (AnyVal.prim ti bits).tix < staticObjBegin from hti) hsmall
      | obj l =>
        cases rhs with
        | prim ti bits =>
          have hti : ti < staticObjBegin := hr
          rw [htix] at hsmall
          exact absurd (show (AnyVal.prim ti bits).tix < staticObjBegin from hti) hsmall
        | obj r =>
          have htix' : l.tindex = r.tindex := by
            rw [AnyVal.tix, AnyVal.tix] at htix
            omega
          rw [eEqual_obj cfg (eFuelBound (.obj l)) l r mfv htix']
          refine runTasks_ok cfg (eFuelBound (.obj l)) (initState cfg.tracing l r mfv)
            (inv_initState cfg.tracing l r mfv hl hr) ?_
          rw [stateM_initState, eFuelBound]
          omega
  · exact ⟨_, _, eEqual_tix_ne_any cfg _ lhs rhs mfv htix⟩

/-- Witness for the amended C8 on a concrete three-node graph pair. -/
theorem equal_terminates_acyclic_witness :
    WfAny (.obj (.obj 1 0 true [.child (some (.var 3 1)), .leaf 9])) ∧
    WfAny (.obj (.obj 2 0 true [.child (some (.var 4 1)), .leaf 9])) ∧
    ∃ b st', eEqual ⟨true, true⟩
      (eFuelBound (.obj (.obj 1 0 true [.child (some (.var 3 1)), .leaf 9])))
      (.obj (.obj 1 0 true [.child (some (.var 3 1)), .leaf 9]))
      (.obj (.obj 2 0 true [.child (some (.var 4 1)), .leaf 9])) true = .ok b st' :=
  ⟨by decide, by decide,
    equal_terminates_acyclic ⟨true, true⟩
      (.obj (.obj 1 0 true [.child (some (.var 3 1)), .leaf 9]))
      (.obj (.obj 2 0 true [.child (some (.var 4 1)), .leaf 9])) true
      (by decide) (by decide)⟩

end SEq

